import Mathlib

/-!
Verification of the Alto filesystem engine (fs.c) of the adar repository.

The C code is shallowly embedded: machine integers become `Nat` with explicit
`% 65536` (resp. `% 256`) where the C code truncates to `uint16_t` (resp.
`uint8_t`), page data areas become functions `Nat → Nat`, fallible functions
return `Option`, and unbounded `while` loops become fuel-indexed step
functions.  All definitions follow `src/fs.c`; the few constants that live in
a header that is not part of the sources are modelled from the spec and say
so in their doc comments.
-/

namespace Adar

/-- Serial number of a file: two label words (file type word and file id word). -/
structure SerialNumber where
  word1 : Nat
  word2 : Nat
deriving DecidableEq

/-- File entry: serial number, version, a blank word and the leader page VDA. -/
structure FileEntry where
  sn : SerialNumber
  version : Nat
  blank : Nat
  leader_vda : Nat
deriving DecidableEq

/-- Position inside an open file: current page VDA, page number, offset in page. -/
structure Position where
  vda : Nat
  pgnum : Nat
  pos : Nat
deriving DecidableEq

/-- An open file: the file entry, the position, and the sticky error flag. -/
structure OpenFile where
  fe : FileEntry
  pos : Position
  error : Bool
deriving DecidableEq

/-- Disk geometry. -/
structure Geometry where
  num_cylinders : Nat
  num_heads : Nat
  num_sectors : Nat
deriving DecidableEq

/-- Page label, as laid out in `struct page` of fs.c. -/
structure Label where
  next_rda : Nat
  prev_rda : Nat
  unused : Nat
  nbytes : Nat
  file_pgnum : Nat
  version : Nat
  sn : SerialNumber
deriving DecidableEq

/-- A filesystem page: derived VDA, two header words, label, 512 data bytes
(modelled as a function from byte offset to byte value). -/
structure Page where
  page_vda : Nat
  header0 : Nat
  header1 : Nat
  label : Label
  data : Nat → Nat

/-- The filesystem: geometry, total number of pages, and the page store
(modelled as a function from VDA to page; only indices below `length` are
meaningful). -/
structure Fs where
  dg : Geometry
  length : Nat
  pages : Nat → Page

/-- Number of data bytes in a page. -/
def PAGE_DATA_SIZE : Nat := 512

/-- Maximum filename length (including the length byte). -/
def FILENAME_LENGTH : Nat := 40

/-- Version sentinel of a free page (0xFFFF). -/
def VERSION_FREE : Nat := 65535

/-- Modelled from the spec: the sentinel marking known-bad pages.  The header
defining `VERSION_BAD` is not among the sources; the spec only requires a
fixed sentinel distinct from the free sentinel 0xFFFF and from 0. -/
def VERSION_BAD : Nat := 32767

/-- Modelled from the spec: the directory bit of the first serial-number word
(file type 0x8000 marks directories).  The header defining `SN_DIRECTORY` is
not among the sources. -/
def SN_DIRECTORY : Nat := 32768

/-- Geometry accepted by fs_create. -/
def validGeometry (dg : Geometry) : Prop :=
  dg.num_heads ≤ 2 ∧ dg.num_sectors ≤ 15 ∧ dg.num_cylinders < 512

instance (dg : Geometry) : Decidable (validGeometry dg) := by
  unfold validGeometry
  infer_instance

/-- Filesystem length computed by fs_create (`uint16_t` assignment). -/
def geomLength (dg : Geometry) : Nat :=
  dg.num_cylinders * dg.num_heads * dg.num_sectors % 65536

/-- Conversion of a real disk address to a virtual disk address, after
real_to_virtual of fs.c.  The cylinder, head and sector fields are unpacked
with the same shifts and masks as the C code. -/
def real_to_virtual (fs : Fs) (rda : Nat) : Option Nat :=
  if rda >>> 3 % 512 ≥ fs.dg.num_cylinders ∨ rda >>> 2 % 2 ≥ fs.dg.num_heads ∨
      rda >>> 12 % 16 ≥ fs.dg.num_sectors ∨ rda % 4 ≠ 0 then
    none
  else
    some ((rda >>> 3 % 512 * fs.dg.num_heads + rda >>> 2 % 2) * fs.dg.num_sectors +
      rda >>> 12 % 16)

/-- Conversion of a virtual disk address to a real disk address, after
virtual_to_real of fs.c (the result is stored into a `uint16_t`, hence the
mod). -/
def virtual_to_real (fs : Fs) (vda : Nat) : Option Nat :=
  if vda ≥ fs.length then
    none
  else
    some (((vda / fs.dg.num_sectors / fs.dg.num_heads) <<< 3 |||
           (vda / fs.dg.num_sectors % fs.dg.num_heads) <<< 2 |||
           (vda % fs.dg.num_sectors) <<< 12) % 65536)

/-- Auxiliary bit-arithmetic fact: an or with a shifted value whose low bits
are free is an addition. -/
theorem shiftLeft_lor_eq_add (a : Nat) : ∀ (k : Nat) (b : Nat), b < 2 ^ k →
    (a <<< k) ||| b = a * 2 ^ k + b := by
  intro k
  induction k with
  | zero =>
    intro b hb
    interval_cases b
    simp [Nat.shiftLeft_eq]
  | succ k ih =>
    intro b hb
    have hb2 : b >>> 1 < 2 ^ k := by
      rw [Nat.shiftRight_one]
      omega
    have h1 : a <<< (k + 1) = Nat.bit false (a <<< k) := by
      simp [Nat.bit, Nat.shiftLeft_eq, Nat.pow_succ]
      ring
    have h2 : Nat.bit (decide (b % 2 = 1)) (b >>> 1) = b :=
      Nat.bit_decide_mod_two_eq_one_shiftRight_one b
    have hkey : a * 2 ^ (k + 1) = 2 * (a * 2 ^ k) := by ring
    calc (a <<< (k+1)) ||| b
        = Nat.bit false (a <<< k) ||| Nat.bit (decide (b % 2 = 1)) (b >>> 1) := by
          rw [h1, h2]
      _ = Nat.bit (false || decide (b % 2 = 1)) ((a <<< k) ||| (b >>> 1)) := by
          rw [Nat.lor_bit]
      _ = a * 2 ^ (k+1) + b := by
          rw [Bool.false_or, Nat.bit_val, ih _ hb2, Nat.shiftRight_one, hkey]
          have := Nat.mod_two_eq_zero_or_one b
          rcases this with h | h
          · simp [h]
            omega
          · simp [h]
            omega

/-- The packed RDA of virtual_to_real, written as plain arithmetic. -/
theorem rda_pack_eq (c h s : Nat) (hc : c < 512) (hh : h < 2) (_hs : s < 16) :
    c <<< 3 ||| h <<< 2 ||| s <<< 12 = s * 4096 + (c * 8 + h * 4) := by
  have e1 : h <<< 2 = h * 4 := by
    rw [Nat.shiftLeft_eq]
  have e2 : c <<< 3 ||| h <<< 2 = c * 8 + h * 4 := by
    rw [e1]
    have := shiftLeft_lor_eq_add c 3 (h * 4) (by omega)
    simpa using this
  rw [Nat.lor_comm (c <<< 3 ||| h <<< 2) (s <<< 12), e2]
  have := shiftLeft_lor_eq_add s 12 (c * 8 + h * 4) (by norm_num; omega)
  simpa using this

/-- Field extraction from a packed RDA. -/
theorem rda_extract (a b c r : Nat) (ha : a < 512) (hb : b < 2) (hc : c < 16)
    (hr : r = c * 4096 + (a * 8 + b * 4)) :
    r >>> 3 % 512 = a ∧ r >>> 2 % 2 = b ∧ r >>> 12 % 16 = c ∧ r % 4 = 0 := by
  have e3 : r >>> 3 = r / 8 := by rw [Nat.shiftRight_eq_div_pow]
  have e2 : r >>> 2 = r / 4 := by rw [Nat.shiftRight_eq_div_pow]
  have e12 : r >>> 12 = r / 4096 := by rw [Nat.shiftRight_eq_div_pow]
  refine ⟨?_, ?_, ?_, ?_⟩
  · rw [e3]; omega
  · rw [e2]; omega
  · rw [e12]; omega
  · omega

/-- For every geometry accepted by create and every vda below the length,
virtual_to_real succeeds and real_to_virtual maps the result back to vda
(working form used by later developments). -/
theorem addr_round_trip_aux (fs : Fs) (vda : Nat)
    (hg : validGeometry fs.dg)
    (hlen : fs.length = geomLength fs.dg)
    (hv : vda < fs.length) :
    ∃ rda, virtual_to_real fs vda = some rda ∧
      real_to_virtual fs rda = some vda := by
  obtain ⟨hH, hS, hC⟩ := hg
  have hprod : fs.dg.num_cylinders * fs.dg.num_heads * fs.dg.num_sectors ≤ 511 * 2 * 15 :=
    Nat.mul_le_mul (Nat.mul_le_mul (by omega) hH) hS
  have hvda : vda < fs.dg.num_cylinders * fs.dg.num_heads * fs.dg.num_sectors := by
    rw [hlen] at hv
    unfold geomLength at hv
    omega
  have hSpos : 0 < fs.dg.num_sectors := by
    rcases Nat.eq_zero_or_pos fs.dg.num_sectors with h0 | h
    · rw [h0, Nat.mul_zero] at hvda
      exact absurd hvda (Nat.not_lt_zero _)
    · exact h
  have hHpos : 0 < fs.dg.num_heads := by
    rcases Nat.eq_zero_or_pos fs.dg.num_heads with h0 | h
    · rw [h0, Nat.mul_zero, Nat.zero_mul] at hvda
      exact absurd hvda (Nat.not_lt_zero _)
    · exact h
  have hv1 : vda < fs.dg.num_sectors * (fs.dg.num_cylinders * fs.dg.num_heads) := by
    calc vda < fs.dg.num_cylinders * fs.dg.num_heads * fs.dg.num_sectors := hvda
    _ = fs.dg.num_sectors * (fs.dg.num_cylinders * fs.dg.num_heads) := by ring
  have h1 : vda / fs.dg.num_sectors < fs.dg.num_cylinders * fs.dg.num_heads :=
    Nat.div_lt_of_lt_mul hv1
  have h2 : vda / fs.dg.num_sectors < fs.dg.num_heads * fs.dg.num_cylinders := by
    rw [Nat.mul_comm] at h1
    exact h1
  have ha : vda / fs.dg.num_sectors / fs.dg.num_heads < fs.dg.num_cylinders :=
    Nat.div_lt_of_lt_mul h2
  have hb : vda / fs.dg.num_sectors % fs.dg.num_heads < fs.dg.num_heads :=
    Nat.mod_lt _ hHpos
  have hc : vda % fs.dg.num_sectors < fs.dg.num_sectors :=
    Nat.mod_lt _ hSpos
  have hpack : (vda / fs.dg.num_sectors / fs.dg.num_heads) <<< 3 |||
      (vda / fs.dg.num_sectors % fs.dg.num_heads) <<< 2 |||
      (vda % fs.dg.num_sectors) <<< 12 =
      vda % fs.dg.num_sectors * 4096 +
        (vda / fs.dg.num_sectors / fs.dg.num_heads * 8 +
         vda / fs.dg.num_sectors % fs.dg.num_heads * 4) :=
    rda_pack_eq (vda / fs.dg.num_sectors / fs.dg.num_heads)
      (vda / fs.dg.num_sectors % fs.dg.num_heads)
      (vda % fs.dg.num_sectors) (by omega) (by omega) (by omega)
  obtain ⟨k1, k2, k3, k4⟩ := rda_extract
    (vda / fs.dg.num_sectors / fs.dg.num_heads)
    (vda / fs.dg.num_sectors % fs.dg.num_heads)
    (vda % fs.dg.num_sectors) _ (by omega) (by omega) (by omega) rfl
  have hrda_lt : vda % fs.dg.num_sectors * 4096 +
      (vda / fs.dg.num_sectors / fs.dg.num_heads * 8 +
       vda / fs.dg.num_sectors % fs.dg.num_heads * 4) < 65536 := by omega
  refine ⟨vda % fs.dg.num_sectors * 4096 +
      (vda / fs.dg.num_sectors / fs.dg.num_heads * 8 +
       vda / fs.dg.num_sectors % fs.dg.num_heads * 4), ?_, ?_⟩
  · unfold virtual_to_real
    rw [if_neg (by omega), hpack, Nat.mod_eq_of_lt hrda_lt]
  · unfold real_to_virtual
    rw [k1, k2, k3]
    rw [if_neg (by push_neg; exact ⟨ha, hb, hc, k4⟩)]
    have hrecon : (vda / fs.dg.num_sectors / fs.dg.num_heads * fs.dg.num_heads +
        vda / fs.dg.num_sectors % fs.dg.num_heads) * fs.dg.num_sectors +
        vda % fs.dg.num_sectors = vda := by
      rw [Nat.div_add_mod' (vda / fs.dg.num_sectors) fs.dg.num_heads,
        Nat.div_add_mod' vda fs.dg.num_sectors]
    rw [hrecon]

/-- C5: for every geometry accepted by create and every vda below the length,
virtual_to_real succeeds and real_to_virtual maps the result back to vda. -/
theorem addr_round_trip (fs : Fs) (vda : Nat)
    (hg : validGeometry fs.dg)
    (hlen : fs.length = geomLength fs.dg)
    (hv : vda < fs.length) :
    ∃ rda, virtual_to_real fs vda = some rda ∧
      real_to_virtual fs rda = some vda :=
  addr_round_trip_aux fs vda hg hlen hv

/-- Default page used to build concrete filesystems in witnesses. -/
def zeroPage : Page :=
  ⟨0, 0, 0, ⟨0, 0, 0, 0, 0, 0, ⟨0, 0⟩⟩, fun _ => 0⟩

/-- Concrete filesystem with Alto geometry, only used as a witness input. -/
def altoFs : Fs :=
  ⟨⟨203, 2, 12⟩, 4872, fun _ => zeroPage⟩

/-- Witness for addr_round_trip at the Alto geometry (203, 2, 12) and vda 1. -/
theorem addr_round_trip_witness :
    ∃ rda, virtual_to_real altoFs 1 = some rda ∧
      real_to_virtual altoFs rda = some 1 :=
  addr_round_trip altoFs 1 (by decide) (by decide) (by decide)

/-- Replace one page of the page store. -/
def setPage (fs : Fs) (v : Nat) (pg : Page) : Fs :=
  { fs with pages := fun w => if w = v then pg else fs.pages w }

/-- The ten metadata words of a page following the discarded first word, in
the order they appear in `struct page`. -/
def pageMetaWords (pg : Page) : List Nat :=
  [pg.header0, pg.header1, pg.label.next_rda, pg.label.prev_rda,
   pg.label.unused, pg.label.nbytes, pg.label.file_pgnum, pg.label.version,
   pg.label.sn.word1, pg.label.sn.word2]

/-- Little-endian encoding of one 16-bit word, as written by fs_save_image. -/
def encodeWord (w : Nat) : List Nat :=
  [w % 256, w >>> 8 % 256]

/-- External encoding of one page: discarded word (holding the vda), the ten
metadata words in little-endian order, then the 512 data bytes swapped in
pairs. -/
def encodePage (vda : Nat) (pg : Page) : List Nat :=
  encodeWord vda ++ (pageMetaWords pg).flatMap encodeWord ++
    (List.range 512).map (fun j => pg.data (j ^^^ 1) % 256)

/-- Byte image produced by fs_save_image. -/
def fs_save_image (fs : Fs) : List Nat :=
  (List.range fs.length).flatMap (fun vda => encodePage vda (fs.pages vda))

/-- Reassembly of a 16-bit word from two little-endian bytes, as read by
fs_load_image. -/
def decodeWord (b0 b1 : Nat) : Nat :=
  b0 % 256 ||| (b1 % 256) <<< 8

/-- Parsing of one 534-byte page record, as fs_load_image stores it: the
first word is discarded and replaced by the loop index. -/
def parsePage (vda : Nat) (chunk : List Nat) : Page :=
  { page_vda := vda
    header0 := decodeWord (chunk.getD 2 0) (chunk.getD 3 0)
    header1 := decodeWord (chunk.getD 4 0) (chunk.getD 5 0)
    label :=
      { next_rda := decodeWord (chunk.getD 6 0) (chunk.getD 7 0)
        prev_rda := decodeWord (chunk.getD 8 0) (chunk.getD 9 0)
        unused := decodeWord (chunk.getD 10 0) (chunk.getD 11 0)
        nbytes := decodeWord (chunk.getD 12 0) (chunk.getD 13 0)
        file_pgnum := decodeWord (chunk.getD 14 0) (chunk.getD 15 0)
        version := decodeWord (chunk.getD 16 0) (chunk.getD 17 0)
        sn := { word1 := decodeWord (chunk.getD 18 0) (chunk.getD 19 0)
                word2 := decodeWord (chunk.getD 20 0) (chunk.getD 21 0) } }
    data := fun i => chunk.getD (22 + (i ^^^ 1)) 0 }

/-- Loading loop of fs_load_image: reads `n` pages starting at index `vda`,
534 bytes per page, failing on a short stream. -/
def loadPages (pages : Nat → Page) (vda : Nat) : Nat → List Nat →
    Option ((Nat → Page) × List Nat)
  | 0, stream => some (pages, stream)
  | n + 1, stream =>
    if stream.length < 534 then
      none
    else
      loadPages
        (fun w => if w = vda then parsePage vda (stream.take 534) else pages w)
        (vda + 1) n (stream.drop 534)

/-- fs_load_image: reads exactly `length` pages and rejects trailing bytes. -/
def fs_load_image (fs : Fs) (stream : List Nat) : Option Fs :=
  match loadPages fs.pages 0 fs.length stream with
  | none => none
  | some (pages, rest) =>
    if rest = [] then some { fs with pages := pages } else none

/-- All on-page quantities fit their C types: metadata words are 16-bit and
data bytes are 8-bit. -/
def pageBounded (pg : Page) : Prop :=
  pg.header0 < 65536 ∧ pg.header1 < 65536 ∧ pg.label.next_rda < 65536 ∧
  pg.label.prev_rda < 65536 ∧ pg.label.unused < 65536 ∧
  pg.label.nbytes < 65536 ∧ pg.label.file_pgnum < 65536 ∧
  pg.label.version < 65536 ∧ pg.label.sn.word1 < 65536 ∧
  pg.label.sn.word2 < 65536 ∧ ∀ i, i < 512 → pg.data i < 256

instance (pg : Page) : Decidable (pageBounded pg) := by
  unfold pageBounded
  infer_instance

/-- Loaded page contents agree with the saved page. -/
def pageAgrees (q p : Page) (v : Nat) : Prop :=
  q.page_vda = v ∧ q.header0 = p.header0 ∧ q.header1 = p.header1 ∧
  q.label = p.label ∧ ∀ i, i < 512 → q.data i = p.data i

/-- Decoding inverts encoding on 16-bit words. -/
theorem decode_encode_word (w : Nat) (hw : w < 65536) :
    decodeWord (w % 256) (w >>> 8 % 256) = w := by
  unfold decodeWord
  have h8 : w >>> 8 = w / 256 := by rw [Nat.shiftRight_eq_div_pow]
  rw [h8]
  have h1 : w / 256 % 256 % 256 = w / 256 := by omega
  have h2 : w % 256 % 256 = w % 256 := by omega
  rw [h1, h2, Nat.lor_comm]
  have := shiftLeft_lor_eq_add (w / 256) 8 (w % 256) (by omega)
  rw [this]
  omega

/-- The encoding of one page takes exactly 534 bytes. -/
theorem encodePage_length (vda : Nat) (pg : Page) :
    (encodePage vda pg).length = 534 := by
  simp [encodePage, encodeWord, pageMetaWords]

/-- Parsing the encoding of a page recovers the page. -/
theorem parse_encodePage (vda : Nat) (pg : Page) (hb : pageBounded pg) :
    pageAgrees (parsePage vda (encodePage vda pg)) pg vda := by
  obtain ⟨b0, b1, b2, b3, b4, b5, b6, b7, b8, b9, bdata⟩ := hb
  have hget : ∀ x, x < 512 →
      (encodePage vda pg).getD (22 + x) 0 = pg.data (x ^^^ 1) % 256 := by
    intro x hx
    unfold encodePage
    have hlen : (encodeWord vda ++ (pageMetaWords pg).flatMap encodeWord).length = 22 := by
      simp [encodeWord, pageMetaWords]
    rw [List.getD_append_right (encodeWord vda ++ (pageMetaWords pg).flatMap encodeWord)
      (List.map (fun j => pg.data (j ^^^ 1) % 256) (List.range 512)) 0 (22 + x)
      (by rw [hlen]; omega)]
    rw [hlen]
    have : 22 + x - 22 = x := by omega
    rw [this]
    simp [List.getD, List.get?_eq_getElem?, List.getElem?_map, List.getElem?_range, hx]
  constructor
  · rfl
  refine ⟨?_, ?_, ?_, ?_⟩
  · exact decode_encode_word pg.header0 b0
  · exact decode_encode_word pg.header1 b1
  · show Label.mk _ _ _ _ _ _ (SerialNumber.mk _ _) = pg.label
    have e2 : pg.label = Label.mk pg.label.next_rda pg.label.prev_rda
        pg.label.unused pg.label.nbytes pg.label.file_pgnum pg.label.version
        (SerialNumber.mk pg.label.sn.word1 pg.label.sn.word2) := by
      rfl
    rw [e2]
    congr 1
    · exact decode_encode_word pg.label.next_rda b2
    · exact decode_encode_word pg.label.prev_rda b3
    · exact decode_encode_word pg.label.unused b4
    · exact decode_encode_word pg.label.nbytes b5
    · exact decode_encode_word pg.label.file_pgnum b6
    · exact decode_encode_word pg.label.version b7
    · congr 1
      · exact decode_encode_word pg.label.sn.word1 b8
      · exact decode_encode_word pg.label.sn.word2 b9
  · intro i hi
    show (encodePage vda pg).getD (22 + (i ^^^ 1)) 0 = pg.data i
    have hxlt : i ^^^ 1 < 512 := Nat.xor_lt_two_pow (n := 9) (by omega) (by omega)
    rw [hget (i ^^^ 1) hxlt]
    rw [Nat.xor_cancel_right]
    exact Nat.mod_eq_of_lt (bdata i hi)

/-- Loading the concatenated encodings of pages `k ... k+n-1` consumes them
and reconstructs each page. -/
theorem loadPages_flatMap (fs : Fs) : ∀ (n k : Nat) (P : Nat → Page) (rest : List Nat),
    (∀ v, k ≤ v → v < k + n → pageBounded (fs.pages v)) →
    ∃ Q, loadPages P k n
        ((List.range' k n).flatMap (fun v => encodePage v (fs.pages v)) ++ rest) =
        some (Q, rest) ∧
      (∀ w, k ≤ w → w < k + n → pageAgrees (Q w) (fs.pages w) w) ∧
      (∀ w, w < k ∨ k + n ≤ w → Q w = P w) := by
  intro n
  induction n with
  | zero =>
    intro k P rest hbnd
    refine ⟨P, ?_, ?_, ?_⟩
    · simp [loadPages]
    · intro w hw1 hw2
      omega
    · intro w hw
      rfl
  | succ n ih =>
    intro k P rest hbnd
    have hrange : List.range' k (n + 1) = k :: List.range' (k + 1) n :=
      List.range'_succ k n 1
    rw [hrange, List.flatMap_cons, List.append_assoc]
    have henclen : (encodePage k (fs.pages k)).length = 534 := encodePage_length _ _
    have hstep : loadPages P k (n + 1)
        (encodePage k (fs.pages k) ++
          ((List.range' (k + 1) n).flatMap (fun v => encodePage v (fs.pages v)) ++ rest)) =
        loadPages (fun w => if w = k then
            parsePage k (encodePage k (fs.pages k)) else P w) (k + 1) n
          ((List.range' (k + 1) n).flatMap (fun v => encodePage v (fs.pages v)) ++ rest) := by
      show (if _ < 534 then none else _) = _
      rw [if_neg (by simp [henclen])]
      rw [List.take_left' henclen, List.drop_left' henclen]
    rw [hstep]
    obtain ⟨Q, hQ, hin, hout⟩ := ih (k + 1)
      (fun w => if w = k then parsePage k (encodePage k (fs.pages k)) else P w) rest
      (by intro v h1 h2; exact hbnd v (by omega) (by omega))
    refine ⟨Q, hQ, ?_, ?_⟩
    · intro w hw1 hw2
      rcases Nat.eq_or_lt_of_le hw1 with he | hl
      · have : Q w = if w = k then parsePage k (encodePage k (fs.pages k)) else P w :=
          hout w (by omega)
        rw [this, if_pos he.symm, ← he]
        exact parse_encodePage k (fs.pages k) (hbnd k (by omega) (by omega))
      · exact hin w (by omega) (by omega)
    · intro w hw
      have : Q w = if w = k then parsePage k (encodePage k (fs.pages k)) else P w :=
        hout w (by omega)
      rw [this, if_neg (by omega)]

/-- C6: loading the saved image succeeds and reproduces the header, label and
every data byte of every page, setting page_vda to the page index. -/
theorem image_round_trip (fs : Fs)
    (hb : ∀ v, v < fs.length → pageBounded (fs.pages v)) :
    ∃ fs', fs_load_image fs (fs_save_image fs) = some fs' ∧
      fs'.dg = fs.dg ∧ fs'.length = fs.length ∧
      ∀ v, v < fs.length → pageAgrees (fs'.pages v) (fs.pages v) v := by
  obtain ⟨Q, hQ, hin, hout⟩ := loadPages_flatMap fs fs.length 0 fs.pages []
    (by intro v h1 h2; exact hb v (by omega))
  have hsave : fs_save_image fs =
      (List.range' 0 fs.length).flatMap (fun v => encodePage v (fs.pages v)) ++ [] := by
    unfold fs_save_image
    rw [List.range_eq_range', List.append_nil]
  refine ⟨{ fs with pages := Q }, ?_, rfl, rfl, ?_⟩
  · unfold fs_load_image
    rw [hsave, hQ]
    rfl
  · intro v hv
    exact hin v (by omega) (by omega)

/-- Concrete one-page filesystem used as witness input for the image codec. -/
def tinyFs : Fs :=
  ⟨⟨1, 1, 1⟩, 1, fun _ => ⟨9, 0, 4096, ⟨11, 22, 33, 44, 55, 66, ⟨77, 88⟩⟩, fun i => i % 256⟩⟩

set_option maxRecDepth 4000 in
/-- Witness for image_round_trip on a concrete one-page filesystem. -/
theorem image_round_trip_witness :
    ∃ fs', fs_load_image tinyFs (fs_save_image tinyFs) = some fs' ∧
      fs'.dg = tinyFs.dg ∧ fs'.length = tinyFs.length ∧
      ∀ v, v < tinyFs.length → pageAgrees (fs'.pages v) (tinyFs.pages v) v :=
  image_round_trip tinyFs (by decide)

/-- Reading of a big-endian 16-bit word from a byte area, after read_word_bs
of fs.c. -/
def read_word_bs (data : Nat → Nat) (offset : Nat) : Nat :=
  data (offset + 1) ||| data offset <<< 8

/-- Decoding of a four-byte Alto time stamp, after read_alto_time of fs.c:
two big-endian words, high word first, plus the epoch conversion constant. -/
def read_alto_time (data : Nat → Nat) (offset : Nat) : Nat :=
  read_word_bs data (offset + 2) + read_word_bs data offset * 65536 + 2117503696

/-- Filename copy, after copy_name of fs.c: the length byte is clamped to 39;
a zero length gives the empty name; otherwise the `slen - 1` bytes following
the length byte form the name (the C code then NUL-terminates at index
`slen - 1`). -/
def copy_name (src : Nat → Nat) : List Nat :=
  if (if src 0 % 256 ≥ 40 then 39 else src 0 % 256) = 0 then
    []
  else
    (List.range ((if src 0 % 256 ≥ 40 then 39 else src 0 % 256) - 1)).map
      (fun i => src (1 + i))

/-- File metadata decoded from the leader page, after struct file_info. -/
structure FileInfo where
  filename : List Nat
  created : Nat
  written : Nat
  read : Nat
  consecutive : Nat
  change_sn : Nat
  dir_fe : FileEntry
  last_page : Position
deriving DecidableEq

/-- fs_file_info of fs.c: decodes the leader page of the file. -/
def fs_file_info (fs : Fs) (fe : FileEntry) : Option FileInfo :=
  if fe.leader_vda ≥ fs.length then
    none
  else
    some
      { filename := copy_name (fun i => (fs.pages fe.leader_vda).data (12 + i))
        created := read_alto_time (fs.pages fe.leader_vda).data 0
        written := read_alto_time (fs.pages fe.leader_vda).data 4
        read := read_alto_time (fs.pages fe.leader_vda).data 8
        consecutive := (fs.pages fe.leader_vda).data 494
        change_sn := (fs.pages fe.leader_vda).data 495
        dir_fe :=
          { sn := { word1 := read_word_bs (fs.pages fe.leader_vda).data 496
                    word2 := read_word_bs (fs.pages fe.leader_vda).data 498 }
            version := read_word_bs (fs.pages fe.leader_vda).data 500
            blank := read_word_bs (fs.pages fe.leader_vda).data 502
            leader_vda := read_word_bs (fs.pages fe.leader_vda).data 504 }
        last_page :=
          { vda := read_word_bs (fs.pages fe.leader_vda).data 506
            pgnum := read_word_bs (fs.pages fe.leader_vda).data 508
            pos := read_word_bs (fs.pages fe.leader_vda).data 510 } }

/-- Byte values of a string, for readable filename statements. -/
def strBytes (s : String) : List Nat :=
  s.data.map Char.toNat

/-- Concrete filesystem whose leader page at VDA 1 carries the filename field
bytes 0x06, S, y, s, D, i, r. -/
def sysDirFs : Fs :=
  ⟨⟨1, 1, 2⟩, 2, fun v =>
    if v = 1 then
      ⟨1, 0, 4096,
        ⟨0, 0, 0, 512, 0, 1, ⟨32768, 100⟩⟩,
        fun i =>
          if i = 12 then 6 else
          if i = 13 then 83 else
          if i = 14 then 121 else
          if i = 15 then 115 else
          if i = 16 then 68 else
          if i = 17 then 105 else
          if i = 18 then 114 else 0⟩
    else zeroPage⟩

/-- File entry of the leader page at VDA 1 of sysDirFs. -/
def sysDirFe : FileEntry :=
  ⟨⟨32768, 100⟩, 1, 0, 1⟩

/-- Counterexample to C2 as stated: on the concrete leader page with filename
bytes 0x06, S, y, s, D, i, r, fs_file_info succeeds but the decoded filename
is not the string SysDir (the code copies only slen - 1 = 5 name bytes). -/
theorem file_info_filename_counterexample :
    (fs_file_info sysDirFs sysDirFe).isSome = true ∧
      (fs_file_info sysDirFs sysDirFe).map FileInfo.filename ≠
        some (strBytes "SysDir") := by
  decide

/-- C2 (amended): for every filesystem and file entry whose leader page
filename field holds the bytes 0x06, S, y, s, D, i, r, fs_file_info succeeds
and the decoded filename is the five-character string SysDi. -/
theorem file_info_filename (fs : Fs) (fe : FileEntry)
    (hv : fe.leader_vda < fs.length)
    (h12 : (fs.pages fe.leader_vda).data 12 = 6)
    (h13 : (fs.pages fe.leader_vda).data 13 = 83)
    (h14 : (fs.pages fe.leader_vda).data 14 = 121)
    (h15 : (fs.pages fe.leader_vda).data 15 = 115)
    (h16 : (fs.pages fe.leader_vda).data 16 = 68)
    (h17 : (fs.pages fe.leader_vda).data 17 = 105)
    (_h18 : (fs.pages fe.leader_vda).data 18 = 114) :
    ∃ finfo, fs_file_info fs fe = some finfo ∧
      finfo.filename = strBytes "SysDi" := by
  unfold fs_file_info
  rw [if_neg (by omega)]
  refine ⟨_, rfl, ?_⟩
  · show copy_name (fun i => (fs.pages fe.leader_vda).data (12 + i)) = strBytes "SysDi"
    unfold copy_name
    have e0 : (fun i => (fs.pages fe.leader_vda).data (12 + i)) 0 % 256 = 6 := by
      show (fs.pages fe.leader_vda).data (12 + 0) % 256 = 6
      norm_num [h12]
    rw [e0]
    norm_num
    have er : List.range (6 - 1) = [0, 1, 2, 3, 4] := rfl
    rw [er]
    show [(fs.pages fe.leader_vda).data (12 + (1 + 0)),
          (fs.pages fe.leader_vda).data (12 + (1 + 1)),
          (fs.pages fe.leader_vda).data (12 + (1 + 2)),
          (fs.pages fe.leader_vda).data (12 + (1 + 3)),
          (fs.pages fe.leader_vda).data (12 + (1 + 4))] = strBytes "SysDi"
    norm_num [h13, h14, h15, h16, h17]
    decide

/-- Witness for file_info_filename at the concrete sysDirFs. -/
theorem file_info_filename_witness :
    ∃ finfo, fs_file_info sysDirFs sysDirFe = some finfo ∧
      finfo.filename = strBytes "SysDi" :=
  file_info_filename sysDirFs sysDirFe (by decide) rfl rfl rfl rfl rfl rfl rfl

/-- fs_open of fs.c.  With include_leader the cursor starts at the leader
page; otherwise at the page the leader links to.  The C code always sets
pgnum to 1 and pos to 0 first and only flags the error on failure. -/
def fs_open (fs : Fs) (fe : FileEntry) (include_leader : Bool) : OpenFile :=
  if fe.leader_vda ≥ fs.length then
    ⟨fe, ⟨0, 0, 0⟩, true⟩
  else if include_leader then
    ⟨fe, ⟨fe.leader_vda, 1, 0⟩, false⟩
  else
    match real_to_virtual fs (fs.pages fe.leader_vda).label.next_rda with
    | none => ⟨fe, ⟨0, 1, 0⟩, true⟩
    | some v => ⟨fe, ⟨v, 1, 0⟩, false⟩

/-- One-step outcome of a while loop body: the loop either finishes with a
final state or continues with the next state. -/
inductive Step (α : Type) where
  | done : α → Step α
  | next : α → Step α

/-- Intermediate state of the fs_read loop: the open file, the bytes
transferred so far, and the remaining request length. -/
structure ReadState where
  of : OpenFile
  acc : List Nat
  len : Nat

/-- One iteration of the fs_read while loop of fs.c. -/
def readStep (fs : Fs) (st : ReadState) : Step ReadState :=
  if st.len = 0 then .done st
  else if st.of.pos.vda = 0 then .done st
  else if st.of.pos.vda ≥ fs.length then
    .done { st with of := { st.of with error := true } }
  else if (fs.pages st.of.pos.vda).label.file_pgnum ≠ st.of.pos.pgnum then
    .done { st with of := { st.of with error := true } }
  else if st.of.pos.pos > (fs.pages st.of.pos.vda).label.nbytes then
    .done { st with of := { st.of with error := true } }
  else if st.of.pos.pos < (fs.pages st.of.pos.vda).label.nbytes then
    .next { st with
      of := { st.of with pos := { st.of.pos with
        pos := st.of.pos.pos +
          min ((fs.pages st.of.pos.vda).label.nbytes - st.of.pos.pos) st.len } }
      acc := st.acc ++ (List.range
          (min ((fs.pages st.of.pos.vda).label.nbytes - st.of.pos.pos) st.len)).map
        (fun k => (fs.pages st.of.pos.vda).data (st.of.pos.pos + k))
      len := st.len -
        min ((fs.pages st.of.pos.vda).label.nbytes - st.of.pos.pos) st.len }
  else
    match real_to_virtual fs (fs.pages st.of.pos.vda).label.next_rda with
    | none => .done { st with of := { st.of with error := true } }
    | some v =>
      if v ≠ 0 then
        .next { st with of := { st.of with
          pos := ⟨v, (st.of.pos.pgnum + 1) % 65536, 0⟩ } }
      else
        .next { st with of := { st.of with
          pos := ⟨0, 0, st.of.pos.pos⟩ } }

/-- Fuel-indexed run of the fs_read loop. -/
def readLoop (fs : Fs) : Nat → ReadState → Option ReadState
  | 0, _ => none
  | fuel + 1, st =>
    match readStep fs st with
    | .done st2 => some st2
    | .next st2 => readLoop fs fuel st2

/-- Fuel that always suffices for the fs_read loop (proved below): one
iteration per transferred byte, two per chain step, plus slack. -/
def readFuel (fs : Fs) (len : Nat) : Nat :=
  len + 2 * fs.length + 3

/-- fs_read of fs.c: returns the transferred bytes (their count is the C
return value) and the updated open file. -/
def fs_read (fs : Fs) (of : OpenFile) (len : Nat) : List Nat × OpenFile :=
  if of.error then ([], of)
  else
    match readLoop fs (readFuel fs len) ⟨of, [], len⟩ with
    | some st => (st.acc, st.of)
    | none => ([], of)

/-- Successor page of a page in the chain walk. -/
def nextVda (fs : Fs) (v : Nat) : Option Nat :=
  real_to_virtual fs (fs.pages v).label.next_rda

/-- Pure chain walk: iterates (vda, pgnum) the way the read loop advances. -/
def walkV (fs : Fs) : Nat → Nat × Nat → Nat × Nat
  | 0, vp => vp
  | t + 1, vp => walkV fs t ((nextVda fs vp.1).getD 0, (vp.2 + 1) % 65536)

/-- A walk state at which the read loop can no longer advance to a further
page: end of chain, invalid page, page-number mismatch, or a next link that
does not translate (or translates to the boot sector sentinel 0). -/
def stops (fs : Fs) (vp : Nat × Nat) : Prop :=
  vp.1 = 0 ∨ vp.1 ≥ fs.length ∨ (fs.pages vp.1).label.file_pgnum ≠ vp.2 ∨
  nextVda fs vp.1 = none ∨ nextVda fs vp.1 = some 0

instance (fs : Fs) (vp : Nat × Nat) : Decidable (stops fs vp) := by
  unfold stops
  infer_instance

/-- The page-number component of the walk advances by one modulo 2^16. -/
theorem walkV_snd (fs : Fs) : ∀ (t : Nat) (v p : Nat), p < 65536 →
    (walkV fs t (v, p)).2 = (p + t) % 65536 := by
  intro t
  induction t with
  | zero =>
    intro v p hp
    show p = (p + 0) % 65536
    omega
  | succ t ih =>
    intro v p hp
    show (walkV fs t ((nextVda fs v).getD 0, (p + 1) % 65536)).2 = (p + (t + 1)) % 65536
    rw [ih _ _ (by omega)]
    omega

/-- Unfolding of one read-loop step. -/
theorem readLoop_succ (fs : Fs) (fuel : Nat) (st : ReadState) :
    readLoop fs (fuel + 1) st =
      match readStep fs st with
      | .done s => some s
      | .next s => readLoop fs fuel s := rfl

/-- Termination core: within `length` steps the chain walk reaches a state
the read loop cannot advance past.  The page number increases by one modulo
2^16 at every step while each page stores a fixed file_pgnum, so a revisited
page fails the page-number check; with at most `length - 1` distinct
non-sentinel pages a stop is forced. -/
theorem walk_stops (fs : Fs) (hlen : fs.length ≤ 65535) (v p : Nat)
    (hp : p < 65536) :
    ∃ t, t ≤ fs.length ∧ stops fs (walkV fs t (v, p)) := by
  by_contra hcon
  push_neg at hcon
  have hnostop : ∀ t, t ≤ fs.length → ¬ stops fs (walkV fs t (v, p)) := hcon
  have hmaps : ∀ t ∈ Finset.range (fs.length + 1),
      (walkV fs t (v, p)).1 ∈ Finset.Ioo 0 fs.length := by
    intro t ht
    rw [Finset.mem_range] at ht
    have hns := hnostop t (by omega)
    unfold stops at hns
    push_neg at hns
    rw [Finset.mem_Ioo]
    omega
  have hcard : (Finset.Ioo 0 fs.length).card < (Finset.range (fs.length + 1)).card := by
    rw [Nat.card_Ioo, Finset.card_range]
    omega
  obtain ⟨i, hi, j, hj, hij, heq⟩ :=
    Finset.exists_ne_map_eq_of_card_lt_of_maps_to hcard hmaps
  rw [Finset.mem_range] at hi hj
  have key : ∀ a b : Nat, a < b → b ≤ fs.length →
      (walkV fs a (v, p)).1 = (walkV fs b (v, p)).1 → False := by
    intro a b hab hble hveq
    have hnsa := hnostop a (by omega)
    have hnsb := hnostop b (by omega)
    unfold stops at hnsa hnsb
    push_neg at hnsa hnsb
    have hpa : (walkV fs a (v, p)).2 = (p + a) % 65536 := by
      have := walkV_snd fs a v p hp
      rw [← this]
    have hpb : (walkV fs b (v, p)).2 = (p + b) % 65536 := by
      have := walkV_snd fs b v p hp
      rw [← this]
    have hfa := hnsa.2.2.1
    have hfb := hnsb.2.2.1
    rw [hveq] at hfa
    rw [hfa] at hfb
    rw [hpa, hpb] at hfb
    omega
  rcases Nat.lt_or_ge i j with hlt | hge
  · exact key i j hlt (by omega) heq
  · have : j < i := by omega
    exact key j i this (by omega) heq.symm

/-- Run of a loop after a finishing step. -/
theorem readLoop_done (fs : Fs) (fuel : Nat) (st X : ReadState)
    (h : readStep fs st = .done X) : readLoop fs (fuel + 1) st = some X := by
  rw [readLoop_succ, h]

/-- Run of a loop after a continuing step. -/
theorem readLoop_next (fs : Fs) (fuel : Nat) (st X : ReadState)
    (h : readStep fs st = .next X) : readLoop fs (fuel + 1) st = readLoop fs fuel X := by
  rw [readLoop_succ, h]

/-- Fuel sufficiency for the read loop: if the chain walk from the cursor
stops within T steps, fuel len + 2T + 3 is enough. -/
theorem readLoop_isSome (fs : Fs) :
    ∀ (M : Nat) (st : ReadState) (T : Nat),
      stops fs (walkV fs T (st.of.pos.vda, st.of.pos.pgnum)) →
      st.len + 2 * T + (if st.of.pos.vda = 0 then 0 else 2) ≤ M →
      (readLoop fs (M + 1) st).isSome = true := by
  intro M
  induction M with
  | zero =>
    intro st T hT hM
    have hlen0 : st.len = 0 := by
      by_cases h : st.of.pos.vda = 0 <;> simp [h] at hM <;> omega
    rw [readLoop_done fs 0 st st (by unfold readStep; rw [if_pos hlen0])]
    rfl
  | succ M ih =>
    intro st T hT hM
    by_cases h1 : st.len = 0
    · rw [readLoop_done fs (M + 1) st st (by unfold readStep; rw [if_pos h1])]
      rfl
    by_cases h2 : st.of.pos.vda = 0
    · rw [readLoop_done fs (M + 1) st st
        (by unfold readStep; rw [if_neg h1, if_pos h2])]
      rfl
    rw [if_neg h2] at hM
    by_cases h3 : st.of.pos.vda ≥ fs.length
    · rw [readLoop_done fs (M + 1) st _
        (by unfold readStep; rw [if_neg h1, if_neg h2, if_pos h3])]
      rfl
    by_cases h4 : (fs.pages st.of.pos.vda).label.file_pgnum ≠ st.of.pos.pgnum
    · rw [readLoop_done fs (M + 1) st _
        (by unfold readStep; rw [if_neg h1, if_neg h2, if_neg h3, if_pos h4])]
      rfl
    by_cases h5 : st.of.pos.pos > (fs.pages st.of.pos.vda).label.nbytes
    · rw [readLoop_done fs (M + 1) st _
        (by unfold readStep
            rw [if_neg h1, if_neg h2, if_neg h3, if_neg h4, if_pos h5])]
      rfl
    by_cases h6 : st.of.pos.pos < (fs.pages st.of.pos.vda).label.nbytes
    · rw [readLoop_next fs (M + 1) st
        { st with
          of := { st.of with pos := { st.of.pos with
            pos := st.of.pos.pos +
              min ((fs.pages st.of.pos.vda).label.nbytes - st.of.pos.pos) st.len } }
          acc := st.acc ++ (List.range
              (min ((fs.pages st.of.pos.vda).label.nbytes - st.of.pos.pos) st.len)).map
            (fun k => (fs.pages st.of.pos.vda).data (st.of.pos.pos + k))
          len := st.len -
            min ((fs.pages st.of.pos.vda).label.nbytes - st.of.pos.pos) st.len }
        (by unfold readStep
            rw [if_neg h1, if_neg h2, if_neg h3, if_neg h4, if_neg h5, if_pos h6])]
      refine ih _ T ?_ ?_
      · exact hT
      · show st.len - min _ st.len + 2 * T + (if st.of.pos.vda = 0 then 0 else 2) ≤ M
        rw [if_neg h2]
        omega
    cases hnv : real_to_virtual fs (fs.pages st.of.pos.vda).label.next_rda with
    | none =>
      rw [readLoop_done fs (M + 1) st _
        (by unfold readStep
            rw [if_neg h1, if_neg h2, if_neg h3, if_neg h4, if_neg h5, if_neg h6, hnv])]
      rfl
    | some v =>
      have hnxt : nextVda fs st.of.pos.vda = some v := hnv
      by_cases h7 : v = 0
      · rw [readLoop_next fs (M + 1) st
          { st with of := { st.of with pos := ⟨0, 0, st.of.pos.pos⟩ } }
          (by unfold readStep
              rw [if_neg h1, if_neg h2, if_neg h3, if_neg h4, if_neg h5, if_neg h6, hnv]
              exact if_neg (fun hne => hne h7))]
        refine ih _ 0 ?_ ?_
        · exact Or.inl rfl
        · show st.len + 2 * 0 + (if (0 : Nat) = 0 then 0 else 2) ≤ M
          simp
          omega
      · rw [readLoop_next fs (M + 1) st
          { st with of := { st.of with
            pos := ⟨v, (st.of.pos.pgnum + 1) % 65536, 0⟩ } }
          (by unfold readStep
              rw [if_neg h1, if_neg h2, if_neg h3, if_neg h4, if_neg h5, if_neg h6, hnv]
              exact if_pos h7)]
        push_neg at h4
        have hT1 : T ≠ 0 := by
          intro h0
          rw [h0] at hT
          unfold stops walkV at hT
          rcases hT with ha | hb | hc | hd | he
          · exact h2 ha
          · omega
          · exact hc h4
          · rw [hnxt] at hd
            cases hd
          · rw [hnxt] at he
            have : v = 0 := by injection he
            exact h7 this
        obtain ⟨T2, rfl⟩ : ∃ T2, T = T2 + 1 := ⟨T - 1, by omega⟩
        refine ih _ T2 ?_ ?_
        · show stops fs (walkV fs T2 _)
          have hshift : walkV fs (T2 + 1) (st.of.pos.vda, st.of.pos.pgnum) =
              walkV fs T2 ((nextVda fs st.of.pos.vda).getD 0,
                (st.of.pos.pgnum + 1) % 65536) := rfl
          rw [hshift, hnxt] at hT
          exact hT
        · show st.len + 2 * T2 + (if v = 0 then 0 else 2) ≤ M
          rw [if_neg h7]
          omega

/-- C10: the fs_read loop always terminates within its fuel, for every
filesystem state (including corrupted link structures) and every request
length; only the uint16_t bounds on the length field and the cursor page
number are assumed, as the C types guarantee them. -/
theorem fs_read_terminates (fs : Fs) (of : OpenFile) (len : Nat)
    (hlen : fs.length ≤ 65535) (hp : of.pos.pgnum < 65536) :
    (readLoop fs (readFuel fs len) ⟨of, [], len⟩).isSome = true := by
  obtain ⟨T, hTle, hTstop⟩ := walk_stops fs hlen of.pos.vda of.pos.pgnum hp
  have : readFuel fs len = (len + 2 * fs.length + 2) + 1 := by
    unfold readFuel
    omega
  rw [this]
  apply readLoop_isSome fs (len + 2 * fs.length + 2) ⟨of, [], len⟩ T hTstop
  show len + 2 * T + (if of.pos.vda = 0 then 0 else 2) ≤ len + 2 * fs.length + 2
  by_cases h : of.pos.vda = 0 <;> simp [h] <;> omega

/-- Witness for fs_read_terminates: a concrete filesystem whose two pages
link to each other in a cycle. -/
def cycleFs : Fs :=
  ⟨⟨1, 1, 3⟩, 3, fun v =>
    if v = 1 then ⟨1, 0, 4096, ⟨8192, 8192, 0, 512, 1, 1, ⟨0, 1⟩⟩, fun _ => 0⟩
    else if v = 2 then ⟨2, 0, 8192, ⟨4096, 4096, 0, 512, 2, 1, ⟨0, 1⟩⟩, fun _ => 0⟩
    else zeroPage⟩

/-- Witness for fs_read_terminates on the cyclic filesystem. -/
theorem fs_read_terminates_witness :
    (readLoop cycleFs (readFuel cycleFs 2000)
      ⟨⟨⟨⟨0, 1⟩, 1, 0, 1⟩, ⟨1, 1, 0⟩, false⟩, [], 2000⟩).isSome = true :=
  fs_read_terminates cycleFs ⟨⟨⟨0, 1⟩, 1, 0, 1⟩, ⟨1, 1, 0⟩, false⟩ 2000
    (by decide) (by decide)

/-- Well-formed chain segment starting at page number `i`: every page is a
valid non-sentinel VDA carrying the expected file_pgnum, pages are linked by
next_rda (the last one linking to the end-of-chain sentinel), and only the
last page may hold fewer than 512 bytes. -/
def Seg (fs : Fs) : Nat → List Nat → Prop
  | _, [] => True
  | i, v :: rest =>
    v ≠ 0 ∧ v < fs.length ∧ (fs.pages v).label.file_pgnum = i ∧
    (fs.pages v).label.nbytes ≤ 512 ∧
    (match rest with
     | [] => real_to_virtual fs (fs.pages v).label.next_rda = some 0
     | w :: _ => real_to_virtual fs (fs.pages v).label.next_rda = some w ∧
         (fs.pages v).label.nbytes = 512) ∧
    Seg fs (i + 1) rest

/-- Used bytes of one page from offset q on. -/
def pageTail (fs : Fs) (v q : Nat) : List Nat :=
  (List.range ((fs.pages v).label.nbytes - q)).map (fun k => (fs.pages v).data (q + k))

/-- Byte stream of a list of chain pages (used bytes of each page). -/
def segBytes (fs : Fs) (cs : List Nat) : List Nat :=
  cs.flatMap (fun v => pageTail fs v 0)

/-- Final cursor position after reading `len` bytes from offset `q` in the
first page of the segment. -/
def readEnd (fs : Fs) : List Nat → Nat → Nat → Nat → Position
  | [], i, q, _ => ⟨0, i, q⟩
  | v :: rest, i, q, len =>
    if len ≤ (fs.pages v).label.nbytes - q then
      ⟨v, i, q + len⟩
    else
      match rest with
      | [] => ⟨0, 0, (fs.pages v).label.nbytes⟩
      | w :: rest2 => readEnd fs (w :: rest2) (i + 1) 0 (len - ((fs.pages v).label.nbytes - q))

/-- Truncating a mapped range truncates the range. -/
theorem take_map_range (n m : Nat) (f : Nat → Nat) (h : m ≤ n) :
    ((List.range n).map f).take m = (List.range m).map f := by
  rw [← List.map_take, List.take_range]
  have : min m n = m := by omega
  rw [this]

/-- A read from a cursor that is at the end-of-chain sentinel, or with an
exhausted request, finishes immediately. -/
theorem readLoop_stopped (fs : Fs) (fuel : Nat) (st : ReadState)
    (h : st.of.pos.vda = 0 ∨ st.len = 0) :
    readLoop fs (fuel + 1) st = some st := by
  rcases h with h | h
  · by_cases h0 : st.len = 0
    · exact readLoop_done fs fuel st st (by unfold readStep; rw [if_pos h0])
    · exact readLoop_done fs fuel st st
        (by unfold readStep; rw [if_neg h0, if_pos h])
  · exact readLoop_done fs fuel st st (by unfold readStep; rw [if_pos h])

/-- Copy iteration of the read loop, in closed form. -/
theorem readStep_copy (fs : Fs) (fe : FileEntry) (v i q len : Nat) (acc : List Nat)
    (h1 : len ≠ 0) (h2 : v ≠ 0) (h3 : v < fs.length)
    (h4 : (fs.pages v).label.file_pgnum = i) (h5 : q < (fs.pages v).label.nbytes) :
    readStep fs ⟨⟨fe, ⟨v, i, q⟩, false⟩, acc, len⟩ = .next
      ⟨⟨fe, ⟨v, i, q + min ((fs.pages v).label.nbytes - q) len⟩, false⟩,
       acc ++ (List.range (min ((fs.pages v).label.nbytes - q) len)).map
         (fun k => (fs.pages v).data (q + k)),
       len - min ((fs.pages v).label.nbytes - q) len⟩ := by
  have c3 : ¬(v ≥ fs.length) := by omega
  have c4 : ¬((fs.pages v).label.file_pgnum ≠ i) := by omega
  have c5 : ¬(q > (fs.pages v).label.nbytes) := by omega
  unfold readStep
  rw [if_neg h1, if_neg h2, if_neg c3, if_neg c4, if_neg c5, if_pos h5]

/-- Page-advance iteration of the read loop, in closed form. -/
theorem readStep_advance (fs : Fs) (fe : FileEntry) (v i q len : Nat) (acc : List Nat)
    (w : Nat)
    (h1 : len ≠ 0) (h2 : v ≠ 0) (h3 : v < fs.length)
    (h4 : (fs.pages v).label.file_pgnum = i) (h5 : q = (fs.pages v).label.nbytes)
    (hw : real_to_virtual fs (fs.pages v).label.next_rda = some w) (hw0 : w ≠ 0) :
    readStep fs ⟨⟨fe, ⟨v, i, q⟩, false⟩, acc, len⟩ = .next
      ⟨⟨fe, ⟨w, (i + 1) % 65536, 0⟩, false⟩, acc, len⟩ := by
  have c3 : ¬(v ≥ fs.length) := by omega
  have c4 : ¬((fs.pages v).label.file_pgnum ≠ i) := by omega
  have c5 : ¬(q > (fs.pages v).label.nbytes) := by omega
  have c6 : ¬(q < (fs.pages v).label.nbytes) := by omega
  unfold readStep
  rw [if_neg h1, if_neg h2, if_neg c3, if_neg c4, if_neg c5, if_neg c6, hw]
  exact if_pos hw0

/-- End-of-chain iteration of the read loop, in closed form. -/
theorem readStep_eof (fs : Fs) (fe : FileEntry) (v i q len : Nat) (acc : List Nat)
    (h1 : len ≠ 0) (h2 : v ≠ 0) (h3 : v < fs.length)
    (h4 : (fs.pages v).label.file_pgnum = i) (h5 : q = (fs.pages v).label.nbytes)
    (hw : real_to_virtual fs (fs.pages v).label.next_rda = some 0) :
    readStep fs ⟨⟨fe, ⟨v, i, q⟩, false⟩, acc, len⟩ = .next
      ⟨⟨fe, ⟨0, 0, q⟩, false⟩, acc, len⟩ := by
  have c3 : ¬(v ≥ fs.length) := by omega
  have c4 : ¬((fs.pages v).label.file_pgnum ≠ i) := by omega
  have c5 : ¬(q > (fs.pages v).label.nbytes) := by omega
  have c6 : ¬(q < (fs.pages v).label.nbytes) := by omega
  unfold readStep
  rw [if_neg h1, if_neg h2, if_neg c3, if_neg c4, if_neg c5, if_neg c6, hw]
  exact if_neg (fun hne => hne rfl)

/-- Length of a page tail. -/
theorem pageTail_length (fs : Fs) (v q : Nat) :
    (pageTail fs v q).length = (fs.pages v).label.nbytes - q := by
  unfold pageTail
  simp

/-- Stream of a nonempty chain splits into the head page and the rest. -/
theorem segBytes_cons (fs : Fs) (w : Nat) (rest : List Nat) :
    segBytes fs (w :: rest) = pageTail fs w 0 ++ segBytes fs rest := by
  show (w :: rest).flatMap (fun u => pageTail fs u 0) = _
  rw [List.flatMap_cons]
  rfl

/-- Read-loop correctness on a well-formed chain segment: starting at offset
q in the head page, the loop transfers exactly the next `len` stream bytes
(or all remaining bytes if fewer), never errors, and ends at the position
described by readEnd. -/
theorem readLoop_seg (fs : Fs) :
    ∀ (rest : List Nat) (v i q len : Nat) (acc : List Nat) (fe : FileEntry)
      (fuel : Nat),
      Seg fs i (v :: rest) →
      q ≤ (fs.pages v).label.nbytes →
      i + (rest.length + 1) ≤ 65535 →
      len + 2 * (rest.length + 1) + 1 ≤ fuel →
      readLoop fs fuel ⟨⟨fe, ⟨v, i, q⟩, false⟩, acc, len⟩ =
        some ⟨⟨fe, readEnd fs (v :: rest) i q len, false⟩,
          acc ++ (pageTail fs v q ++ segBytes fs rest).take len,
          len - min len (pageTail fs v q ++ segBytes fs rest).length⟩ := by
  intro rest
  induction rest with
  | nil =>
    intro v i q len acc fe fuel hseg hq hi hfuel
    obtain ⟨hv0, hvlen, hfp, hnb, hlink, -⟩ := hseg
    obtain ⟨f1, rfl⟩ : ∃ f1, fuel = f1 + 1 := ⟨fuel - 1, by omega⟩
    by_cases hlen0 : len = 0
    · rw [readLoop_stopped fs f1 _ (Or.inr hlen0)]
      rw [hlen0]
      simp [readEnd]
    by_cases hcopy : q < (fs.pages v).label.nbytes
    · rw [readLoop_next fs f1 _ _ (readStep_copy fs fe v i q len acc hlen0 hv0 hvlen hfp hcopy)]
      by_cases hfit : len ≤ (fs.pages v).label.nbytes - q
      · have hmin : min ((fs.pages v).label.nbytes - q) len = len := by omega
        rw [hmin]
        obtain ⟨f2, rfl⟩ : ∃ f2, f1 = f2 + 1 := ⟨f1 - 1, by omega⟩
        rw [readLoop_stopped fs f2 _ (Or.inr (by simp))]
        have hend : readEnd fs [v] i q len = ⟨v, i, q + len⟩ := by
          unfold readEnd
          rw [if_pos hfit]
        rw [hend]
        have htake : (pageTail fs v q ++ segBytes fs []).take len =
            (List.range len).map (fun k => (fs.pages v).data (q + k)) := by
          show (pageTail fs v q ++ []).take len = _
          rw [List.append_nil]
          unfold pageTail
          exact take_map_range _ _ _ (by omega)
        rw [htake]
        have hlenmin : len - min len (pageTail fs v q ++ segBytes fs []).length = 0 := by
          rw [List.length_append, pageTail_length]
          show len - min len ((fs.pages v).label.nbytes - q + (segBytes fs []).length) = 0
          have : (segBytes fs []).length = 0 := rfl
          omega
        rw [hlenmin]
        have hz : len - len = 0 := by omega
        rw [hz]
      · have hmin : min ((fs.pages v).label.nbytes - q) len =
            (fs.pages v).label.nbytes - q := by omega
        rw [hmin]
        obtain ⟨f2, rfl⟩ : ∃ f2, f1 = f2 + 1 := ⟨f1 - 1, by omega⟩
        rw [readLoop_next fs f2 _ _
          (readStep_eof fs fe v i (q + ((fs.pages v).label.nbytes - q))
            (len - ((fs.pages v).label.nbytes - q))
            (acc ++ (List.range ((fs.pages v).label.nbytes - q)).map
              (fun k => (fs.pages v).data (q + k)))
            (by omega) hv0 hvlen hfp (by omega) hlink)]
        obtain ⟨f3, rfl⟩ : ∃ f3, f2 = f3 + 1 := ⟨f2 - 1, by omega⟩
        rw [readLoop_stopped fs f3 _ (Or.inl rfl)]
        have hend : readEnd fs [v] i q len = ⟨0, 0, (fs.pages v).label.nbytes⟩ := by
          unfold readEnd
          rw [if_neg hfit]
        rw [hend]
        have htake : (pageTail fs v q ++ segBytes fs []).take len = pageTail fs v q := by
          show (pageTail fs v q ++ []).take len = _
          rw [List.append_nil]
          apply List.take_of_length_le
          rw [pageTail_length]
          omega
        rw [htake]
        have hlenmin : len - min len (pageTail fs v q ++ segBytes fs []).length =
            len - ((fs.pages v).label.nbytes - q) := by
          rw [List.length_append, pageTail_length]
          have : (segBytes fs []).length = 0 := rfl
          omega
        rw [hlenmin]
        have hqn : q + ((fs.pages v).label.nbytes - q) = (fs.pages v).label.nbytes := by
          omega
        rw [hqn]
        rfl
    · have hqeq : q = (fs.pages v).label.nbytes := by omega
      obtain ⟨f2, rfl⟩ : ∃ f2, f1 = f2 + 1 := ⟨f1 - 1, by omega⟩
      rw [readLoop_next fs (f2 + 1) _ _
        (readStep_eof fs fe v i q len acc hlen0 hv0 hvlen hfp hqeq hlink)]
      rw [readLoop_stopped fs f2 _ (Or.inl rfl)]
      have hend : readEnd fs [v] i q len = ⟨0, 0, (fs.pages v).label.nbytes⟩ := by
        unfold readEnd
        rw [if_neg (by omega)]
      have htail : pageTail fs v q = [] := by
        unfold pageTail
        rw [hqeq]
        simp
      rw [hend, htail, hqeq]
      simp [show segBytes fs [] = ([] : List Nat) from rfl]
  | cons w rest2 ih =>
    intro v i q len acc fe fuel hseg hq hi hfuel
    obtain ⟨hv0, hvlen, hfp, hnb, hlink, hseg2⟩ := hseg
    obtain ⟨hlinkw, hnb512⟩ := hlink
    have hw0 : w ≠ 0 := hseg2.1
    obtain ⟨f1, rfl⟩ : ∃ f1, fuel = f1 + 1 := ⟨fuel - 1, by omega⟩
    by_cases hlen0 : len = 0
    · rw [readLoop_stopped fs f1 _ (Or.inr hlen0)]
      rw [hlen0]
      simp [readEnd]
    by_cases hfit : len ≤ (fs.pages v).label.nbytes - q
    · have hcopy : q < (fs.pages v).label.nbytes := by omega
      rw [readLoop_next fs f1 _ _ (readStep_copy fs fe v i q len acc hlen0 hv0 hvlen hfp hcopy)]
      have hmin : min ((fs.pages v).label.nbytes - q) len = len := by omega
      rw [hmin]
      obtain ⟨f2, rfl⟩ : ∃ f2, f1 = f2 + 1 := ⟨f1 - 1, by omega⟩
      rw [readLoop_stopped fs f2 _ (Or.inr (by simp))]
      have hend : readEnd fs (v :: w :: rest2) i q len = ⟨v, i, q + len⟩ := by
        unfold readEnd
        rw [if_pos hfit]
      rw [hend]
      have htake : (pageTail fs v q ++ segBytes fs (w :: rest2)).take len =
          (List.range len).map (fun k => (fs.pages v).data (q + k)) := by
        rw [List.take_append_of_le_length (by rw [pageTail_length]; omega)]
        unfold pageTail
        exact take_map_range _ _ _ (by omega)
      rw [htake]
      have hlenmin : len - min len (pageTail fs v q ++ segBytes fs (w :: rest2)).length = 0 := by
        rw [List.length_append, pageTail_length]
        omega
      rw [hlenmin]
      have hz : len - len = 0 := by omega
      rw [hz]
    · have hlen1 : len - ((fs.pages v).label.nbytes - q) ≠ 0 := by omega
      have hclen : (w :: rest2).length = rest2.length + 1 := rfl
      have hmain : ∀ g, len - ((fs.pages v).label.nbytes - q) + 2 * (rest2.length + 1) + 1 ≤ g →
          readLoop fs g
            ⟨⟨fe, ⟨w, (i + 1) % 65536, 0⟩, false⟩, acc ++ pageTail fs v q,
              len - ((fs.pages v).label.nbytes - q)⟩ =
          some ⟨⟨fe, readEnd fs (v :: w :: rest2) i q len, false⟩,
            acc ++ (pageTail fs v q ++ segBytes fs (w :: rest2)).take len,
            len - min len (pageTail fs v q ++ segBytes fs (w :: rest2)).length⟩ := by
        intro g hg
        have hmod : (i + 1) % 65536 = i + 1 := by omega
        rw [hmod]
        rw [ih w (i + 1) 0 (len - ((fs.pages v).label.nbytes - q))
          (acc ++ pageTail fs v q) fe g hseg2 (by omega) (by omega) hg]
        have hone : readEnd fs (v :: w :: rest2) i q len =
            if len ≤ (fs.pages v).label.nbytes - q then (⟨v, i, q + len⟩ : Position)
            else readEnd fs (w :: rest2) (i + 1) 0
              (len - ((fs.pages v).label.nbytes - q)) := rfl
        have hend : readEnd fs (v :: w :: rest2) i q len =
            readEnd fs (w :: rest2) (i + 1) 0 (len - ((fs.pages v).label.nbytes - q)) := by
          rw [hone, if_neg hfit]
        rw [hend]
        have htake : (pageTail fs v q ++ segBytes fs (w :: rest2)).take len =
            pageTail fs v q ++
              (pageTail fs w 0 ++ segBytes fs rest2).take
                (len - ((fs.pages v).label.nbytes - q)) := by
          rw [List.take_append_eq_append_take]
          rw [List.take_of_length_le (by rw [pageTail_length]; omega),
            pageTail_length fs v q]
          rw [segBytes_cons]
        rw [htake, List.append_assoc]
        have hlenmin : len - ((fs.pages v).label.nbytes - q) -
            min (len - ((fs.pages v).label.nbytes - q))
              (pageTail fs w 0 ++ segBytes fs rest2).length =
            len - min len (pageTail fs v q ++ segBytes fs (w :: rest2)).length := by
          rw [segBytes_cons, List.length_append, List.length_append, List.length_append,
            pageTail_length fs v q, pageTail_length fs w 0]
          omega
        rw [hlenmin]
      by_cases hcopy : q < (fs.pages v).label.nbytes
      · rw [readLoop_next fs f1 _ _
          (readStep_copy fs fe v i q len acc hlen0 hv0 hvlen hfp hcopy)]
        have hmin : min ((fs.pages v).label.nbytes - q) len =
            (fs.pages v).label.nbytes - q := by omega
        rw [hmin]
        obtain ⟨f2, rfl⟩ : ∃ f2, f1 = f2 + 1 := ⟨f1 - 1, by omega⟩
        rw [readLoop_next fs f2 _ _
          (readStep_advance fs fe v i (q + ((fs.pages v).label.nbytes - q))
            (len - ((fs.pages v).label.nbytes - q))
            (acc ++ (List.range ((fs.pages v).label.nbytes - q)).map
              (fun k => (fs.pages v).data (q + k)))
            w hlen1 hv0 hvlen hfp (by omega) hlinkw hw0)]
        have hpt : (List.range ((fs.pages v).label.nbytes - q)).map
            (fun k => (fs.pages v).data (q + k)) = pageTail fs v q := rfl
        rw [hpt]
        exact hmain f2 (by omega)
      · have hqeq : q = (fs.pages v).label.nbytes := by omega
        rw [readLoop_next fs f1 _ _
          (readStep_advance fs fe v i q len acc w hlen0 hv0 hvlen hfp hqeq hlinkw hw0)]
        have hpt0 : pageTail fs v q = [] := by
          unfold pageTail
          rw [hqeq]
          simp
        have hzap : len - ((fs.pages v).label.nbytes - q) = len := by omega
        have hres := hmain f1 (by omega)
        rw [hpt0, List.append_nil, hzap] at hres
        rw [hpt0]
        exact hres

/-- Dropping from a mapped range shifts the range. -/
theorem map_range_drop (n m : Nat) (f : Nat → Nat) :
    ((List.range n).map f).drop m = (List.range (n - m)).map (fun k => f (m + k)) := by
  apply List.ext_getElem
  · simp
  · intro i h1 h2
    simp

/-- Dropping within the head page shifts the page tail. -/
theorem pageTail_drop (fs : Fs) (v q off : Nat)
    (_h : off ≤ (fs.pages v).label.nbytes - q) :
    (pageTail fs v q).drop off = pageTail fs v (q + off) := by
  unfold pageTail
  rw [map_range_drop]
  have e1 : (fs.pages v).label.nbytes - q - off = (fs.pages v).label.nbytes - (q + off) := by
    omega
  rw [e1]
  apply List.map_congr_left
  intro a ha
  have : q + (off + a) = q + off + a := by omega
  rw [this]

/-- One unfolding of readEnd on a nonempty segment. -/
theorem readEnd_cons (fs : Fs) (v : Nat) (rest : List Nat) (i q len : Nat) :
    readEnd fs (v :: rest) i q len =
      if len ≤ (fs.pages v).label.nbytes - q then (⟨v, i, q + len⟩ : Position)
      else
        match rest with
        | [] => (⟨0, 0, (fs.pages v).label.nbytes⟩ : Position)
        | w :: rest2 => readEnd fs (w :: rest2) (i + 1) 0
            (len - ((fs.pages v).label.nbytes - q)) := by
  cases rest <;> rfl

/-- Reading from an interior position is reading at a shifted offset: the
final position of a read of off bytes, then reading len more, is the final
position of a read of off + len bytes. -/
theorem readEnd_shift (fs : Fs) (rest : List Nat) (v i q off len : Nat)
    (hoff : off ≤ (fs.pages v).label.nbytes - q) :
    readEnd fs (v :: rest) i (q + off) len = readEnd fs (v :: rest) i q (off + len) := by
  rw [readEnd_cons, readEnd_cons]
  by_cases hfit : len ≤ (fs.pages v).label.nbytes - (q + off)
  · rw [if_pos hfit, if_pos (by omega)]
    have : q + off + len = q + (off + len) := by omega
    rw [this]
  · rw [if_neg hfit, if_neg (by omega)]
    cases rest with
    | nil => rfl
    | cons w rest2 =>
      have : len - ((fs.pages v).label.nbytes - (q + off)) =
          off + len - ((fs.pages v).label.nbytes - q) := by omega
      rw [this]

/-- Read-loop correctness from an interior cursor position readEnd(off):
the loop returns the stream bytes from offset off on. -/
theorem readLoop_seg_at (fs : Fs) :
    ∀ (rest : List Nat) (v i q off len : Nat) (acc : List Nat) (fe : FileEntry)
      (fuel : Nat),
      Seg fs i (v :: rest) →
      q ≤ (fs.pages v).label.nbytes →
      i + (rest.length + 1) ≤ 65535 →
      len + 2 * (rest.length + 1) + 1 ≤ fuel →
      readLoop fs fuel ⟨⟨fe, readEnd fs (v :: rest) i q off, false⟩, acc, len⟩ =
        some ⟨⟨fe, readEnd fs (v :: rest) i q (off + len), false⟩,
          acc ++ ((pageTail fs v q ++ segBytes fs rest).drop off).take len,
          len - min len ((pageTail fs v q ++ segBytes fs rest).drop off).length⟩ := by
  intro rest
  induction rest with
  | nil =>
    intro v i q off len acc fe fuel hseg hq hi hfuel
    by_cases hoff : off ≤ (fs.pages v).label.nbytes - q
    · have hend : readEnd fs [v] i q off = ⟨v, i, q + off⟩ := by
        rw [readEnd_cons, if_pos hoff]
      rw [hend]
      rw [readLoop_seg fs [] v i (q + off) len acc fe fuel hseg (by omega) hi hfuel]
      rw [readEnd_shift fs [] v i q off len hoff]
      have hdrop : (pageTail fs v q ++ segBytes fs []).drop off =
          pageTail fs v (q + off) ++ segBytes fs [] := by
        show (pageTail fs v q ++ []).drop off = pageTail fs v (q + off) ++ []
        rw [List.append_nil, List.append_nil]
        exact pageTail_drop fs v q off hoff
      rw [hdrop]
    · have hend : readEnd fs [v] i q off = ⟨0, 0, (fs.pages v).label.nbytes⟩ := by
        rw [readEnd_cons, if_neg hoff]
      have hend2 : readEnd fs [v] i q (off + len) = ⟨0, 0, (fs.pages v).label.nbytes⟩ := by
        rw [readEnd_cons, if_neg (by omega)]
      obtain ⟨f1, rfl⟩ : ∃ f1, fuel = f1 + 1 := ⟨fuel - 1, by omega⟩
      rw [hend, readLoop_stopped fs f1 _ (Or.inl rfl), hend2]
      have hdrop : (pageTail fs v q ++ segBytes fs []).drop off = [] := by
        apply List.drop_eq_nil_of_le
        rw [List.length_append, pageTail_length]
        have : (segBytes fs []).length = 0 := rfl
        omega
      rw [hdrop]
      simp
  | cons w rest2 ih =>
    intro v i q off len acc fe fuel hseg hq hi hfuel
    by_cases hoff : off ≤ (fs.pages v).label.nbytes - q
    · have hend : readEnd fs (v :: w :: rest2) i q off = ⟨v, i, q + off⟩ := by
        rw [readEnd_cons, if_pos hoff]
      rw [hend]
      rw [readLoop_seg fs (w :: rest2) v i (q + off) len acc fe fuel hseg (by omega) hi hfuel]
      rw [readEnd_shift fs (w :: rest2) v i q off len hoff]
      have hdrop : (pageTail fs v q ++ segBytes fs (w :: rest2)).drop off =
          pageTail fs v (q + off) ++ segBytes fs (w :: rest2) := by
        rw [List.drop_append_eq_append_drop, pageTail_drop fs v q off hoff,
          pageTail_length]
        have : off - ((fs.pages v).label.nbytes - q) = 0 := by omega
        rw [this, List.drop_zero]
      rw [hdrop]
    · obtain ⟨hv0, hvlen, hfp, hnb, ⟨hlinkw, hnb512⟩, hseg2⟩ := hseg
      have hend : readEnd fs (v :: w :: rest2) i q off =
          readEnd fs (w :: rest2) (i + 1) 0 (off - ((fs.pages v).label.nbytes - q)) := by
        rw [readEnd_cons, if_neg hoff]
      have hend2 : readEnd fs (v :: w :: rest2) i q (off + len) =
          readEnd fs (w :: rest2) (i + 1) 0
            (off - ((fs.pages v).label.nbytes - q) + len) := by
        rw [readEnd_cons, if_neg (by omega)]
        have : off + len - ((fs.pages v).label.nbytes - q) =
            off - ((fs.pages v).label.nbytes - q) + len := by omega
        rw [this]
      rw [hend, hend2]
      rw [ih w (i + 1) 0 (off - ((fs.pages v).label.nbytes - q)) len acc fe fuel hseg2
        (by omega)
        (by have : (w :: rest2).length = rest2.length + 1 := rfl
            omega)
        (by have : (w :: rest2).length = rest2.length + 1 := rfl
            omega)]
      have hdrop : (pageTail fs v q ++ segBytes fs (w :: rest2)).drop off =
          (pageTail fs w 0 ++ segBytes fs rest2).drop
            (off - ((fs.pages v).label.nbytes - q)) := by
        rw [List.drop_append_eq_append_drop, pageTail_length]
        have h1 : (pageTail fs v q).drop off = [] := by
          apply List.drop_eq_nil_of_le
          rw [pageTail_length]
          omega
        rw [h1, List.nil_append, segBytes_cons]
      rw [hdrop]

/-- Decidability of chain well-formedness, for concrete witnesses. -/
instance segDec (fs : Fs) : (cs : List Nat) → (i : Nat) → Decidable (Seg fs i cs)
  | [], _ => isTrue trivial
  | [v], i =>
    inferInstanceAs (Decidable (v ≠ 0 ∧ v < fs.length ∧
      (fs.pages v).label.file_pgnum = i ∧ (fs.pages v).label.nbytes ≤ 512 ∧
      real_to_virtual fs (fs.pages v).label.next_rda = some 0 ∧ True))
  | v :: w :: rest, i =>
    have : Decidable (Seg fs (i + 1) (w :: rest)) := segDec fs (w :: rest) (i + 1)
    inferInstanceAs (Decidable (v ≠ 0 ∧ v < fs.length ∧
      (fs.pages v).label.file_pgnum = i ∧ (fs.pages v).label.nbytes ≤ 512 ∧
      (real_to_virtual fs (fs.pages v).label.next_rda = some w ∧
        (fs.pages v).label.nbytes = 512) ∧ Seg fs (i + 1) (w :: rest)))

/-- Well-formed file: the leader page at fe.leader_vda followed by the given
chain of data pages, all satisfying the segment conditions, within a
filesystem of uint16 size. -/
def WfFile (fs : Fs) (fe : FileEntry) (chain : List Nat) : Prop :=
  Seg fs 0 (fe.leader_vda :: chain) ∧
  chain.length + 1 ≤ fs.length ∧
  fs.length ≤ 65535

instance (fs : Fs) (fe : FileEntry) (chain : List Nat) :
    Decidable (WfFile fs fe chain) := by
  unfold WfFile
  infer_instance

/-- fs_open without the leader positions the cursor at readEnd(0): the head
of the data chain, or the end-of-chain sentinel for a file with no data
pages. -/
theorem fs_open_wf (fs : Fs) (fe : FileEntry) (chain : List Nat)
    (h : WfFile fs fe chain) :
    fs_open fs fe false = ⟨fe, readEnd fs chain 1 0 0, false⟩ := by
  obtain ⟨hseg, hchain, hlen⟩ := h
  unfold fs_open
  rw [if_neg (by
    obtain ⟨h1, h2, -⟩ := hseg
    omega)]
  rw [if_neg (by simp)]
  cases chain with
  | nil =>
    obtain ⟨-, -, -, -, hlink, -⟩ := hseg
    rw [hlink]
    rfl
  | cons w rest =>
    obtain ⟨-, -, -, -, ⟨hlink, -⟩, hseg2⟩ := hseg
    rw [hlink]
    have : readEnd fs (w :: rest) 1 0 0 = ⟨w, 1, 0⟩ := by
      rw [readEnd_cons, if_pos (by omega)]
    rw [this]

/-- fs_read from the cursor position readEnd(off) of a well-formed file
returns exactly the stream bytes [off, off+len) and moves the cursor to
readEnd(off+len), without error. -/
theorem fs_read_at (fs : Fs) (fe : FileEntry) (chain : List Nat)
    (off len : Nat) (h : WfFile fs fe chain) :
    fs_read fs ⟨fe, readEnd fs chain 1 0 off, false⟩ len =
      (((segBytes fs chain).drop off).take len,
        ⟨fe, readEnd fs chain 1 0 (off + len), false⟩) := by
  obtain ⟨hseg, hchain, hlen⟩ := h
  cases chain with
  | nil =>
    show fs_read fs ⟨fe, ⟨0, 1, 0⟩, false⟩ len = _
    unfold fs_read
    rw [if_neg (by simp)]
    obtain ⟨f1, hf1⟩ : ∃ f1, readFuel fs len = f1 + 1 :=
      ⟨readFuel fs len - 1, by unfold readFuel; omega⟩
    rw [hf1, readLoop_stopped fs f1 _ (Or.inl rfl)]
    show (([] : List Nat), (⟨fe, ⟨0, 1, 0⟩, false⟩ : OpenFile)) = _
    have h1 : (segBytes fs []).drop off = [] := List.drop_nil
    rw [h1, List.take_nil]
    rfl
  | cons v rest =>
    obtain ⟨-, -, -, -, -, hseg2⟩ := hseg
    have hsegc : Seg fs 1 (v :: rest) := hseg2
    unfold fs_read
    rw [if_neg (by simp)]
    rw [readLoop_seg_at fs rest v 1 0 off len [] fe (readFuel fs len) hsegc
      (by omega)
      (by have : (v :: rest).length = rest.length + 1 := rfl
          omega)
      (by unfold readFuel
          have : (v :: rest).length = rest.length + 1 := rfl
          omega)]
    have hpt : pageTail fs v 0 ++ segBytes fs rest = segBytes fs (v :: rest) := by
      rw [segBytes_cons]
    rw [hpt, List.nil_append]

/-- Loop of fs_file_length: repeated 512-byte skip reads, accumulating the
count, stopping at the first short read. -/
def lengthLoop (fs : Fs) : Nat → Nat → OpenFile → Option Nat
  | 0, _, _ => none
  | fuel + 1, l, of =>
    match fs_read fs of 512 with
    | (bytes, of2) =>
      if of2.error then none
      else if bytes.length ≠ 512 then some (l + bytes.length)
      else lengthLoop fs fuel (l + bytes.length) of2

/-- fs_file_length of fs.c: opens the file and sums the bytes of repeated
512-byte reads. -/
def fs_file_length (fs : Fs) (fe : FileEntry) : Option Nat :=
  if (fs_open fs fe false).error then none
  else lengthLoop fs (fs.length + 2) 0 (fs_open fs fe false)

/-- The length loop, started at offset off of a well-formed file, returns
the accumulated count plus the remaining stream bytes. -/
theorem lengthLoop_wf (fs : Fs) (fe : FileEntry) (chain : List Nat)
    (h : WfFile fs fe chain) :
    ∀ (fuel off l : Nat),
      off ≤ (segBytes fs chain).length →
      (segBytes fs chain).length - off < 512 * fuel →
      lengthLoop fs fuel l ⟨fe, readEnd fs chain 1 0 off, false⟩ =
        some (l + ((segBytes fs chain).length - off)) := by
  intro fuel
  induction fuel with
  | zero =>
    intro off l hoff hf
    omega
  | succ fuel ih =>
    intro off l hoff hf
    show (match fs_read fs ⟨fe, readEnd fs chain 1 0 off, false⟩ 512 with
      | (bytes, of2) =>
        if of2.error then none
        else if bytes.length ≠ 512 then some (l + bytes.length)
        else lengthLoop fs fuel (l + bytes.length) of2) = _
    rw [fs_read_at fs fe chain off 512 h]
    show (if False = true then none
      else if (((segBytes fs chain).drop off).take 512).length ≠ 512 then
        some (l + (((segBytes fs chain).drop off).take 512).length)
      else lengthLoop fs fuel (l + (((segBytes fs chain).drop off).take 512).length)
        ⟨fe, readEnd fs chain 1 0 (off + 512), false⟩) = _
    rw [if_neg (by simp)]
    have hblen : (((segBytes fs chain).drop off).take 512).length =
        min 512 ((segBytes fs chain).length - off) := by
      rw [List.length_take, List.length_drop]
    by_cases hshort : (segBytes fs chain).length - off < 512
    · rw [if_pos (by omega), hblen]
      have : min 512 ((segBytes fs chain).length - off) =
          (segBytes fs chain).length - off := by omega
      rw [this]
    · rw [if_neg (by omega), hblen]
      have hm : min 512 ((segBytes fs chain).length - off) = 512 := by omega
      rw [hm]
      rw [ih (off + 512) (l + 512) (by omega) (by omega)]
      have : l + 512 + ((segBytes fs chain).length - (off + 512)) =
          l + ((segBytes fs chain).length - off) := by omega
      rw [this]

/-- Stream length is the sum of per-page counts. -/
theorem segBytes_length (fs : Fs) :
    ∀ cs : List Nat, (segBytes fs cs).length =
      (cs.map (fun v => (fs.pages v).label.nbytes)).sum := by
  intro cs
  induction cs with
  | nil => rfl
  | cons w rest ihc =>
    rw [segBytes_cons, List.length_append, pageTail_length, List.map_cons,
      List.sum_cons, ihc]
    omega

/-- On a well-formed segment each page holds at most 512 bytes, so the
stream is bounded by 512 bytes per page. -/
theorem segBytes_le (fs : Fs) :
    ∀ (cs : List Nat) (i : Nat), Seg fs i cs →
      (segBytes fs cs).length ≤ 512 * cs.length := by
  intro cs
  induction cs with
  | nil =>
    intro i hseg
    simp [segBytes]
  | cons w rest ihc =>
    intro i hseg
    have hnb : (fs.pages w).label.nbytes ≤ 512 := hseg.2.2.2.1
    have htl := ihc (i + 1) hseg.2.2.2.2.2
    rw [segBytes_cons, List.length_append, pageTail_length]
    have : (w :: rest).length = rest.length + 1 := rfl
    rw [this]
    omega

/-- C8: for every well-formed file chain, fs_file_length succeeds and
returns the sum of label.nbytes over the non-leader pages of the chain. -/
theorem file_length_wf (fs : Fs) (fe : FileEntry) (chain : List Nat)
    (h : WfFile fs fe chain) :
    fs_file_length fs fe =
      some ((chain.map (fun v => (fs.pages v).label.nbytes)).sum) := by
  have hopen := fs_open_wf fs fe chain h
  have hsegchain : Seg fs 1 chain := by
    cases chain with
    | nil => trivial
    | cons w rest => exact h.1.2.2.2.2.2
  unfold fs_file_length
  rw [hopen]
  rw [if_neg (by simp)]
  have hfuel : (segBytes fs chain).length - 0 < 512 * (fs.length + 2) := by
    have hb := segBytes_le fs chain 1 hsegchain
    have hc : chain.length + 1 ≤ fs.length := h.2.1
    omega
  rw [lengthLoop_wf fs fe chain h (fs.length + 2) 0 0 (by omega) hfuel]
  rw [segBytes_length fs chain]
  have : 0 + ((chain.map (fun v => (fs.pages v).label.nbytes)).sum - 0) =
      (chain.map (fun v => (fs.pages v).label.nbytes)).sum := by omega
  rw [this]

/-- Concrete two-page chain of scenario S4: leader at VDA 1 with 512 bytes,
data page at VDA 2 with 100 bytes. -/
def s4Fs : Fs :=
  ⟨⟨1, 1, 3⟩, 3, fun v =>
    if v = 1 then ⟨1, 0, 4096, ⟨8192, 0, 0, 512, 0, 1, ⟨0, 5⟩⟩,
      fun i => if i = 12 then 2 else if i = 13 then 65 else 0⟩
    else if v = 2 then ⟨2, 0, 8192, ⟨0, 4096, 0, 100, 1, 1, ⟨0, 5⟩⟩, fun i => i % 256⟩
    else zeroPage⟩

/-- File entry of the S4 file. -/
def s4Fe : FileEntry :=
  ⟨⟨0, 5⟩, 1, 0, 1⟩

/-- Witness for file_length_wf on the S4 chain: the length is 100. -/
theorem file_length_wf_witness :
    fs_file_length s4Fs s4Fe =
      some (([2].map (fun v => (s4Fs.pages v).label.nbytes)).sum) :=
  file_length_wf s4Fs s4Fe [2] (by decide)

/-- Overwrite of a byte buffer region with a list of bytes, as the C code
does when fs_read stores into a caller buffer. -/
def writeBytes (buf : Nat → Nat) (start : Nat) (bytes : List Nat) : Nat → Nat :=
  fun i => if start ≤ i ∧ i < start + bytes.length then bytes.getD (i - start) 0 else buf i

/-- Directory entry assembled by fs_scan_directory (the blank word of the C
struct stays uninitialized there; it is fixed to 0 here and never read). -/
structure DirectoryEntry where
  filename : List Nat
  fe : FileEntry
deriving DecidableEq

/-- Entry parse from the scan buffer, as fs_scan_directory fills struct
directory_entry. -/
def parseDe (buf : Nat → Nat) : DirectoryEntry :=
  { filename := copy_name (fun i => buf (12 + i))
    fe := { sn := ⟨read_word_bs buf 2, read_word_bs buf 4⟩
            version := read_word_bs buf 6
            blank := 0
            leader_vda := read_word_bs buf 10 } }

/-- Body phase of the scan loop when the record exceeds the 128-byte stack
buffer: read 126 bytes into the buffer, skip the remainder, then visit the
entry if valid.  The callback result is the C int convention: negative
aborts, zero stops, positive continues. -/
def scanBig {σ : Type} (fs : Fs) (cb : σ → DirectoryEntry → Int × σ)
    (k : OpenFile → (Nat → Nat) → σ → Option (Bool × σ))
    (of1 : OpenFile) (buf : Nat → Nat) (s : σ) (toRead tag : Nat) :
    Option (Bool × σ) :=
  if (fs_read fs of1 126).2.error then some (false, s)
  else if (fs_read fs of1 126).1.length ≠ 126 then some (false, s)
  else if (fs_read fs (fs_read fs of1 126).2 (toRead - 128)).2.error then
    some (false, s)
  else if (fs_read fs (fs_read fs of1 126).2 (toRead - 128)).1.length ≠
      toRead - 128 then
    some (false, s)
  else if tag ≠ 1 then
    k (fs_read fs (fs_read fs of1 126).2 (toRead - 128)).2
      (writeBytes buf 2 (fs_read fs of1 126).1) s
  else if (cb s (parseDe (writeBytes buf 2 (fs_read fs of1 126).1))).1 < 0 then
    some (false, (cb s (parseDe (writeBytes buf 2 (fs_read fs of1 126).1))).2)
  else if (cb s (parseDe (writeBytes buf 2 (fs_read fs of1 126).1))).1 = 0 then
    some (true, (cb s (parseDe (writeBytes buf 2 (fs_read fs of1 126).1))).2)
  else
    k (fs_read fs (fs_read fs of1 126).2 (toRead - 128)).2
      (writeBytes buf 2 (fs_read fs of1 126).1)
      (cb s (parseDe (writeBytes buf 2 (fs_read fs of1 126).1))).2

/-- Body phase of the scan loop when the record fits the stack buffer:
read the remaining record bytes after the control word, then visit the
entry if valid. -/
def scanSmall {σ : Type} (fs : Fs) (cb : σ → DirectoryEntry → Int × σ)
    (k : OpenFile → (Nat → Nat) → σ → Option (Bool × σ))
    (of1 : OpenFile) (buf : Nat → Nat) (s : σ) (toRead tag : Nat) :
    Option (Bool × σ) :=
  if (fs_read fs of1 (toRead - 2)).2.error then some (false, s)
  else if (fs_read fs of1 (toRead - 2)).1.length ≠ toRead - 2 then
    some (false, s)
  else if tag ≠ 1 then
    k (fs_read fs of1 (toRead - 2)).2
      (writeBytes buf 2 (fs_read fs of1 (toRead - 2)).1) s
  else if (cb s (parseDe (writeBytes buf 2 (fs_read fs of1 (toRead - 2)).1))).1 < 0 then
    some (false, (cb s (parseDe (writeBytes buf 2 (fs_read fs of1 (toRead - 2)).1))).2)
  else if (cb s (parseDe (writeBytes buf 2 (fs_read fs of1 (toRead - 2)).1))).1 = 0 then
    some (true, (cb s (parseDe (writeBytes buf 2 (fs_read fs of1 (toRead - 2)).1))).2)
  else
    k (fs_read fs of1 (toRead - 2)).2
      (writeBytes buf 2 (fs_read fs of1 (toRead - 2)).1)
      (cb s (parseDe (writeBytes buf 2 (fs_read fs of1 (toRead - 2)).1))).2

/-- Loop of fs_scan_directory: reads the control word, reads (or skips) the
record body, and visits valid entries through the callback. -/
def scanDirLoop {σ : Type} (fs : Fs) (cb : σ → DirectoryEntry → Int × σ) :
    Nat → OpenFile → (Nat → Nat) → σ → Option (Bool × σ)
  | 0, _, _, _ => none
  | fuel + 1, of, buf, s =>
    if (fs_read fs of 2).2.error then some (false, s)
    else if (fs_read fs of 2).1.length = 0 then some (true, s)
    else if (fs_read fs of 2).1.length ≠ 2 then some (false, s)
    else if read_word_bs (writeBytes buf 0 (fs_read fs of 2).1) 0 % 1024 = 0 then
      some (false, s)
    else if 2 * (read_word_bs (writeBytes buf 0 (fs_read fs of 2).1) 0 % 1024) > 128 then
      scanBig fs cb (scanDirLoop fs cb fuel) (fs_read fs of 2).2
        (writeBytes buf 0 (fs_read fs of 2).1) s
        (2 * (read_word_bs (writeBytes buf 0 (fs_read fs of 2).1) 0 % 1024))
        (read_word_bs (writeBytes buf 0 (fs_read fs of 2).1) 0 >>> 10)
    else
      scanSmall fs cb (scanDirLoop fs cb fuel) (fs_read fs of 2).2
        (writeBytes buf 0 (fs_read fs of 2).1) s
        (2 * (read_word_bs (writeBytes buf 0 (fs_read fs of 2).1) 0 % 1024))
        (read_word_bs (writeBytes buf 0 (fs_read fs of 2).1) 0 >>> 10)

/-- Fuel that always suffices for the directory scan (each record consumes
at least two stream bytes). -/
def scanFuel (fs : Fs) : Nat :=
  256 * fs.length + 2

/-- fs_scan_directory of fs.c.  The 128-byte stack buffer starts unspecified
in C and is modelled as zeros; records never read beyond what was written
for well-formed directories, and no claim depends on the initial content. -/
def fs_scan_directory {σ : Type} (fs : Fs) (fe : FileEntry)
    (cb : σ → DirectoryEntry → Int × σ) (s : σ) : Bool × σ :=
  if (fs_open fs fe false).error then (false, s)
  else
    match scanDirLoop fs cb (scanFuel fs) (fs_open fs fe false) (fun _ => 0) s with
    | none => (false, s)
    | some r => r

/-- fs_file_entry of fs.c: builds a file entry from a leader page. -/
def fs_file_entry (fs : Fs) (leader_vda : Nat) : Option FileEntry :=
  if leader_vda ≥ fs.length then none
  else some ⟨(fs.pages leader_vda).label.sn,
    (fs.pages leader_vda).label.version, 0, leader_vda⟩

/-- Search state of fs_find_file, after struct find_result: the byte suffix
of the path at the current component, the component length, the found file
entry, and the found flag. -/
structure FindResult where
  filename : List Nat
  flen : Nat
  fe : FileEntry
  found : Bool

/-- The zero-result test of C strncmp, reading byte i onward for at most n
bytes; list reads past the end give the NUL terminator. -/
def strncmpIsZero (a b : List Nat) : Nat → Nat → Bool
  | _, 0 => true
  | i, n + 1 =>
    if a.getD i 0 ≠ b.getD i 0 then false
    else if a.getD i 0 = 0 then true
    else strncmpIsZero a b (i + 1) n

/-- Callback of fs_find_file: matches the decoded filename of the leader
page of the candidate entry against the current path component with
strncmp over the component length. -/
def find_file_cb (fs : Fs) (res : FindResult) (de : DirectoryEntry) :
    Int × FindResult :=
  match fs_file_info fs de.fe with
  | none => (-1, res)
  | some finfo =>
    if strncmpIsZero finfo.filename res.filename 0 res.flen then
      (0, { res with fe := de.fe, found := true })
    else (1, res)

/-- Position of the next path delimiter at or after start. -/
def scanComp (path : List Nat) (start : Nat) : Nat :=
  start + (path.drop start).findIdx (fun c => c == 60 || c == 62)

/-- Loop of fs_find_file over the path components; 60 and 62 are the byte
values of the delimiters. -/
def findLoop (fs : Fs) (path : List Nat) : Nat → Nat → FileEntry → FileEntry →
    Option FileEntry
  | 0, _, _, _ => none
  | fuel + 1, pos, root_fe, cur_fe =>
    if pos ≥ path.length then some cur_fe
    else if path.getD pos 0 = 60 then
      findLoop fs path fuel (pos + 1) root_fe root_fe
    else
      if scanComp path (pos + 1) - pos ≥ 40 then none
      else
        match fs_scan_directory fs cur_fe (find_file_cb fs)
          ⟨path.drop pos, scanComp path (pos + 1) - pos, ⟨⟨0, 0⟩, 0, 0, 0⟩, false⟩ with
        | (false, _) => none
        | (true, res) =>
          if res.found = false then none
          else if path.getD (scanComp path (pos + 1)) 0 = 62 then
            if res.fe.sn.word1 &&& SN_DIRECTORY = 0 then none
            else findLoop fs path fuel (scanComp path (pos + 1) + 1) root_fe res.fe
          else findLoop fs path fuel (scanComp path (pos + 1)) root_fe res.fe

/-- fs_find_file of fs.c: resolves a path from the root directory whose
leader page is at VDA 1. -/
def fs_find_file (fs : Fs) (path : List Nat) : Option FileEntry :=
  match fs_file_entry fs 1 with
  | none => none
  | some root_fe => findLoop fs path (path.length + 1) 0 root_fe root_fe

/-- Concrete filesystem whose root directory holds one entry for a file
named AB (leader at VDA 3). -/
def c3Fs : Fs :=
  ⟨⟨1, 1, 4⟩, 4, fun v =>
    if v = 1 then
      ⟨1, 0, 4096, ⟨8192, 0, 0, 512, 0, 1, ⟨32768, 1⟩⟩, fun _ => 0⟩
    else if v = 2 then
      ⟨2, 0, 8192, ⟨0, 4096, 0, 16, 1, 1, ⟨32768, 1⟩⟩, fun i =>
        if i = 0 then 4 else
        if i = 1 then 8 else
        if i = 5 then 7 else
        if i = 7 then 1 else
        if i = 11 then 3 else
        if i = 12 then 3 else
        if i = 13 then 65 else
        if i = 14 then 66 else 0⟩
    else if v = 3 then
      ⟨3, 0, 12288, ⟨0, 0, 0, 512, 0, 1, ⟨0, 7⟩⟩, fun i =>
        if i = 12 then 3 else
        if i = 13 then 65 else
        if i = 14 then 66 else 0⟩
    else zeroPage⟩

/-- Counterexample to C3 as stated: resolving the path consisting of the
single component A selects the entry whose decoded filename is AB, so a
file whose name merely begins with the component is matched. -/
theorem find_file_prefix_counterexample :
    (fs_find_file c3Fs [65]).map FileEntry.leader_vda = some 3 ∧
    copy_name (fun i => (c3Fs.pages 3).data (12 + i)) = [65, 66] ∧
    copy_name (fun i => (c3Fs.pages 3).data (12 + i)) ≠ [65] := by
  decide

/-- The zero test of strncmp is equivalence of all compared bytes, when the
second string has no NUL in the compared range. -/
theorem strncmpIsZero_iff (a b : List Nat) : ∀ (n i : Nat),
    (∀ k, i ≤ k → k < i + n → b.getD k 0 ≠ 0) →
    (strncmpIsZero a b i n = true ↔
      ∀ k, i ≤ k → k < i + n → a.getD k 0 = b.getD k 0) := by
  intro n
  induction n with
  | zero =>
    intro i hnz
    constructor
    · intro _ k hk1 hk2
      omega
    · intro _
      rfl
  | succ n ih =>
    intro i hnz
    show (if a.getD i 0 ≠ b.getD i 0 then false
      else if a.getD i 0 = 0 then true
      else strncmpIsZero a b (i + 1) n) = true ↔ _
    by_cases h1 : a.getD i 0 ≠ b.getD i 0
    · rw [if_pos h1]
      constructor
      · intro hfalse
        cases hfalse
      · intro hall
        exact absurd (hall i (by omega) (by omega)) h1
    · rw [if_neg h1]
      push_neg at h1
      by_cases h2 : a.getD i 0 = 0
      · exact absurd (h1 ▸ h2) (hnz i (by omega) (by omega))
      · rw [if_neg h2]
        rw [ih (i + 1) (by intro k hk1 hk2; exact hnz k (by omega) (by omega))]
        constructor
        · intro hall k hk1 hk2
          rcases Nat.eq_or_lt_of_le hk1 with he | hl
          · rw [← he]
            exact h1
          · exact hall k (by omega) (by omega)
        · intro hall k hk1 hk2
          exact hall k (by omega) (by omega)

/-- Byte agreement over an initial range is prefix equality. -/
theorem getD_agree_iff_take (a b : List Nat) (n : Nat)
    (hnz : ∀ k, k < n → b.getD k 0 ≠ 0) :
    (∀ k, k < n → a.getD k 0 = b.getD k 0) ↔
      n ≤ a.length ∧ a.take n = b.take n := by
  have hblen : n ≤ b.length := by
    by_contra hcon
    push_neg at hcon
    exact hnz b.length (by omega) (List.getD_eq_default b 0 (by omega))
  constructor
  · intro hall
    have halen : n ≤ a.length := by
      by_contra hcon
      push_neg at hcon
      have h0 : a.getD a.length 0 = 0 := List.getD_eq_default a 0 (by omega)
      have := hall a.length (by omega)
      exact hnz a.length (by omega) (by rw [← this]; exact h0)
    refine ⟨halen, ?_⟩
    apply List.ext_getElem
    · rw [List.length_take, List.length_take]
      omega
    · intro k hk1 hk2
      rw [List.length_take] at hk1
      have hk : k < n := by omega
      have ha : (a.take n)[k] = a.getD k 0 := by
        rw [List.getElem_take]
        rw [List.getD_eq_getElem a 0 (by omega)]
      have hb : (b.take n)[k] = b.getD k 0 := by
        rw [List.getElem_take]
        rw [List.getD_eq_getElem b 0 (by omega)]
      rw [ha, hb]
      exact hall k hk
  · intro ⟨halen, htake⟩ k hk
    have ha : a.getD k 0 = (List.take n a).getD k 0 := by
      rw [List.getD_eq_getElem a 0 (by omega),
        List.getD_eq_getElem (List.take n a) 0 (by rw [List.length_take]; omega),
        List.getElem_take]
    have hb : b.getD k 0 = (List.take n b).getD k 0 := by
      rw [List.getD_eq_getElem b 0 (by omega),
        List.getD_eq_getElem (List.take n b) 0 (by rw [List.length_take]; omega),
        List.getElem_take]
    rw [ha, hb, htake]

/-- C3 (amended): during path resolution a directory entry is selected
precisely when the path component is a prefix of the decoded filename of
the entry (taken from its leader page), not only when the two are equal;
selection stores the entry and stops the scan. -/
theorem find_file_cb_prefix (fs : Fs) (res : FindResult) (de : DirectoryEntry)
    (finfo : FileInfo) (hinfo : fs_file_info fs de.fe = some finfo)
    (hnz : ∀ k, k < res.flen → res.filename.getD k 0 ≠ 0) :
    ((find_file_cb fs res de).1 = 0 ↔
      res.flen ≤ finfo.filename.length ∧
        finfo.filename.take res.flen = res.filename.take res.flen) ∧
    ((find_file_cb fs res de).1 = 0 →
      (find_file_cb fs res de).2.found = true ∧
        (find_file_cb fs res de).2.fe = de.fe) := by
  have hiff := strncmpIsZero_iff finfo.filename res.filename res.flen 0
    (by intro k hk1 hk2; exact hnz k (by omega))
  have hiff2 := getD_agree_iff_take finfo.filename res.filename res.flen
    (by intro k hk; exact hnz k hk)
  have hfc : find_file_cb fs res de =
      (if strncmpIsZero finfo.filename res.filename 0 res.flen then
        ((0 : Int), { res with fe := de.fe, found := true })
      else ((1 : Int), res)) := by
    unfold find_file_cb
    rw [hinfo]
  rw [hfc]
  by_cases hcmp : strncmpIsZero finfo.filename res.filename 0 res.flen = true
  · rw [if_pos hcmp]
    constructor
    · constructor
      · intro _
        rw [hiff] at hcmp
        rw [← hiff2]
        intro k hk
        exact hcmp k (by omega) (by omega)
      · intro _
        rfl
    · intro _
      exact ⟨rfl, rfl⟩
  · rw [if_neg hcmp]
    constructor
    · constructor
      · intro hone
        cases hone
      · intro hpre
        exfalso
        apply hcmp
        rw [hiff]
        intro k hk1 hk2
        exact (hiff2.mpr hpre) k (by omega)
    · intro hone
      cases hone

/-- Witness for find_file_cb_prefix: the AB entry of c3Fs against the
component A. -/
theorem find_file_cb_prefix_witness :
    ((find_file_cb c3Fs ⟨[65], 1, ⟨⟨0, 0⟩, 0, 0, 0⟩, false⟩
        ⟨[65, 66], ⟨⟨0, 7⟩, 1, 0, 3⟩⟩).1 = 0 ↔
      1 ≤ ([65, 66] : List Nat).length ∧
        ([65, 66] : List Nat).take 1 = ([65] : List Nat).take 1) ∧
    ((find_file_cb c3Fs ⟨[65], 1, ⟨⟨0, 0⟩, 0, 0, 0⟩, false⟩
        ⟨[65, 66], ⟨⟨0, 7⟩, 1, 0, 3⟩⟩).1 = 0 →
      (find_file_cb c3Fs ⟨[65], 1, ⟨⟨0, 0⟩, 0, 0, 0⟩, false⟩
        ⟨[65, 66], ⟨⟨0, 7⟩, 1, 0, 3⟩⟩).2.found = true ∧
      (find_file_cb c3Fs ⟨[65], 1, ⟨⟨0, 0⟩, 0, 0, 0⟩, false⟩
        ⟨[65, 66], ⟨⟨0, 7⟩, 1, 0, 3⟩⟩).2.fe = ⟨⟨0, 7⟩, 1, 0, 3⟩) :=
  find_file_cb_prefix c3Fs ⟨[65], 1, ⟨⟨0, 0⟩, 0, 0, 0⟩, false⟩
    ⟨[65, 66], ⟨⟨0, 7⟩, 1, 0, 3⟩⟩
    ⟨[65, 66], 2117503696, 2117503696, 2117503696, 0, 0, ⟨⟨0, 0⟩, 0, 0, 0⟩, ⟨0, 0, 0⟩⟩
    (by decide) (by decide)

/-- Flat byte stream of a list of directory records: each record is the
big-endian control word followed by its payload bytes. -/
def dirStream (recs : List (Nat × List Nat)) : List Nat :=
  recs.flatMap (fun r => r.1 >>> 8 :: r.1 % 256 :: r.2)

/-- Well-formed record list: control words fit uint16, declared lengths are
nonzero, payload sizes match the declared length in words. -/
def WfRecs (recs : List (Nat × List Nat)) : Prop :=
  ∀ r ∈ recs, r.1 < 65536 ∧ r.1 % 1024 ≠ 0 ∧ r.2.length = 2 * (r.1 % 1024) - 2

instance (recs : List (Nat × List Nat)) : Decidable (WfRecs recs) := by
  unfold WfRecs
  infer_instance

/-- Scan buffer contents after loading one record: the control word in the
first two bytes, then at most 126 payload bytes. -/
def recBuf (w : Nat) (p : List Nat) (buf : Nat → Nat) : Nat → Nat :=
  writeBytes (writeBytes buf 0 [w >>> 8, w % 256]) 2 (p.take 126)

/-- Entries the scan hands to the callback: exactly one per record whose
validity tag is 1, in record order, each parsed from the buffer state at
that record. -/
def specEntries (buf : Nat → Nat) : List (Nat × List Nat) → List DirectoryEntry
  | [] => []
  | (w, p) :: rest =>
    if w >>> 10 = 1 then
      parseDe (recBuf w p buf) :: specEntries (recBuf w p buf) rest
    else specEntries (recBuf w p buf) rest

/-- Buffer state after the scan has consumed a record list. -/
def bufAfter (buf : Nat → Nat) : List (Nat × List Nat) → Nat → Nat
  | [] => buf
  | (w, p) :: rest => bufAfter (recBuf w p buf) rest

/-- Reading the control word back from the scan buffer recovers the word. -/
theorem read_word_writeBytes (buf : Nat → Nat) (w : Nat) :
    read_word_bs (writeBytes buf 0 [w >>> 8, w % 256]) 0 = w := by
  show (if 0 ≤ 1 ∧ 1 < 0 + 2 then ([w >>> 8, w % 256].getD (1 - 0) 0) else buf 1) |||
      (if 0 ≤ 0 ∧ 0 < 0 + 2 then ([w >>> 8, w % 256].getD (0 - 0) 0) else buf 0) <<< 8 = w
  rw [if_pos (by omega), if_pos (by omega)]
  show w % 256 ||| (w >>> 8) <<< 8 = w
  rw [Nat.lor_comm, shiftLeft_lor_eq_add (w >>> 8) 8 (w % 256) (by omega)]
  rw [Nat.shiftRight_eq_div_pow]
  have : 2 ^ 8 = 256 := by norm_num
  rw [this]
  omega

/-- Dropping past a known prefix of a dropped stream. -/
theorem drop_shift (S A B : List Nat) (off : Nat) (h : S.drop off = A ++ B) :
    S.drop (off + A.length) = B := by
  have h1 : (S.drop off).drop A.length = S.drop (off + A.length) :=
    List.drop_drop A.length off S
  rw [h, List.drop_left] at h1
  exact h1.symm

/-- Stream of a record list, head record exposed. -/
theorem dirStream_cons (w : Nat) (p : List Nat) (rest : List (Nat × List Nat)) :
    dirStream ((w, p) :: rest) = w >>> 8 :: w % 256 :: (p ++ dirStream rest) := by
  unfold dirStream
  rw [List.flatMap_cons]
  rfl

/-- The scan loop consumes a run of well-formed records, visiting each valid
record exactly once in order, and continues at the stream position, buffer
state, and accumulated entry list past the run. -/
theorem scanLoop_consume (fs : Fs) (fe : FileEntry) (chain : List Nat)
    (h : WfFile fs fe chain) :
    ∀ (recs : List (Nat × List Nat)) (fuel off : Nat) (buf : Nat → Nat)
      (s : List DirectoryEntry) (tail : List Nat),
      (segBytes fs chain).drop off = dirStream recs ++ tail →
      WfRecs recs →
      scanDirLoop fs (fun s de => ((1 : Int), s ++ [de])) (fuel + recs.length)
          ⟨fe, readEnd fs chain 1 0 off, false⟩ buf s =
        scanDirLoop fs (fun s de => ((1 : Int), s ++ [de])) fuel
          ⟨fe, readEnd fs chain 1 0 (off + (dirStream recs).length), false⟩
          (bufAfter buf recs) (s ++ specEntries buf recs) := by
  intro recs
  induction recs with
  | nil =>
    intro fuel off buf s tail hstream hwf
    have h1 : s ++ specEntries buf [] = s := List.append_nil s
    rw [h1]
    rfl
  | cons r rest ih =>
    obtain ⟨w, p⟩ := r
    intro fuel off buf s tail hstream hwf
    obtain ⟨hw, hdl, hp⟩ := hwf (w, p) (List.mem_cons_self _ _)
    replace hw : w < 65536 := hw
    replace hdl : w % 1024 ≠ 0 := hdl
    replace hp : p.length = 2 * (w % 1024) - 2 := hp
    have hwfrest : WfRecs rest := fun r hr => hwf r (List.mem_cons_of_mem _ hr)
    have hstream1 : (segBytes fs chain).drop off =
        [w >>> 8, w % 256] ++ (p ++ (dirStream rest ++ tail)) := by
      rw [hstream, dirStream_cons]
      simp [List.append_assoc]
    have hs2 : (segBytes fs chain).drop (off + 2) =
        p ++ (dirStream rest ++ tail) :=
      drop_shift _ [w >>> 8, w % 256] _ off hstream1
    have hrest : (segBytes fs chain).drop (off + 2 + p.length) =
        dirStream rest ++ tail :=
      drop_shift _ p _ (off + 2) hs2
    have hfuel : fuel + ((w, p) :: rest).length = (fuel + rest.length) + 1 := by
      rw [List.length_cons]
      omega
    rw [hfuel]
    rw [scanDirLoop]
    rw [fs_read_at fs fe chain off 2 h]
    dsimp only
    have hb1 : ((segBytes fs chain).drop off).take 2 = [w >>> 8, w % 256] := by
      rw [hstream1]
      rfl
    rw [hb1]
    rw [if_neg (show ¬(false = true) by decide)]
    rw [if_neg (show ¬(([w >>> 8, w % 256] : List Nat).length = 0) by simp)]
    rw [if_neg (show ¬(([w >>> 8, w % 256] : List Nat).length ≠ 2) by simp)]
    rw [read_word_writeBytes buf w]
    rw [if_neg hdl]
    have hlen : off + 2 + p.length + (dirStream rest).length =
        off + (dirStream ((w, p) :: rest)).length := by
      rw [dirStream_cons]
      simp only [List.length_cons, List.length_append]
      omega
    have hba : bufAfter buf ((w, p) :: rest) = bufAfter (recBuf w p buf) rest := rfl
    have hse : specEntries buf ((w, p) :: rest) =
        if w >>> 10 = 1 then
          parseDe (recBuf w p buf) :: specEntries (recBuf w p buf) rest
        else specEntries (recBuf w p buf) rest := rfl
    by_cases hbig : 2 * (w % 1024) > 128
    · rw [if_pos hbig]
      unfold scanBig
      rw [fs_read_at fs fe chain (off + 2) 126 h]
      dsimp only
      have hb2 : ((segBytes fs chain).drop (off + 2)).take 126 = p.take 126 := by
        rw [hs2, List.take_append_of_le_length (by omega)]
      rw [hb2]
      rw [if_neg (show ¬(false = true) by decide)]
      have hl2 : (p.take 126).length = 126 := by
        rw [List.length_take]
        omega
      rw [hl2]
      rw [if_neg (show ¬((126 : Nat) ≠ 126) by omega)]
      rw [fs_read_at fs fe chain (off + 2 + 126) (2 * (w % 1024) - 128) h]
      dsimp only
      have hs128 : (segBytes fs chain).drop (off + 2 + 126) =
          p.drop 126 ++ (dirStream rest ++ tail) := by
        have h126 : (segBytes fs chain).drop ((off + 2) + (p.take 126).length) =
            p.drop 126 ++ (dirStream rest ++ tail) := by
          apply drop_shift _ (p.take 126) _ (off + 2)
          rw [hs2, ← List.append_assoc (p.take 126) (p.drop 126)
            (dirStream rest ++ tail), List.take_append_drop]
        rw [hl2] at h126
        exact h126
      have hb3 : ((segBytes fs chain).drop (off + 2 + 126)).take
          (2 * (w % 1024) - 128) = p.drop 126 := by
        rw [hs128, List.take_append_of_le_length (by rw [List.length_drop]; omega)]
        rw [List.take_of_length_le (by rw [List.length_drop]; omega)]
      rw [hb3]
      rw [if_neg (show ¬(false = true) by decide)]
      have hl3 : (p.drop 126).length = 2 * (w % 1024) - 128 := by
        rw [List.length_drop]
        omega
      rw [hl3]
      rw [if_neg (show ¬(2 * (w % 1024) - 128 ≠ 2 * (w % 1024) - 128) by omega)]
      have hoff3 : off + 2 + 126 + (2 * (w % 1024) - 128) = off + 2 + p.length := by
        omega
      rw [hoff3]
      have hrbBig : writeBytes (writeBytes buf 0 [w >>> 8, w % 256]) 2 (p.take 126) =
          recBuf w p buf := rfl
      rw [hrbBig]
      by_cases hv : w >>> 10 = 1
      · rw [if_neg (show ¬(w >>> 10 ≠ 1) from fun hne => hne hv)]
        rw [if_neg (show ¬((1 : Int) < 0) by decide)]
        rw [if_neg (show ¬((1 : Int) = 0) by decide)]
        rw [ih fuel (off + 2 + p.length) (recBuf w p buf)
          (s ++ [parseDe (recBuf w p buf)]) tail hrest hwfrest]
        rw [hlen, hba, hse, if_pos hv]
        have : (s ++ [parseDe (recBuf w p buf)]) ++
            specEntries (recBuf w p buf) rest =
            s ++ (parseDe (recBuf w p buf) :: specEntries (recBuf w p buf) rest) := by
          simp
        rw [this]
      · rw [if_pos hv]
        rw [ih fuel (off + 2 + p.length) (recBuf w p buf) s tail hrest hwfrest]
        rw [hlen, hba, hse, if_neg hv]
    · rw [if_neg hbig]
      unfold scanSmall
      rw [fs_read_at fs fe chain (off + 2) (2 * (w % 1024) - 2) h]
      dsimp only
      have hptake : p.take 126 = p := List.take_of_length_le (by omega)
      have hb2 : ((segBytes fs chain).drop (off + 2)).take (2 * (w % 1024) - 2) = p := by
        rw [hs2, List.take_append_of_le_length (by omega)]
        exact List.take_of_length_le (by omega)
      rw [hb2]
      rw [if_neg (show ¬(false = true) by decide)]
      rw [if_neg (show ¬(p.length ≠ 2 * (w % 1024) - 2) by omega)]
      have hoff2 : off + 2 + (2 * (w % 1024) - 2) = off + 2 + p.length := by
        omega
      rw [hoff2]
      have hrbSmall : writeBytes (writeBytes buf 0 [w >>> 8, w % 256]) 2 p =
          recBuf w p buf := by
        unfold recBuf
        rw [hptake]
      rw [hrbSmall]
      by_cases hv : w >>> 10 = 1
      · rw [if_neg (show ¬(w >>> 10 ≠ 1) from fun hne => hne hv)]
        rw [if_neg (show ¬((1 : Int) < 0) by decide)]
        rw [if_neg (show ¬((1 : Int) = 0) by decide)]
        rw [ih fuel (off + 2 + p.length) (recBuf w p buf)
          (s ++ [parseDe (recBuf w p buf)]) tail hrest hwfrest]
        rw [hlen, hba, hse, if_pos hv]
        have : (s ++ [parseDe (recBuf w p buf)]) ++
            specEntries (recBuf w p buf) rest =
            s ++ (parseDe (recBuf w p buf) :: specEntries (recBuf w p buf) rest) := by
          simp
        rw [this]
      · rw [if_pos hv]
        rw [ih fuel (off + 2 + p.length) (recBuf w p buf) s tail hrest hwfrest]
        rw [hlen, hba, hse, if_neg hv]

/-- A segment's tail is a segment. -/
theorem Seg_tail (fs : Fs) (i v : Nat) (cs : List Nat) (h : Seg fs i (v :: cs)) :
    Seg fs (i + 1) cs :=
  h.2.2.2.2.2

/-- Each record contributes at least its two control-word bytes. -/
theorem dirStream_len_ge (recs : List (Nat × List Nat)) :
    2 * recs.length ≤ (dirStream recs).length := by
  induction recs with
  | nil => simp [dirStream]
  | cons r rest ih =>
    obtain ⟨w, p⟩ := r
    rw [dirStream_cons]
    simp only [List.length_cons, List.length_append]
    omega

/-- At the exact end of the directory stream, one more loop iteration stops
the scan successfully. -/
theorem scanLoop_end (fs : Fs) (fe : FileEntry) (chain : List Nat)
    (h : WfFile fs fe chain) (fuel off : Nat) (buf : Nat → Nat)
    (s : List DirectoryEntry)
    (hstream : (segBytes fs chain).drop off = []) :
    scanDirLoop fs (fun s de => ((1 : Int), s ++ [de])) (fuel + 1)
        ⟨fe, readEnd fs chain 1 0 off, false⟩ buf s = some (true, s) := by
  rw [scanDirLoop]
  rw [fs_read_at fs fe chain off 2 h]
  dsimp only
  rw [hstream]
  rw [if_neg (show ¬(false = true) by decide)]
  rw [if_pos (show (([] : List Nat).take 2).length = 0 by simp)]

/-- A record with declared length zero at the cursor makes the next loop
iteration fail. -/
theorem scanLoop_zero (fs : Fs) (fe : FileEntry) (chain : List Nat)
    (h : WfFile fs fe chain) (fuel off : Nat) (buf : Nat → Nat)
    (s : List DirectoryEntry) (w : Nat) (tail2 : List Nat)
    (hstream : (segBytes fs chain).drop off = w >>> 8 :: w % 256 :: tail2)
    (hz : w % 1024 = 0) :
    scanDirLoop fs (fun s de => ((1 : Int), s ++ [de])) (fuel + 1)
        ⟨fe, readEnd fs chain 1 0 off, false⟩ buf s = some (false, s) := by
  rw [scanDirLoop]
  rw [fs_read_at fs fe chain off 2 h]
  dsimp only
  have hb1 : ((segBytes fs chain).drop off).take 2 = [w >>> 8, w % 256] := by
    rw [hstream]
    rfl
  rw [hb1]
  rw [if_neg (show ¬(false = true) by decide)]
  rw [if_neg (show ¬(([w >>> 8, w % 256] : List Nat).length = 0) by simp)]
  rw [if_neg (show ¬(([w >>> 8, w % 256] : List Nat).length ≠ 2) by simp)]
  rw [read_word_writeBytes buf w]
  rw [if_pos hz]

/-- C9: on a well-formed directory file whose stream is a run of
well-formed records, fs_scan_directory visits with the callback exactly one
entry per record with validity tag 1, in on-disk order (specEntries builds
one entry per tag-1 record, in record order); records with other tags are
skipped but their declared length is consumed; and a record with declared
length 0 makes the scan fail after the records before it. -/
theorem fs_scan_directory_visits (fs : Fs) (fe : FileEntry) (chain : List Nat)
    (recs : List (Nat × List Nat)) (h : WfFile fs fe chain) (hwf : WfRecs recs) :
    (segBytes fs chain = dirStream recs →
      fs_scan_directory fs fe (fun s de => ((1 : Int), s ++ [de])) [] =
        (true, specEntries (fun _ => 0) recs)) ∧
    (∀ (w : Nat) (tail2 : List Nat), w % 1024 = 0 →
      segBytes fs chain = dirStream recs ++ (w >>> 8 :: w % 256 :: tail2) →
      fs_scan_directory fs fe (fun s de => ((1 : Int), s ++ [de])) [] =
        (false, specEntries (fun _ => 0) recs)) := by
  have hseg1 : Seg fs 1 chain := Seg_tail fs 0 fe.leader_vda chain h.1
  have hsb : (segBytes fs chain).length ≤ 512 * chain.length :=
    segBytes_le fs chain 1 hseg1
  have hds : 2 * recs.length ≤ (dirStream recs).length := dirStream_len_ge recs
  have hchain : chain.length + 1 ≤ fs.length := h.2.1
  constructor
  · intro hstream
    have hlenstream : (dirStream recs).length ≤ (segBytes fs chain).length := by
      rw [hstream]
    have hfb : recs.length + 1 ≤ scanFuel fs := by
      unfold scanFuel
      omega
    unfold fs_scan_directory
    rw [fs_open_wf fs fe chain h]
    dsimp only
    rw [if_neg (show ¬(false = true) by decide)]
    have hsplit : scanFuel fs = ((scanFuel fs - recs.length - 1) + 1) + recs.length := by
      omega
    rw [hsplit]
    rw [scanLoop_consume fs fe chain h recs ((scanFuel fs - recs.length - 1) + 1) 0
      (fun _ => 0) [] [] (by rw [List.drop_zero, hstream, List.append_nil]) hwf]
    rw [scanLoop_end fs fe chain h (scanFuel fs - recs.length - 1)
      (0 + (dirStream recs).length) (bufAfter (fun _ => 0) recs)
      ([] ++ specEntries (fun _ => 0) recs)
      (by rw [hstream, Nat.zero_add, List.drop_length])]
    rfl
  · intro w tail2 hz hstream
    have hlenstream : (dirStream recs).length ≤ (segBytes fs chain).length := by
      rw [hstream, List.length_append]
      omega
    have hfb : recs.length + 1 ≤ scanFuel fs := by
      unfold scanFuel
      omega
    unfold fs_scan_directory
    rw [fs_open_wf fs fe chain h]
    dsimp only
    rw [if_neg (show ¬(false = true) by decide)]
    have hsplit : scanFuel fs = ((scanFuel fs - recs.length - 1) + 1) + recs.length := by
      omega
    rw [hsplit]
    rw [scanLoop_consume fs fe chain h recs ((scanFuel fs - recs.length - 1) + 1) 0
      (fun _ => 0) [] (w >>> 8 :: w % 256 :: tail2)
      (by rw [List.drop_zero, hstream]) hwf]
    rw [scanLoop_zero fs fe chain h (scanFuel fs - recs.length - 1)
      (0 + (dirStream recs).length) (bufAfter (fun _ => 0) recs)
      ([] ++ specEntries (fun _ => 0) recs) w tail2
      (drop_shift (segBytes fs chain) (dirStream recs) (w >>> 8 :: w % 256 :: tail2) 0
        (by rw [List.drop_zero, hstream])) hz]
    rfl

/-- The single record of the c3Fs root directory. -/
def c3Recs : List (Nat × List Nat) :=
  [(1032, [0, 0, 0, 7, 0, 1, 0, 0, 0, 3, 3, 65, 66, 0])]

/-- Witness for fs_scan_directory_visits: scanning the c3Fs root directory
visits exactly its one valid entry. -/
theorem fs_scan_directory_visits_witness :
    fs_scan_directory c3Fs ⟨⟨32768, 1⟩, 1, 0, 1⟩
        (fun s de => ((1 : Int), s ++ [de])) [] =
      (true, specEntries (fun _ => 0) c3Recs) :=
  (fs_scan_directory_visits c3Fs ⟨⟨32768, 1⟩, 1, 0, 1⟩ [2] c3Recs
    (by decide) (by decide)).1 (by decide)

/-- Page release of fs_trim: version becomes the free sentinel and both
link words are cleared; all other label fields and the data are retained. -/
def freePage (pg : Page) : Page :=
  { pg with label := { pg.label with
      version := VERSION_FREE
      prev_rda := 0
      next_rda := 0 } }

/-- Label mutation of one fs_trim iteration on the page at vda: release it
when the keep flag is off, then apply the cursor-page or following-page
truncation writes. -/
def trimPage (pg : Page) (should_keep : Bool) (vda posVda posPos : Nat) : Page :=
  if vda = posVda then
    if posPos ≠ 512 then
      { pg with label := { (if should_keep then pg else freePage pg).label with
          nbytes := posPos
          next_rda := 0 } }
    else
      { pg with label := { (if should_keep then pg else freePage pg).label with
          nbytes := posPos } }
  else
    if should_keep then
      { pg with label := { pg.label with
          nbytes := 0
          next_rda := 0 } }
    else freePage pg

/-- One fs_trim iteration applied to the page store. -/
def trimStep (fs : Fs) (vda : Nat) (should_keep : Bool) (posVda posPos : Nat) : Fs :=
  setPage fs vda (trimPage (fs.pages vda) should_keep vda posVda posPos)

/-- Keep flag after one fs_trim iteration. -/
def trimKeep (should_keep : Bool) (vda posVda posPos : Nat) : Bool :=
  if vda = posVda then (if posPos ≠ 512 then false else should_keep)
  else false

/-- Loop of fs_trim: walks the chain from the cursor page, truncating and
releasing pages; the next address is saved before the page is mutated.
Returns the page store and the error flag. -/
def trimLoop (posVda posPos : Nat) : Nat → Fs → Nat → Bool → Option (Fs × Bool)
  | 0, _, _, _ => none
  | fuel + 1, fs, vda, should_keep =>
    if vda = 0 then some (fs, false)
    else if vda ≥ fs.length then some (fs, true)
    else
      match real_to_virtual (trimStep fs vda should_keep posVda posPos)
          (fs.pages vda).label.next_rda with
      | none => some (trimStep fs vda should_keep posVda posPos, true)
      | some vda2 =>
        trimLoop posVda posPos fuel (trimStep fs vda should_keep posVda posPos)
          vda2 (trimKeep should_keep vda posVda posPos)

/-- fs_trim of fs.c: truncates the open file at the cursor.  Returns the
mutated page store, the open file (whose error flag the loop may set), and
the C return value, which is TRUE unless the file was already in error. -/
def fs_trim (fs : Fs) (of : OpenFile) : Option (Fs × OpenFile × Bool) :=
  if of.error then some (fs, of, false)
  else
    match trimLoop of.pos.vda of.pos.pos (fs.length + 2) fs of.pos.vda true with
    | none => none
    | some r => some (r.1, ⟨of.fe, of.pos, r.2⟩, true)

/-- Release of a whole list of pages, in order. -/
def freeAll (fs : Fs) (cs : List Nat) : Fs :=
  cs.foldl (fun f v => setPage f v (freePage (f.pages v))) fs

/-- setPage at the written index. -/
theorem setPage_eq (fs : Fs) (v : Nat) (pg : Page) :
    (setPage fs v pg).pages v = pg := by
  unfold setPage
  simp

/-- setPage away from the written index. -/
theorem setPage_other (fs : Fs) (v : Nat) (pg : Page) (w : Nat) (h : w ≠ v) :
    (setPage fs v pg).pages w = fs.pages w := by
  unfold setPage
  simp [h]

/-- Segment conditions only look at the pages of the segment, the geometry
and the store size, so writing an unrelated page preserves them. -/
theorem Seg_setPage (fs : Fs) (v : Nat) (pg : Page) :
    ∀ (cs : List Nat) (i : Nat), v ∉ cs → Seg fs i cs →
      Seg (setPage fs v pg) i cs := by
  intro cs
  induction cs with
  | nil =>
    intro i _ _
    trivial
  | cons w rest ih =>
    intro i hnotin hseg
    have hwv : w ≠ v := fun he => hnotin (he ▸ List.mem_cons_self _ _)
    obtain ⟨h1, h2, h3, h4, h5, h6⟩ := hseg
    refine ⟨h1, h2, ?_, ?_, ?_,
      ih (i + 1) (fun hm => hnotin (List.mem_cons_of_mem _ hm)) h6⟩
    · rw [setPage_other fs v pg w hwv]
      exact h3
    · rw [setPage_other fs v pg w hwv]
      exact h4
    · cases rest with
      | nil =>
        rw [setPage_other fs v pg w hwv]
        exact h5
      | cons u rest2 =>
        rw [setPage_other fs v pg w hwv]
        exact h5

/-- freeAll away from the released pages. -/
theorem freeAll_notin (v : Nat) : ∀ (cs : List Nat) (fs : Fs), v ∉ cs →
    (freeAll fs cs).pages v = fs.pages v := by
  intro cs
  induction cs with
  | nil =>
    intro fs _
    rfl
  | cons w rest ih =>
    intro fs hnotin
    show (freeAll (setPage fs w (freePage (fs.pages w))) rest).pages v = _
    rw [ih _ (fun hm => hnotin (List.mem_cons_of_mem _ hm))]
    exact setPage_other _ _ _ _ (fun he => hnotin (he ▸ List.mem_cons_self _ _))

/-- freeAll on a released page. -/
theorem freeAll_in (v : Nat) : ∀ (cs : List Nat) (fs : Fs), cs.Nodup → v ∈ cs →
    (freeAll fs cs).pages v = freePage (fs.pages v) := by
  intro cs
  induction cs with
  | nil =>
    intro fs _ hmem
    cases hmem
  | cons w rest ih =>
    intro fs hnd hmem
    obtain ⟨hwrest, hndrest⟩ := List.nodup_cons.mp hnd
    show (freeAll (setPage fs w (freePage (fs.pages w))) rest).pages v = _
    by_cases hv : v = w
    · subst hv
      rw [freeAll_notin v rest _ hwrest]
      rw [setPage_eq]
    · have hvrest : v ∈ rest := by
        cases List.mem_cons.mp hmem with
        | inl h => exact absurd h hv
        | inr h => exact h
      rw [ih _ hndrest hvrest]
      rw [setPage_other fs w (freePage (fs.pages w)) v hv]

/-- With the keep flag off, the trim loop releases the remaining segment
and stops without error. -/
theorem trimLoop_free (posVda posPos : Nat) :
    ∀ (cs : List Nat) (fs : Fs) (i fuel : Nat),
      Seg fs i cs → cs.Nodup → posVda ∉ cs → cs.length + 1 ≤ fuel →
      trimLoop posVda posPos fuel fs (cs.headD 0) false =
        some (freeAll fs cs, false) := by
  intro cs
  induction cs with
  | nil =>
    intro fs i fuel _ _ _ hfuel
    obtain ⟨f, rfl⟩ : ∃ f, fuel = f + 1 := ⟨fuel - 1, by omega⟩
    rw [trimLoop]
    rw [if_pos (show ([] : List Nat).headD 0 = 0 from rfl)]
    rfl
  | cons w rest ih =>
    intro fs i fuel hseg hnd hnotin hfuel
    obtain ⟨f, rfl⟩ : ∃ f, fuel = f + 1 := ⟨fuel - 1, by omega⟩
    obtain ⟨h1, h2, h3, h4, h5, h6⟩ := hseg
    obtain ⟨hwrest, hndrest⟩ := List.nodup_cons.mp hnd
    have hwp : w ≠ posVda := fun he => hnotin (he ▸ List.mem_cons_self _ _)
    have hnotin2 : posVda ∉ rest := fun hm => hnotin (List.mem_cons_of_mem _ hm)
    rw [show ((w :: rest).headD 0) = w from rfl]
    rw [trimLoop]
    rw [if_neg h1]
    rw [if_neg (show ¬(w ≥ fs.length) by omega)]
    have hstep : trimStep fs w false posVda posPos =
        setPage fs w (freePage (fs.pages w)) := by
      unfold trimStep trimPage
      rw [if_neg hwp, if_neg (show ¬(false = true) by decide)]
    rw [hstep]
    have hk : trimKeep false w posVda posPos = false := by
      unfold trimKeep
      rw [if_neg hwp]
    cases rest with
    | nil =>
      rw [show real_to_virtual (setPage fs w (freePage (fs.pages w)))
          (fs.pages w).label.next_rda = some 0 from h5]
      show trimLoop posVda posPos f (setPage fs w (freePage (fs.pages w))) 0
          (trimKeep false w posVda posPos) = some (freeAll fs [w], false)
      rw [hk]
      obtain ⟨g, rfl⟩ : ∃ g, f = g + 1 :=
        ⟨f - 1, by simp only [List.length_cons, List.length_nil] at hfuel; omega⟩
      rw [trimLoop]
      rw [if_pos rfl]
      rfl
    | cons u rest2 =>
      obtain ⟨h5a, h5b⟩ := h5
      rw [show real_to_virtual (setPage fs w (freePage (fs.pages w)))
          (fs.pages w).label.next_rda = some u from h5a]
      show trimLoop posVda posPos f (setPage fs w (freePage (fs.pages w))) u
          (trimKeep false w posVda posPos) = some (freeAll fs (w :: u :: rest2), false)
      rw [hk]
      have hseg2 : Seg (setPage fs w (freePage (fs.pages w))) (i + 1) (u :: rest2) :=
        Seg_setPage fs w _ (u :: rest2) (i + 1) hwrest h6
      have hih := ih (setPage fs w (freePage (fs.pages w))) (i + 1) f hseg2 hndrest
        hnotin2 (by simp only [List.length_cons] at hfuel ⊢; omega)
      exact hih

/-- When the cursor fell exactly on a page boundary, the page after the
cursor page is kept but zeroed in length and unlinked, and the rest of the
chain is released. -/
theorem trimLoop_keepnext (posVda posPos : Nat) (cs : List Nat) (d : Nat)
    (fs : Fs) (i fuel : Nat)
    (hseg : Seg fs i (d :: cs)) (hnd : (d :: cs).Nodup)
    (hnotin : posVda ∉ d :: cs) (hfuel : (d :: cs).length + 1 ≤ fuel) :
    trimLoop posVda posPos fuel fs d true =
      some (freeAll (setPage fs d { fs.pages d with label :=
        { (fs.pages d).label with
            nbytes := 0
            next_rda := 0 } }) cs, false) := by
  obtain ⟨f, rfl⟩ : ∃ f, fuel = f + 1 := ⟨fuel - 1, by omega⟩
  obtain ⟨h1, h2, h3, h4, h5, h6⟩ := hseg
  obtain ⟨hdrest, hndrest⟩ := List.nodup_cons.mp hnd
  have hdp : d ≠ posVda := fun he => hnotin (he ▸ List.mem_cons_self _ _)
  have hnotin2 : posVda ∉ cs := fun hm => hnotin (List.mem_cons_of_mem _ hm)
  rw [trimLoop]
  rw [if_neg h1]
  rw [if_neg (show ¬(d ≥ fs.length) by omega)]
  have hstepk : trimStep fs d true posVda posPos =
      setPage fs d { fs.pages d with label :=
        { (fs.pages d).label with
            nbytes := 0
            next_rda := 0 } } := by
    unfold trimStep trimPage
    rw [if_neg hdp, if_pos rfl]
  have hkeepk : trimKeep true d posVda posPos = false := by
    unfold trimKeep
    rw [if_neg hdp]
  rw [hstepk, hkeepk]
  have hrtv : real_to_virtual fs (fs.pages d).label.next_rda = some (cs.headD 0) := by
    cases cs with
    | nil => exact h5
    | cons u r2 => exact h5.1
  rw [show real_to_virtual (setPage fs d { fs.pages d with label :=
      { (fs.pages d).label with
          nbytes := 0
          next_rda := 0 } }) (fs.pages d).label.next_rda =
      some (cs.headD 0) from hrtv]
  show trimLoop posVda posPos f (setPage fs d { fs.pages d with label :=
      { (fs.pages d).label with
          nbytes := 0
          next_rda := 0 } }) (cs.headD 0) false = _
  exact trimLoop_free posVda posPos cs _ (i + 1) f
    (Seg_setPage fs d _ cs (i + 1) hdrest h6) hndrest hnotin2
    (by simp only [List.length_cons] at hfuel; omega)

/-- Releasing pages does not change the page-store size. -/
theorem freeAll_length : ∀ (cs : List Nat) (fs : Fs),
    (freeAll fs cs).length = fs.length
  | [], _ => rfl
  | v :: cs, fs => freeAll_length cs (setPage fs v (freePage (fs.pages v)))

/-- Releasing pages does not change the geometry. -/
theorem freeAll_dg : ∀ (cs : List Nat) (fs : Fs), (freeAll fs cs).dg = fs.dg
  | [], _ => rfl
  | v :: cs, fs => freeAll_dg cs (setPage fs v (freePage (fs.pages v)))

/-- Working form of the fs_trim characterization on a well-formed chain
suffix, also recording that the store size and geometry are unchanged. -/
theorem fs_trim_wf_aux (fs : Fs) (fe : FileEntry) (i c q pgn : Nat) (post : List Nat)
    (hseg : Seg fs i (c :: post))
    (hnd : (c :: post).Nodup)
    (hsz : post.length + 1 ≤ fs.length) :
    ∃ fs', fs_trim fs ⟨fe, ⟨c, pgn, q⟩, false⟩ =
        some (fs', ⟨fe, ⟨c, pgn, q⟩, false⟩, true) ∧
      (∀ v, v ∉ c :: post → fs'.pages v = fs.pages v) ∧
      (q ≠ 512 →
        fs'.pages c = { fs.pages c with label :=
          { (fs.pages c).label with
              nbytes := q
              next_rda := 0 } } ∧
        ∀ v ∈ post, fs'.pages v = freePage (fs.pages v)) ∧
      (q = 512 →
        fs'.pages c = { fs.pages c with label :=
          { (fs.pages c).label with nbytes := q } } ∧
        ∀ (d : Nat) (post2 : List Nat), post = d :: post2 →
          fs'.pages d = { fs.pages d with label :=
            { (fs.pages d).label with
                nbytes := 0
                next_rda := 0 } } ∧
          ∀ v ∈ post2, fs'.pages v = freePage (fs.pages v)) ∧
      fs'.length = fs.length ∧ fs'.dg = fs.dg := by
  obtain ⟨h1, h2, h3, h4, h5, h6⟩ := hseg
  obtain ⟨hcpost, hndpost⟩ := List.nodup_cons.mp hnd
  by_cases hq : q = 512
  · have hstep2 : trimStep fs c true c q =
        setPage fs c { fs.pages c with label :=
          { (fs.pages c).label with nbytes := q } } := by
      unfold trimStep trimPage
      rw [if_pos rfl, if_neg (show ¬(q ≠ 512) from fun hn => hn hq)]
      rfl
    have hkeep2 : trimKeep true c c q = true := by
      unfold trimKeep
      rw [if_pos rfl, if_neg (show ¬(q ≠ 512) from fun hn => hn hq)]
    cases post with
    | nil =>
      refine ⟨setPage fs c { fs.pages c with label :=
        { (fs.pages c).label with nbytes := q } }, ?_, ?_, ?_, ?_, rfl, rfl⟩
      · have hloop2 : trimLoop c q ((fs.length + 1) + 1) fs c true =
            some (setPage fs c { fs.pages c with label :=
              { (fs.pages c).label with nbytes := q } }, false) := by
          rw [trimLoop]
          rw [if_neg h1, if_neg (show ¬(c ≥ fs.length) by omega)]
          rw [hstep2, hkeep2]
          rw [show real_to_virtual (setPage fs c { fs.pages c with label :=
              { (fs.pages c).label with nbytes := q } })
              (fs.pages c).label.next_rda = some 0 from h5]
          show trimLoop c q (fs.length + 1) (setPage fs c { fs.pages c with label :=
              { (fs.pages c).label with nbytes := q } }) 0 true = _
          obtain ⟨g, hg⟩ : ∃ g, fs.length + 1 = g + 1 := ⟨fs.length, rfl⟩
          rw [hg, trimLoop, if_pos rfl]
        unfold fs_trim
        rw [if_neg (show ¬(false = true) by decide)]
        dsimp only
        rw [show fs.length + 2 = (fs.length + 1) + 1 from rfl]
        rw [hloop2]
      · intro v hv
        exact setPage_other _ _ _ _ (fun he => hv (he ▸ List.mem_cons_self _ _))
      · intro hq2
        exact absurd hq hq2
      · intro _
        refine ⟨setPage_eq _ _ _, ?_⟩
        intro d post2 hpost
        exact absurd hpost (by simp)
    | cons d post2 =>
      have hcd : c ≠ d := fun he => hcpost (he ▸ List.mem_cons_self _ _)
      have hcpost2 : c ∉ post2 := fun hm => hcpost (List.mem_cons_of_mem _ hm)
      obtain ⟨hdpost2, hndpost2⟩ := List.nodup_cons.mp hndpost
      have h5a : real_to_virtual fs (fs.pages c).label.next_rda = some d := h5.1
      have hseg1 : Seg (setPage fs c { fs.pages c with label :=
          { (fs.pages c).label with nbytes := q } }) (i + 1) (d :: post2) :=
        Seg_setPage fs c _ (d :: post2) (i + 1) hcpost h6
      have hkn := trimLoop_keepnext c q post2 d
        (setPage fs c { fs.pages c with label :=
          { (fs.pages c).label with nbytes := q } }) (i + 1) (fs.length + 1)
        hseg1 hndpost hcpost (by omega)
      have hpd : (setPage fs c { fs.pages c with label :=
          { (fs.pages c).label with nbytes := q } }).pages d = fs.pages d :=
        setPage_other _ _ _ _ (fun he => hcd he.symm)
      rw [hpd] at hkn
      refine ⟨freeAll (setPage (setPage fs c { fs.pages c with label :=
        { (fs.pages c).label with nbytes := q } }) d
        { fs.pages d with label :=
          { (fs.pages d).label with
              nbytes := 0
              next_rda := 0 } }) post2, ?_, ?_, ?_, ?_,
        freeAll_length post2 _, freeAll_dg post2 _⟩
      · have hloop2 : trimLoop c q ((fs.length + 1) + 1) fs c true =
            some (freeAll (setPage (setPage fs c { fs.pages c with label :=
              { (fs.pages c).label with nbytes := q } }) d
              { fs.pages d with label :=
                { (fs.pages d).label with
                    nbytes := 0
                    next_rda := 0 } }) post2, false) := by
          rw [trimLoop]
          rw [if_neg h1, if_neg (show ¬(c ≥ fs.length) by omega)]
          rw [hstep2, hkeep2]
          rw [show real_to_virtual (setPage fs c { fs.pages c with label :=
              { (fs.pages c).label with nbytes := q } })
              (fs.pages c).label.next_rda = some d from h5a]
          show trimLoop c q (fs.length + 1) (setPage fs c { fs.pages c with label :=
              { (fs.pages c).label with nbytes := q } }) d true = _
          exact hkn
        unfold fs_trim
        rw [if_neg (show ¬(false = true) by decide)]
        dsimp only
        rw [show fs.length + 2 = (fs.length + 1) + 1 from rfl]
        rw [hloop2]
      · intro v hv
        have hvc : v ≠ c := fun he => hv (he ▸ List.mem_cons_self _ _)
        have hvd : v ≠ d := fun he =>
          hv (he ▸ List.mem_cons_of_mem _ (List.mem_cons_self _ _))
        have hvpost2 : v ∉ post2 := fun hm =>
          hv (List.mem_cons_of_mem _ (List.mem_cons_of_mem _ hm))
        rw [freeAll_notin v post2 _ hvpost2]
        rw [setPage_other _ _ _ _ hvd]
        exact setPage_other _ _ _ _ hvc
      · intro hq2
        exact absurd hq hq2
      · intro _
        constructor
        · rw [freeAll_notin c post2 _ hcpost2]
          rw [setPage_other _ _ _ _ hcd]
          exact setPage_eq _ _ _
        · intro d' post2' hpost
          injection hpost with hd1 hd2
          subst hd1
          subst hd2
          constructor
          · rw [freeAll_notin d post2 _ hdpost2]
            exact setPage_eq _ _ _
          · intro v hv
            have hvd : v ≠ d := fun he => hdpost2 (he ▸ hv)
            have hvc : v ≠ c := fun he => hcpost2 (he ▸ hv)
            rw [freeAll_in v post2 _ hndpost2 hv]
            rw [setPage_other _ _ _ _ hvd]
            rw [setPage_other _ _ _ _ hvc]
  · have hstep1 : trimStep fs c true c q =
        setPage fs c { fs.pages c with label :=
          { (fs.pages c).label with
              nbytes := q
              next_rda := 0 } } := by
      unfold trimStep trimPage
      rw [if_pos rfl, if_pos hq]
      rfl
    have hkeep1 : trimKeep true c c q = false := by
      unfold trimKeep
      rw [if_pos rfl, if_pos hq]
    have hrtv : real_to_virtual fs (fs.pages c).label.next_rda =
        some (post.headD 0) := by
      cases post with
      | nil => exact h5
      | cons u r2 => exact h5.1
    have hfree := trimLoop_free c q post
      (setPage fs c { fs.pages c with label :=
        { (fs.pages c).label with
            nbytes := q
            next_rda := 0 } }) (i + 1) (fs.length + 1)
      (Seg_setPage fs c _ post (i + 1) hcpost h6) hndpost hcpost (by omega)
    refine ⟨freeAll (setPage fs c { fs.pages c with label :=
      { (fs.pages c).label with
          nbytes := q
          next_rda := 0 } }) post, ?_, ?_, ?_, ?_,
      freeAll_length post _, freeAll_dg post _⟩
    · have hloop2 : trimLoop c q ((fs.length + 1) + 1) fs c true =
          some (freeAll (setPage fs c { fs.pages c with label :=
            { (fs.pages c).label with
                nbytes := q
                next_rda := 0 } }) post, false) := by
        rw [trimLoop]
        rw [if_neg h1, if_neg (show ¬(c ≥ fs.length) by omega)]
        rw [hstep1, hkeep1]
        rw [show real_to_virtual (setPage fs c { fs.pages c with label :=
            { (fs.pages c).label with
                nbytes := q
                next_rda := 0 } })
            (fs.pages c).label.next_rda = some (post.headD 0) from hrtv]
        show trimLoop c q (fs.length + 1) (setPage fs c { fs.pages c with label :=
            { (fs.pages c).label with
                nbytes := q
                next_rda := 0 } }) (post.headD 0) false = _
        exact hfree
      unfold fs_trim
      rw [if_neg (show ¬(false = true) by decide)]
      dsimp only
      rw [show fs.length + 2 = (fs.length + 1) + 1 from rfl]
      rw [hloop2]
    · intro v hv
      have hvc : v ≠ c := fun he => hv (he ▸ List.mem_cons_self _ _)
      have hvpost : v ∉ post := fun hm => hv (List.mem_cons_of_mem _ hm)
      rw [freeAll_notin v post _ hvpost]
      exact setPage_other _ _ _ _ hvc
    · intro _
      constructor
      · rw [freeAll_notin c post _ hcpost]
        exact setPage_eq _ _ _
      · intro v hv
        have hvc : v ≠ c := fun he => hcpost (he ▸ hv)
        rw [freeAll_in v post _ hndpost hv]
        rw [setPage_other _ _ _ _ hvc]
    · intro hq2
      exact absurd hq2 hq

/-- C7 (amended): on a well-formed chain suffix starting at the cursor
page, fs_trim sets the cursor page's nbytes to the cursor position.  When
that value is not 512 the cursor page's next_rda is cleared and every
subsequent page is released through freePage, which sets the free version
sentinel and clears both link words but retains nbytes, file_pgnum and the
serial number rather than zeroing the whole label.  When the cursor lands
exactly on a page boundary the immediately following page is kept with
nbytes set to 0 and next_rda cleared, and the release starts after it.
Pages outside the suffix are untouched and the call reports success. -/
theorem fs_trim_wf (fs : Fs) (fe : FileEntry) (i c q pgn : Nat) (post : List Nat)
    (hseg : Seg fs i (c :: post))
    (hnd : (c :: post).Nodup)
    (hsz : post.length + 1 ≤ fs.length) :
    ∃ fs', fs_trim fs ⟨fe, ⟨c, pgn, q⟩, false⟩ =
        some (fs', ⟨fe, ⟨c, pgn, q⟩, false⟩, true) ∧
      (∀ v, v ∉ c :: post → fs'.pages v = fs.pages v) ∧
      (q ≠ 512 →
        fs'.pages c = { fs.pages c with label :=
          { (fs.pages c).label with
              nbytes := q
              next_rda := 0 } } ∧
        ∀ v ∈ post, fs'.pages v = freePage (fs.pages v)) ∧
      (q = 512 →
        fs'.pages c = { fs.pages c with label :=
          { (fs.pages c).label with nbytes := q } } ∧
        ∀ (d : Nat) (post2 : List Nat), post = d :: post2 →
          fs'.pages d = { fs.pages d with label :=
            { (fs.pages d).label with
                nbytes := 0
                next_rda := 0 } } ∧
          ∀ v ∈ post2, fs'.pages v = freePage (fs.pages v)) := by
  obtain ⟨fs', e1, e2, e3, e4, -, -⟩ :=
    fs_trim_wf_aux fs fe i c q pgn post hseg hnd hsz
  exact ⟨fs', e1, e2, e3, e4⟩

/-- Concrete two-page chain for trimming: cursor page at VDA 1 (512 bytes,
linked to VDA 2), data page at VDA 2 holding 77 bytes. -/
def c7Fs : Fs :=
  ⟨⟨1, 1, 4⟩, 4, fun v =>
    if v = 1 then ⟨1, 0, 4096, ⟨8192, 0, 0, 512, 1, 1, ⟨0, 9⟩⟩, fun _ => 0⟩
    else if v = 2 then ⟨2, 0, 8192, ⟨0, 4096, 0, 77, 2, 1, ⟨0, 9⟩⟩, fun _ => 0⟩
    else zeroPage⟩

/-- Counterexample to C7 as stated: trimming at position 10 of page 1
releases page 2 (its version becomes the free sentinel), but the released
label is not zeroed: nbytes keeps the value 77. -/
theorem fs_trim_label_counterexample :
    (fs_trim c7Fs ⟨⟨⟨0, 9⟩, 1, 0, 1⟩, ⟨1, 1, 10⟩, false⟩).map
        (fun r => ((r.1.pages 2).label.version, (r.1.pages 2).label.nbytes,
          (r.1.pages 2).label.file_pgnum, (r.1.pages 2).label.sn.word2)) =
      some (VERSION_FREE, 77, 2, 9) ∧ (77 : Nat) ≠ 0 := by
  decide

/-- Witness for fs_trim_wf: the two-page c7Fs chain trimmed at position 10
of its first page. -/
theorem fs_trim_wf_witness :
    ∃ fs', fs_trim c7Fs ⟨⟨⟨0, 9⟩, 1, 0, 1⟩, ⟨1, 1, 10⟩, false⟩ =
        some (fs', ⟨⟨⟨0, 9⟩, 1, 0, 1⟩, ⟨1, 1, 10⟩, false⟩, true) ∧
      (∀ v, v ∉ [1, 2] → fs'.pages v = c7Fs.pages v) ∧
      ((10 : Nat) ≠ 512 →
        fs'.pages 1 = { c7Fs.pages 1 with label :=
          { (c7Fs.pages 1).label with
              nbytes := 10
              next_rda := 0 } } ∧
        ∀ v ∈ [2], fs'.pages v = freePage (c7Fs.pages v)) ∧
      ((10 : Nat) = 512 →
        fs'.pages 1 = { c7Fs.pages 1 with label :=
          { (c7Fs.pages 1).label with nbytes := 10 } } ∧
        ∀ (d : Nat) (post2 : List Nat), [2] = d :: post2 →
          fs'.pages d = { c7Fs.pages d with label :=
            { (c7Fs.pages d).label with
                nbytes := 0
                next_rda := 0 } } ∧
          ∀ v ∈ post2, fs'.pages v = freePage (c7Fs.pages v)) :=
  fs_trim_wf c7Fs ⟨⟨0, 9⟩, 1, 0, 1⟩ 1 1 10 1 [2]
    (by decide) (by decide) (by decide)

/-- Free pages of the store in VDA order: the candidates of
find_free_page's scan. -/
def freeVdas (fs : Fs) : List Nat :=
  (List.range fs.length).filter
    (fun v => (fs.pages v).label.version == VERSION_FREE)

/-- find_free_page of fs.c: the first VDA below length whose label carries
the free version sentinel. -/
def find_free_page (fs : Fs) : Option Nat :=
  (freeVdas fs).head?

/-- Intermediate state of the fs_write loop: the evolving page store, the
open file, the bytes transferred so far, and the remaining length. -/
structure WState where
  fs : Fs
  of : OpenFile
  pos : Nat
  len : Nat

/-- First allocation write of fs_write: the new page's prev_rda becomes the
old tail's RDA. -/
def allocFs1 (fs : Fs) (w pr : Nat) : Fs :=
  setPage fs w { fs.pages w with label :=
    { (fs.pages w).label with prev_rda := pr } }

/-- Second allocation write of fs_write: the old tail's next_rda becomes
the new page's RDA. -/
def allocFs2 (fs : Fs) (vda nr : Nat) : Fs :=
  setPage fs vda { fs.pages vda with label :=
    { (fs.pages vda).label with next_rda := nr } }

/-- Remaining allocation writes of fs_write: the new page ends the chain,
holds the uint16-truncated remaining length capped at 512, continues the
tail's page numbering, and inherits its version and serial number. -/
def allocFs3 (fs : Fs) (w vda len : Nat) : Fs :=
  setPage fs w { fs.pages w with label :=
    { (fs.pages w).label with
        next_rda := 0
        nbytes := min (len % 65536) 512
        file_pgnum := ((fs.pages vda).label.file_pgnum + 1) % 65536
        version := (fs.pages vda).label.version
        sn := (fs.pages vda).label.sn } }

/-- The allocation writes of fs_write in source order. -/
def allocFs (fs : Fs) (vda w len pr nr : Nat) : Fs :=
  allocFs3 (allocFs2 (allocFs1 fs w pr) vda nr) w vda len

/-- One iteration of the fs_write while loop of fs.c.  The extension branch
only grows the cursor page's nbytes (a following copy iteration transfers
the data); the allocation branch performs the allocFs label writes. -/
def writeStep (s : List Nat) (extend : Bool) (st : WState) : Step WState :=
  if st.len = 0 then .done st
  else if st.of.pos.vda = 0 then .done st
  else if st.of.pos.vda ≥ st.fs.length then
    .done { st with of := { st.of with error := true } }
  else if (st.fs.pages st.of.pos.vda).label.file_pgnum ≠ st.of.pos.pgnum then
    .done { st with of := { st.of with error := true } }
  else if st.of.pos.pos > (st.fs.pages st.of.pos.vda).label.nbytes then
    .done { st with of := { st.of with error := true } }
  else if st.of.pos.pos < (st.fs.pages st.of.pos.vda).label.nbytes then
    .next { st with
      fs := setPage st.fs st.of.pos.vda
        { st.fs.pages st.of.pos.vda with data := (writeBytes
            (st.fs.pages st.of.pos.vda).data st.of.pos.pos
            ((s.drop st.pos).take
              (min ((st.fs.pages st.of.pos.vda).label.nbytes - st.of.pos.pos)
                st.len))) }
      of := { st.of with pos := { st.of.pos with
        pos := st.of.pos.pos +
          min ((st.fs.pages st.of.pos.vda).label.nbytes - st.of.pos.pos) st.len } }
      pos := st.pos +
        min ((st.fs.pages st.of.pos.vda).label.nbytes - st.of.pos.pos) st.len
      len := st.len -
        min ((st.fs.pages st.of.pos.vda).label.nbytes - st.of.pos.pos) st.len }
  else
    match real_to_virtual st.fs (st.fs.pages st.of.pos.vda).label.next_rda with
    | none => .done { st with of := { st.of with error := true } }
    | some v2 =>
      if v2 ≠ 0 then
        .next { st with of := { st.of with
          pos := ⟨v2, (st.of.pos.pgnum + 1) % 65536, 0⟩ } }
      else if extend = false then
        .done { st with of := { st.of with
          pos := ⟨0, st.of.pos.pgnum, st.of.pos.pos⟩ } }
      else if (st.fs.pages st.of.pos.vda).label.nbytes < 512 then
        .next { st with fs := (setPage st.fs st.of.pos.vda
          { st.fs.pages st.of.pos.vda with label :=
            { (st.fs.pages st.of.pos.vda).label with
                nbytes := (st.fs.pages st.of.pos.vda).label.nbytes +
                  min (512 - (st.fs.pages st.of.pos.vda).label.nbytes) st.len } }) }
      else
        match find_free_page st.fs with
        | none => .done { st with of := { st.of with error := true } }
        | some w =>
          match virtual_to_real st.fs (st.fs.pages st.of.pos.vda).page_vda with
          | none => .done { st with of := { st.of with error := true } }
          | some pr =>
            match virtual_to_real st.fs (st.fs.pages w).page_vda with
            | none => .done { st with
                fs := allocFs1 st.fs w pr
                of := { st.of with error := true } }
            | some nr =>
              .next { st with fs := allocFs st.fs st.of.pos.vda w st.len pr nr }

/-- Fuel-indexed run of the fs_write loop. -/
def writeLoop (s : List Nat) (extend : Bool) : Nat → WState → Option WState
  | 0, _ => none
  | fuel + 1, st =>
    match writeStep s extend st with
    | .done st2 => some st2
    | .next st2 => writeLoop s extend fuel st2

/-- Fuel that always suffices for the fs_write loop on the states the
theorems below consider: a few iterations per written byte, chain page and
free page, plus slack. -/
def writeFuel (fs : Fs) (len : Nat) : Nat :=
  2 * len + 8 * fs.length + 8

/-- fs_write of fs.c: returns the page store, the updated open file and the
number of bytes transferred (the C return value). -/
def fs_write (fs : Fs) (of : OpenFile) (s : List Nat) (extend : Bool) :
    Option (Fs × OpenFile × Nat) :=
  if of.error then some (fs, of, 0)
  else
    match writeLoop s extend (writeFuel fs s.length) ⟨fs, of, 0, s.length⟩ with
    | none => none
    | some st => some (st.fs, st.of, st.pos)

/-- Forward-link part of check_integrity_stage1. -/
def nextCheck (fs : Fs) (vda rda : Nat) : Bool :=
  if (fs.pages vda).label.next_rda = 0 then true
  else if (fs.pages vda).label.nbytes < PAGE_DATA_SIZE then false
  else
    match real_to_virtual fs (fs.pages vda).label.next_rda with
    | none => false
    | some ov =>
      if (fs.pages ov).label.file_pgnum ≠ (fs.pages vda).label.file_pgnum + 1 then
        false
      else if (fs.pages ov).label.sn.word1 ≠ (fs.pages vda).label.sn.word1 ∨
          (fs.pages ov).label.sn.word2 ≠ (fs.pages vda).label.sn.word2 then
        false
      else if (fs.pages ov).label.prev_rda ≠ rda ∧ vda ≠ 0 then false
      else true

/-- Per-page test of check_integrity_stage1 of fs.c: header words, version
sentinels, nbytes bound, backward and forward link consistency (with the
boot-sector exemption at VDA 0), and the leader checks when prev_rda is 0.
Free pages pass after the header test alone. -/
def pageCheck (fs : Fs) (vda : Nat) : Bool :=
  match virtual_to_real fs vda with
  | none => false
  | some rda =>
    if (fs.pages vda).header1 ≠ rda ∨ (fs.pages vda).header0 ≠ 0 then false
    else if (fs.pages vda).label.version = VERSION_FREE then true
    else if (fs.pages vda).label.version = VERSION_BAD then
      decide ((fs.pages vda).label.sn.word1 = VERSION_BAD ∧
        (fs.pages vda).label.sn.word2 = VERSION_BAD)
    else if (fs.pages vda).label.version = 0 then false
    else if (fs.pages vda).label.nbytes > PAGE_DATA_SIZE then false
    else if (fs.pages vda).label.prev_rda ≠ 0 then
      match real_to_virtual fs (fs.pages vda).label.prev_rda with
      | none => false
      | some ov =>
        if (fs.pages ov).label.file_pgnum + 1 ≠ (fs.pages vda).label.file_pgnum then
          false
        else if (fs.pages ov).label.sn.word1 ≠ (fs.pages vda).label.sn.word1 ∨
            (fs.pages ov).label.sn.word2 ≠ (fs.pages vda).label.sn.word2 then
          false
        else if (fs.pages ov).label.next_rda ≠ rda ∧ vda ≠ 0 then false
        else nextCheck fs vda rda
    else
      if (fs.pages vda).label.nbytes < PAGE_DATA_SIZE then false
      else if (fs.pages vda).label.file_pgnum ≠ 0 then false
      else if (fs.pages vda).data 12 = 0 ∨ (fs.pages vda).data 12 ≥ FILENAME_LENGTH then
        false
      else nextCheck fs vda rda

/-- check_integrity_stage1 of fs.c: every page passes its per-page test
(reporting does not alter the result, and an address-translation failure
makes the whole check fail, as does the page it occurred on). -/
def check_integrity_stage1 (fs : Fs) : Bool :=
  (List.range fs.length).all (fun vda => pageCheck fs vda)

/-- Filename data of a leader page: length byte 1, then the letter A. -/
def leaderName : Nat → Nat :=
  fun i => if i = 12 then 1 else if i = 13 then 65 else 0

/-- Filesystem satisfying all stage-1 integrity checks in which the free
page 3 still carries stale label fields consistent with the in-use leader
at page 4 that links to it.  File A is leader 1 with full data page 2. -/
def c4Fs : Fs :=
  ⟨⟨1, 1, 5⟩, 5, fun v =>
    if v = 0 then ⟨0, 0, 0, ⟨0, 0, 0, 512, 0, 1, ⟨0, 2⟩⟩, leaderName⟩
    else if v = 1 then ⟨1, 0, 4096, ⟨8192, 0, 0, 512, 0, 1, ⟨0, 1⟩⟩, leaderName⟩
    else if v = 2 then ⟨2, 0, 8192, ⟨0, 4096, 0, 512, 1, 1, ⟨0, 1⟩⟩, fun _ => 0⟩
    else if v = 3 then
      ⟨3, 0, 12288, ⟨0, 16384, 0, 512, 1, 65535, ⟨0, 9⟩⟩, fun _ => 0⟩
    else if v = 4 then
      ⟨4, 0, 16384, ⟨12288, 0, 0, 512, 0, 1, ⟨0, 9⟩⟩, leaderName⟩
    else zeroPage⟩

set_option maxRecDepth 8000 in
/-- Counterexample to C4 as stated: c4Fs passes check_integrity_stage1, yet
writing 513 bytes to file A (which allocates the free page 3 into A's
chain) leaves a state that fails the check: the leader at page 4 still
links to page 3, whose labels now belong to A. -/
theorem write_invariant_counterexample :
    check_integrity_stage1 c4Fs = true ∧
    (fs_write c4Fs (fs_open c4Fs ⟨⟨0, 1⟩, 1, 0, 1⟩ false)
        (List.replicate 513 7) true).map
      (fun r => (check_integrity_stage1 r.1, r.2.2)) = some (false, 513) := by
  decide

/-- C4 (amended): the allocation step of fs_write maintains the local chain
invariants it is responsible for — at a full end-of-chain page with a free
page available, one loop iteration links the new page in both directions
(its prev_rda is the old tail's RDA and the old tail's next_rda is the new
page's RDA), ends the chain at the new page, gives it the remaining length
capped at 512, the successor page number, and the tail's version and serial
number, touching no other page; preservation of the global I1-I6 state
additionally requires that no in-use page link to a free page, which I1-I6
alone do not guarantee. -/
theorem write_alloc_links (fs : Fs) (fe : FileEntry) (v pgn w : Nat)
    (s : List Nat) (p len : Nat)
    (hlen : len ≠ 0) (hlen16 : len ≤ 65535)
    (hv0 : v ≠ 0) (hvlen : v < fs.length)
    (hfp : (fs.pages v).label.file_pgnum = pgn)
    (hfull : (fs.pages v).label.nbytes = 512)
    (hnext : real_to_virtual fs (fs.pages v).label.next_rda = some 0)
    (hfind : find_free_page fs = some w)
    (hwv : w ≠ v) (hwlen : w < fs.length)
    (hpv : (fs.pages v).page_vda = v)
    (hpw : (fs.pages w).page_vda = w)
    (hfpb : (fs.pages v).label.file_pgnum + 1 < 65536) :
    ∃ rv rw : Nat,
      virtual_to_real fs v = some rv ∧ virtual_to_real fs w = some rw ∧
      writeStep s true ⟨fs, ⟨fe, ⟨v, pgn, 512⟩, false⟩, p, len⟩ =
        .next ⟨allocFs fs v w len rv rw, ⟨fe, ⟨v, pgn, 512⟩, false⟩, p, len⟩ ∧
      ((allocFs fs v w len rv rw).pages w).label.prev_rda = rv ∧
      ((allocFs fs v w len rv rw).pages v).label.next_rda = rw ∧
      ((allocFs fs v w len rv rw).pages w).label.next_rda = 0 ∧
      ((allocFs fs v w len rv rw).pages w).label.nbytes = min len 512 ∧
      ((allocFs fs v w len rv rw).pages w).label.file_pgnum =
        (fs.pages v).label.file_pgnum + 1 ∧
      ((allocFs fs v w len rv rw).pages w).label.version =
        (fs.pages v).label.version ∧
      ((allocFs fs v w len rv rw).pages w).label.sn = (fs.pages v).label.sn ∧
      ((allocFs fs v w len rv rw).pages v).label.prev_rda =
        (fs.pages v).label.prev_rda ∧
      (∀ u, u ≠ v → u ≠ w → (allocFs fs v w len rv rw).pages u = fs.pages u) := by
  obtain ⟨rv, hrv⟩ : ∃ rv, virtual_to_real fs v = some rv := by
    unfold virtual_to_real
    rw [if_neg (by omega)]
    exact ⟨_, rfl⟩
  obtain ⟨rw', hrw⟩ : ∃ rw', virtual_to_real fs w = some rw' := by
    unfold virtual_to_real
    rw [if_neg (by omega)]
    exact ⟨_, rfl⟩
  refine ⟨rv, rw', hrv, hrw, ?_, ?_, ?_, ?_, ?_, ?_, ?_, ?_, ?_, ?_⟩
  · unfold writeStep
    dsimp only
    rw [if_neg hlen]
    rw [if_neg hv0]
    rw [if_neg (show ¬(v ≥ fs.length) by omega)]
    rw [if_neg (show ¬((fs.pages v).label.file_pgnum ≠ pgn) from
      fun hne => hne hfp)]
    rw [if_neg (show ¬((512 : Nat) > (fs.pages v).label.nbytes) by omega)]
    rw [if_neg (show ¬((512 : Nat) < (fs.pages v).label.nbytes) by omega)]
    rw [hnext]
    dsimp only
    rw [if_neg (show ¬((0 : Nat) ≠ 0) by omega)]
    rw [if_neg (show ¬((true : Bool) = false) by decide)]
    rw [if_neg (show ¬((fs.pages v).label.nbytes < 512) by omega)]
    rw [hfind]
    dsimp only
    rw [hpv, hrv]
    dsimp only
    rw [hpw, hrw]
  · show ((allocFs3 (allocFs2 (allocFs1 fs w rv) v rw') w v len).pages w).label.prev_rda = rv
    rw [show (allocFs3 (allocFs2 (allocFs1 fs w rv) v rw') w v len).pages w =
      _ from setPage_eq _ _ _]
    show ((allocFs2 (allocFs1 fs w rv) v rw').pages w).label.prev_rda = rv
    rw [show (allocFs2 (allocFs1 fs w rv) v rw').pages w = _ from
      setPage_other _ _ _ _ hwv]
    rw [show (allocFs1 fs w rv).pages w = _ from setPage_eq _ _ _]
  · show ((allocFs3 (allocFs2 (allocFs1 fs w rv) v rw') w v len).pages v).label.next_rda = rw'
    rw [show (allocFs3 (allocFs2 (allocFs1 fs w rv) v rw') w v len).pages v =
      _ from setPage_other _ _ _ _ (fun he => hwv he.symm)]
    rw [show (allocFs2 (allocFs1 fs w rv) v rw').pages v = _ from setPage_eq _ _ _]
  · rw [show (allocFs fs v w len rv rw').pages w = _ from setPage_eq _ _ _]
  · rw [show (allocFs fs v w len rv rw').pages w = _ from setPage_eq _ _ _]
    show min (len % 65536) 512 = min len 512
    rw [Nat.mod_eq_of_lt (by omega)]
  · rw [show (allocFs fs v w len rv rw').pages w = _ from setPage_eq _ _ _]
    show (((allocFs2 (allocFs1 fs w rv) v rw').pages v).label.file_pgnum + 1) % 65536 =
      (fs.pages v).label.file_pgnum + 1
    rw [show (allocFs2 (allocFs1 fs w rv) v rw').pages v = _ from setPage_eq _ _ _]
    show (((allocFs1 fs w rv).pages v).label.file_pgnum + 1) % 65536 = _
    rw [show (allocFs1 fs w rv).pages v = _ from
      setPage_other _ _ _ _ (fun he => hwv he.symm)]
    exact Nat.mod_eq_of_lt (by omega)
  · rw [show (allocFs fs v w len rv rw').pages w = _ from setPage_eq _ _ _]
    show ((allocFs2 (allocFs1 fs w rv) v rw').pages v).label.version = _
    rw [show (allocFs2 (allocFs1 fs w rv) v rw').pages v = _ from setPage_eq _ _ _]
    show ((allocFs1 fs w rv).pages v).label.version = _
    rw [show (allocFs1 fs w rv).pages v = _ from
      setPage_other _ _ _ _ (fun he => hwv he.symm)]
  · rw [show (allocFs fs v w len rv rw').pages w = _ from setPage_eq _ _ _]
    show ((allocFs2 (allocFs1 fs w rv) v rw').pages v).label.sn = _
    rw [show (allocFs2 (allocFs1 fs w rv) v rw').pages v = _ from setPage_eq _ _ _]
    show ((allocFs1 fs w rv).pages v).label.sn = _
    rw [show (allocFs1 fs w rv).pages v = _ from
      setPage_other _ _ _ _ (fun he => hwv he.symm)]
  · rw [show (allocFs fs v w len rv rw').pages v = _ from
      setPage_other _ _ _ _ (fun he => hwv he.symm)]
    rw [show (allocFs2 (allocFs1 fs w rv) v rw').pages v = _ from setPage_eq _ _ _]
    show ((allocFs1 fs w rv).pages v).label.prev_rda = _
    rw [show (allocFs1 fs w rv).pages v = _ from
      setPage_other _ _ _ _ (fun he => hwv he.symm)]
  · intro u huv huw
    rw [show (allocFs fs v w len rv rw').pages u = _ from
      setPage_other _ _ _ _ huw]
    rw [show (allocFs2 (allocFs1 fs w rv) v rw').pages u = _ from
      setPage_other _ _ _ _ huv]
    exact setPage_other _ _ _ _ huw

/-- Witness for write_alloc_links: allocating the free page 3 of c4Fs at
the full tail page 2 of file A. -/
theorem write_alloc_links_witness :
    ∃ rv rw : Nat,
      virtual_to_real c4Fs 2 = some rv ∧ virtual_to_real c4Fs 3 = some rw ∧
      writeStep [] true ⟨c4Fs, ⟨⟨⟨0, 1⟩, 1, 0, 1⟩, ⟨2, 1, 512⟩, false⟩, 0, 1⟩ =
        .next ⟨allocFs c4Fs 2 3 1 rv rw, ⟨⟨⟨0, 1⟩, 1, 0, 1⟩, ⟨2, 1, 512⟩, false⟩, 0, 1⟩ ∧
      ((allocFs c4Fs 2 3 1 rv rw).pages 3).label.prev_rda = rv ∧
      ((allocFs c4Fs 2 3 1 rv rw).pages 2).label.next_rda = rw ∧
      ((allocFs c4Fs 2 3 1 rv rw).pages 3).label.next_rda = 0 ∧
      ((allocFs c4Fs 2 3 1 rv rw).pages 3).label.nbytes = min 1 512 ∧
      ((allocFs c4Fs 2 3 1 rv rw).pages 3).label.file_pgnum =
        (c4Fs.pages 2).label.file_pgnum + 1 ∧
      ((allocFs c4Fs 2 3 1 rv rw).pages 3).label.version =
        (c4Fs.pages 2).label.version ∧
      ((allocFs c4Fs 2 3 1 rv rw).pages 3).label.sn = (c4Fs.pages 2).label.sn ∧
      ((allocFs c4Fs 2 3 1 rv rw).pages 2).label.prev_rda =
        (c4Fs.pages 2).label.prev_rda ∧
      (∀ u, u ≠ 2 → u ≠ 3 → (allocFs c4Fs 2 3 1 rv rw).pages u = c4Fs.pages u) :=
  write_alloc_links c4Fs ⟨⟨0, 1⟩, 1, 0, 1⟩ 2 1 3 [] 0 1
    (by decide) (by decide) (by decide) (by decide) (by decide) (by decide)
    (by decide) (by decide) (by decide) (by decide) (by decide) (by decide)
    (by decide)

/-- Segment pages are nonzero and within the store. -/
theorem Seg_mem (fs : Fs) : ∀ (cs : List Nat) (i : Nat), Seg fs i cs →
    ∀ u ∈ cs, u ≠ 0 ∧ u < fs.length := by
  intro cs
  induction cs with
  | nil =>
    intro i _ u hu
    cases hu
  | cons v rest ih =>
    intro i hseg u hu
    obtain ⟨h1, h2, -, -, -, h6⟩ := hseg
    cases List.mem_cons.mp hu with
    | inl he => exact he ▸ ⟨h1, h2⟩
    | inr hm => exact ih (i + 1) h6 u hm

/-- Segment conditions transfer to a store with the same size and address
translation whose segment pages carry equal labels. -/
theorem Seg_congr (fs fs' : Fs) (hlen : fs'.length = fs.length)
    (hrtv : ∀ r, real_to_virtual fs' r = real_to_virtual fs r) :
    ∀ (cs : List Nat) (i : Nat),
      (∀ u ∈ cs, (fs'.pages u).label = (fs.pages u).label) →
      Seg fs i cs → Seg fs' i cs := by
  intro cs
  induction cs with
  | nil =>
    intro i _ _
    trivial
  | cons v rest ih =>
    intro i hlab hseg
    obtain ⟨h1, h2, h3, h4, h5, h6⟩ := hseg
    have hv := hlab v (List.mem_cons_self _ _)
    refine ⟨h1, by omega, by rw [hv]; exact h3, by rw [hv]; exact h4, ?_,
      ih (i + 1) (fun u hu => hlab u (List.mem_cons_of_mem _ hu)) h6⟩
    cases rest with
    | nil =>
      rw [hrtv, hv]
      exact h5
    | cons w r2 =>
      exact ⟨by rw [hrtv, hv]; exact h5.1, by rw [hv]; exact h5.2⟩

/-- The stream of a segment only depends on its own pages. -/
theorem segBytes_congr (fs fs' : Fs) :
    ∀ (cs : List Nat), (∀ u ∈ cs, fs'.pages u = fs.pages u) →
      segBytes fs' cs = segBytes fs cs := by
  intro cs
  induction cs with
  | nil =>
    intro _
    rfl
  | cons v rest ih =>
    intro h
    rw [segBytes_cons, segBytes_cons,
      ih (fun u hu => h u (List.mem_cons_of_mem _ hu))]
    have hv := h v (List.mem_cons_self _ _)
    unfold pageTail
    rw [hv]

/-- Reading a fully overwritten prefix back from a page. -/
theorem map_range_writeBytes1 (d : Nat → Nat) (t : List Nat) (b : Nat)
    (h : t.length ≤ b) :
    (List.range b).map (fun k => writeBytes d 0 t k) =
      t ++ ((List.range b).map (fun k => d k)).drop t.length := by
  apply List.ext_getElem
  · simp only [List.length_map, List.length_range, List.length_append,
      List.length_drop]
    omega
  · intro k hk1 hk2
    rw [List.getElem_map, List.getElem_range]
    simp only [List.length_map, List.length_range] at hk1
    by_cases hkt : k < t.length
    · rw [List.getElem_append_left (by omega)]
      show writeBytes d 0 t k = t[k]
      unfold writeBytes
      rw [if_pos (by omega)]
      exact List.getD_eq_getElem t 0 hkt
    · rw [List.getElem_append_right (by omega)]
      rw [List.getElem_drop]
      rw [List.getElem_map, List.getElem_range]
      show writeBytes d 0 t k = d (t.length + (k - t.length))
      unfold writeBytes
      rw [if_neg (by omega)]
      have : t.length + (k - t.length) = k := by omega
      rw [this]

/-- Reading two adjacent overwritten runs back from a page. -/
theorem map_range_writeBytes2 (d : Nat → Nat) (t1 t2 : List Nat) :
    (List.range (t1.length + t2.length)).map
      (fun k => writeBytes (writeBytes d 0 t1) t1.length t2 k) = t1 ++ t2 := by
  apply List.ext_getElem
  · simp
  · intro k hk1 hk2
    rw [List.getElem_map, List.getElem_range]
    simp only [List.length_map, List.length_range] at hk1
    by_cases hkt : k < t1.length
    · rw [List.getElem_append_left (by omega)]
      show writeBytes (writeBytes d 0 t1) t1.length t2 k = t1[k]
      unfold writeBytes
      rw [if_neg (by omega), if_pos (by omega)]
      exact List.getD_eq_getElem t1 0 hkt
    · rw [List.getElem_append_right (by omega)]
      show writeBytes (writeBytes d 0 t1) t1.length t2 k = t2[k - t1.length]
      unfold writeBytes
      rw [if_pos (by omega)]
      exact List.getD_eq_getElem t2 0 (by omega)

/-- Membership in the free page list. -/
theorem freeVdas_mem (fs : Fs) (u : Nat) :
    u ∈ freeVdas fs ↔ u < fs.length ∧ (fs.pages u).label.version = VERSION_FREE := by
  unfold freeVdas
  rw [List.mem_filter, List.mem_range]
  simp

/-- The free page list has no duplicates. -/
theorem freeVdas_nodup (fs : Fs) : (freeVdas fs).Nodup :=
  (List.nodup_range fs.length).filter _

/-- The free page list only depends on the stored versions. -/
theorem freeVdas_congr (fs fs' : Fs) (hlen : fs'.length = fs.length)
    (h : ∀ v, v < fs.length →
      (fs'.pages v).label.version = (fs.pages v).label.version) :
    freeVdas fs' = freeVdas fs := by
  unfold freeVdas
  rw [hlen]
  apply List.filter_congr
  intro v hv
  rw [h v (List.mem_range.mp hv)]

/-- Allocating the head of the free list removes exactly it. -/
theorem freeVdas_after_alloc (fs fs' : Fs) (w : Nat) (rest : List Nat)
    (hfv : freeVdas fs = w :: rest)
    (hlen : fs'.length = fs.length)
    (hw : (fs'.pages w).label.version ≠ VERSION_FREE)
    (h : ∀ v, v < fs.length → v ≠ w →
      (fs'.pages v).label.version = (fs.pages v).label.version) :
    freeVdas fs' = rest := by
  have hrest_nodup : (w :: rest).Nodup := hfv ▸ freeVdas_nodup fs
  obtain ⟨hwrest, -⟩ := List.nodup_cons.mp hrest_nodup
  have step1 : freeVdas fs' = (List.range fs.length).filter
      (fun v => ((fs.pages v).label.version == VERSION_FREE) && !(v == w)) := by
    unfold freeVdas
    rw [hlen]
    apply List.filter_congr
    intro v hv
    by_cases hvw : v = w
    · subst hvw
      simp only [beq_self_eq_true, Bool.not_true, Bool.and_false]
      exact beq_eq_false_iff_ne.mpr hw
    · rw [h v (List.mem_range.mp hv) hvw]
      simp [hvw]
  rw [step1]
  have step2 : (List.range fs.length).filter
      (fun v => ((fs.pages v).label.version == VERSION_FREE) && !(v == w)) =
      (freeVdas fs).filter (fun v => !(v == w)) := by
    unfold freeVdas
    rw [List.filter_filter]
    apply List.filter_congr
    intro v _
    exact Bool.and_comm _ _
  rw [step2, hfv, List.filter_cons]
  rw [if_neg (by simp)]
  apply List.filter_eq_self.mpr
  intro v hv
  simp only [Bool.not_eq_true']
  exact beq_eq_false_iff_ne.mpr (fun he => hwrest (he ▸ hv))

/-- Cursor position left by a write of `off` bytes that started at the
first page of the segment: the write stays on a page until it has filled
it, and does not advance past a page boundary it exactly reaches. -/
def writeEnd (fs : Fs) : List Nat → Nat → Nat → Position
  | [], i, off => ⟨0, i, off⟩
  | [v], i, off => ⟨v, i, off⟩
  | v :: w :: rest, i, off =>
    if off ≤ (fs.pages v).label.nbytes then ⟨v, i, off⟩
    else writeEnd fs (w :: rest) (i + 1) (off - (fs.pages v).label.nbytes)

/-- One unfolding of writeEnd on a two-or-more page segment. -/
theorem writeEnd_cons (fs : Fs) (v w : Nat) (rest : List Nat) (i off : Nat) :
    writeEnd fs (v :: w :: rest) i off =
      if off ≤ (fs.pages v).label.nbytes then ⟨v, i, off⟩
      else writeEnd fs (w :: rest) (i + 1) (off - (fs.pages v).label.nbytes) := rfl

/-- One unfolding of the write loop. -/
theorem writeLoop_succ (s : List Nat) (extend : Bool) (fuel : Nat) (st : WState) :
    writeLoop s extend (fuel + 1) st =
      match writeStep s extend st with
      | .done s2 => some s2
      | .next s2 => writeLoop s extend fuel s2 := rfl

/-- Run of the write loop after a finishing step. -/
theorem writeLoop_done (s : List Nat) (extend : Bool) (fuel : Nat) (st X : WState)
    (h : writeStep s extend st = .done X) :
    writeLoop s extend (fuel + 1) st = some X := by
  rw [writeLoop_succ, h]

/-- Run of the write loop after a continuing step. -/
theorem writeLoop_next (s : List Nat) (extend : Bool) (fuel : Nat) (st X : WState)
    (h : writeStep s extend st = .next X) :
    writeLoop s extend (fuel + 1) st = writeLoop s extend fuel X := by
  rw [writeLoop_succ, h]

/-- A write with nothing left to transfer stops at once. -/
theorem writeStep_done0 (s : List Nat) (extend : Bool) (st : WState)
    (h : st.len = 0) : writeStep s extend st = .done st := by
  unfold writeStep
  rw [if_pos h]

/-- Copy iteration of the write loop. -/
theorem writeStep_copy (s : List Nat) (fs : Fs) (fe : FileEntry)
    (v pgn q p len : Nat)
    (hlen : len ≠ 0) (hv0 : v ≠ 0) (hvlen : v < fs.length)
    (hfp : (fs.pages v).label.file_pgnum = pgn)
    (hlt : q < (fs.pages v).label.nbytes) :
    writeStep s true ⟨fs, ⟨fe, ⟨v, pgn, q⟩, false⟩, p, len⟩ =
      .next ⟨setPage fs v { fs.pages v with data := (writeBytes
          (fs.pages v).data q
          ((s.drop p).take (min ((fs.pages v).label.nbytes - q) len))) },
        ⟨fe, ⟨v, pgn, q + min ((fs.pages v).label.nbytes - q) len⟩, false⟩,
        p + min ((fs.pages v).label.nbytes - q) len,
        len - min ((fs.pages v).label.nbytes - q) len⟩ := by
  unfold writeStep
  dsimp only
  rw [if_neg hlen, if_neg hv0, if_neg (show ¬(v ≥ fs.length) by omega)]
  rw [if_neg (show ¬((fs.pages v).label.file_pgnum ≠ pgn) from fun hne => hne hfp)]
  rw [if_neg (show ¬(q > (fs.pages v).label.nbytes) by omega)]
  rw [if_pos hlt]

/-- Page-advance iteration of the write loop. -/
theorem writeStep_advance (s : List Nat) (fs : Fs) (fe : FileEntry)
    (v v2 pgn q p len : Nat)
    (hlen : len ≠ 0) (hv0 : v ≠ 0) (hvlen : v < fs.length)
    (hfp : (fs.pages v).label.file_pgnum = pgn)
    (hq : q = (fs.pages v).label.nbytes)
    (hnext : real_to_virtual fs (fs.pages v).label.next_rda = some v2)
    (hv2 : v2 ≠ 0) :
    writeStep s true ⟨fs, ⟨fe, ⟨v, pgn, q⟩, false⟩, p, len⟩ =
      .next ⟨fs, ⟨fe, ⟨v2, (pgn + 1) % 65536, 0⟩, false⟩, p, len⟩ := by
  unfold writeStep
  dsimp only
  rw [if_neg hlen, if_neg hv0, if_neg (show ¬(v ≥ fs.length) by omega)]
  rw [if_neg (show ¬((fs.pages v).label.file_pgnum ≠ pgn) from fun hne => hne hfp)]
  rw [if_neg (show ¬(q > (fs.pages v).label.nbytes) by omega)]
  rw [if_neg (show ¬(q < (fs.pages v).label.nbytes) by omega)]
  rw [hnext]
  dsimp only
  rw [if_pos hv2]

/-- In-place extension iteration of the write loop at the last page. -/
theorem writeStep_extendpage (s : List Nat) (fs : Fs) (fe : FileEntry)
    (v pgn q p len : Nat)
    (hlen : len ≠ 0) (hv0 : v ≠ 0) (hvlen : v < fs.length)
    (hfp : (fs.pages v).label.file_pgnum = pgn)
    (hq : q = (fs.pages v).label.nbytes)
    (hnext : real_to_virtual fs (fs.pages v).label.next_rda = some 0)
    (hnb : (fs.pages v).label.nbytes < 512) :
    writeStep s true ⟨fs, ⟨fe, ⟨v, pgn, q⟩, false⟩, p, len⟩ =
      .next ⟨setPage fs v { fs.pages v with label :=
          { (fs.pages v).label with
              nbytes := (fs.pages v).label.nbytes +
                min (512 - (fs.pages v).label.nbytes) len } },
        ⟨fe, ⟨v, pgn, q⟩, false⟩, p, len⟩ := by
  unfold writeStep
  dsimp only
  rw [if_neg hlen, if_neg hv0, if_neg (show ¬(v ≥ fs.length) by omega)]
  rw [if_neg (show ¬((fs.pages v).label.file_pgnum ≠ pgn) from fun hne => hne hfp)]
  rw [if_neg (show ¬(q > (fs.pages v).label.nbytes) by omega)]
  rw [if_neg (show ¬(q < (fs.pages v).label.nbytes) by omega)]
  rw [hnext]
  dsimp only
  rw [if_neg (show ¬((0 : Nat) ≠ 0) by omega)]
  rw [if_neg (show ¬((true : Bool) = false) by decide)]
  rw [if_pos hnb]

/-- Allocation iteration of the write loop at a full end-of-chain page. -/
theorem writeStep_alloc (s : List Nat) (fs : Fs) (fe : FileEntry)
    (v w pgn q p len rv rw' : Nat)
    (hlen : len ≠ 0) (hv0 : v ≠ 0) (hvlen : v < fs.length)
    (hfp : (fs.pages v).label.file_pgnum = pgn)
    (hq : q = (fs.pages v).label.nbytes)
    (hfull : (fs.pages v).label.nbytes = 512)
    (hnext : real_to_virtual fs (fs.pages v).label.next_rda = some 0)
    (hfind : find_free_page fs = some w)
    (hpv : (fs.pages v).page_vda = v)
    (hpw : (fs.pages w).page_vda = w)
    (hrv : virtual_to_real fs v = some rv)
    (hrw : virtual_to_real fs w = some rw') :
    writeStep s true ⟨fs, ⟨fe, ⟨v, pgn, q⟩, false⟩, p, len⟩ =
      .next ⟨allocFs fs v w len rv rw', ⟨fe, ⟨v, pgn, q⟩, false⟩, p, len⟩ := by
  unfold writeStep
  dsimp only
  rw [if_neg hlen, if_neg hv0, if_neg (show ¬(v ≥ fs.length) by omega)]
  rw [if_neg (show ¬((fs.pages v).label.file_pgnum ≠ pgn) from fun hne => hne hfp)]
  rw [if_neg (show ¬(q > (fs.pages v).label.nbytes) by omega)]
  rw [if_neg (show ¬(q < (fs.pages v).label.nbytes) by omega)]
  rw [hnext]
  dsimp only
  rw [if_neg (show ¬((0 : Nat) ≠ 0) by omega)]
  rw [if_neg (show ¬((true : Bool) = false) by decide)]
  rw [if_neg (show ¬((fs.pages v).label.nbytes < 512) by omega)]
  rw [hfind]
  dsimp only
  rw [hpv, hrv]
  dsimp only
  rw [hpw, hrw]

/-- virtual_to_real succeeds below the store size. -/
theorem vtr_some (fs : Fs) (v : Nat) (hv : v < fs.length) :
    ∃ r, virtual_to_real fs v = some r := by
  unfold virtual_to_real
  rw [if_neg (by omega)]
  exact ⟨_, rfl⟩

/-- rda 0 always translates to vda 0 on a nonempty geometry. -/
theorem rtv_zero (fs : Fs) (hC : 0 < fs.dg.num_cylinders)
    (hH : 0 < fs.dg.num_heads) (hS : 0 < fs.dg.num_sectors) :
    real_to_virtual fs 0 = some 0 := by
  unfold real_to_virtual
  rw [if_neg (by push_neg; exact ⟨hC, hH, hS, rfl⟩)]
  have h : (0 >>> 3 % 512 * fs.dg.num_heads + 0 >>> 2 % 2) * fs.dg.num_sectors +
      0 >>> 12 % 16 = 0 := by
    simp
  rw [h]

/-- Positive dimensions of a geometry whose length is positive. -/
theorem geom_pos (fs : Fs) (hgl : fs.length = geomLength fs.dg) (h : 0 < fs.length) :
    0 < fs.dg.num_cylinders ∧ 0 < fs.dg.num_heads ∧ 0 < fs.dg.num_sectors := by
  rw [hgl] at h
  unfold geomLength at h
  have hprod : 0 < fs.dg.num_cylinders * fs.dg.num_heads * fs.dg.num_sectors :=
    Nat.lt_of_lt_of_le h (Nat.mod_le _ _)
  refine ⟨?_, ?_, ?_⟩
  · rcases Nat.eq_zero_or_pos fs.dg.num_cylinders with h0 | hp
    · rw [h0, Nat.zero_mul, Nat.zero_mul] at hprod
      exact absurd hprod (by omega)
    · exact hp
  · rcases Nat.eq_zero_or_pos fs.dg.num_heads with h0 | hp
    · rw [h0, Nat.mul_zero, Nat.zero_mul] at hprod
      exact absurd hprod (by omega)
    · exact hp
  · rcases Nat.eq_zero_or_pos fs.dg.num_sectors with h0 | hp
    · rw [h0, Nat.mul_zero] at hprod
      exact absurd hprod (by omega)
    · exact hp

/-- Dropping past the length of the first part of an append. -/
theorem drop_append_ge (l1 l2 : List Nat) (n : Nat) (h : l1.length ≤ n) :
    (l1 ++ l2).drop n = l2.drop (n - l1.length) :=
  calc (l1 ++ l2).drop n
      = (l1 ++ l2).drop (l1.length + (n - l1.length)) := by
        rw [show l1.length + (n - l1.length) = n from by omega]
    _ = ((l1 ++ l2).drop l1.length).drop (n - l1.length) :=
        (List.drop_drop _ _ _).symm
    _ = l2.drop (n - l1.length) := by rw [List.drop_left]

/-- The empty chain carries no bytes. -/
theorem segBytes_nil (fs : Fs) : segBytes fs [] = [] := rfl

/-- Assembly of the master write-loop conclusion when the write ends inside
the final chain page, which a run of iterations has extended in place to
hold every remaining byte. -/
theorem lastPage_post (s : List Nat) (fe : FileEntry) (fs FSY : Fs)
    (v i p : Nat)
    (h1 : v ≠ 0) (h2 : v < fs.length)
    (h3 : (fs.pages v).label.file_pgnum = i)
    (h5 : real_to_virtual fs (fs.pages v).label.next_rda = some 0)
    (hverv : (fs.pages v).label.version ≠ VERSION_FREE)
    (hnbL : (fs.pages v).label.nbytes ≤ s.length - p)
    (hCa : s.length - p ≤ 512)
    (hYlab : (FSY.pages v).label =
      { (fs.pages v).label with nbytes := s.length - p })
    (hYtail : pageTail FSY v 0 = s.drop p)
    (hYo : ∀ u, u ≠ v → FSY.pages u = fs.pages u)
    (hYlen : FSY.length = fs.length) (hYdg : FSY.dg = fs.dg) :
    ∃ (m : Nat) (fs2 : Fs),
      (some (⟨FSY, ⟨fe, ⟨v, i, s.length - p⟩, false⟩, s.length, 0⟩ : WState) :
          Option WState) =
        some ⟨fs2, ⟨fe,
          writeEnd fs2 ([v] ++ (freeVdas fs).take m) i (s.length - p), false⟩,
          s.length, 0⟩ ∧
      m ≤ (freeVdas fs).length ∧
      Seg fs2 i ([v] ++ (freeVdas fs).take m) ∧
      ([v] ++ (freeVdas fs).take m).Nodup ∧
      segBytes fs2 ([v] ++ (freeVdas fs).take m) =
        s.drop p ++ (segBytes fs [v]).drop (s.length - p) ∧
      freeVdas fs2 = (freeVdas fs).drop m ∧
      (∀ u ∈ [v] ++ (freeVdas fs).take m,
        (fs2.pages u).label.version ≠ VERSION_FREE) ∧
      (∀ u, u ∉ ([v] : List Nat) → u ∉ (freeVdas fs).take m →
        fs2.pages u = fs.pages u) ∧
      fs2.length = fs.length ∧ fs2.dg = fs.dg := by
  have hYnb : (FSY.pages v).label.nbytes = s.length - p := by
    rw [hYlab]
  have hYfp : (FSY.pages v).label.file_pgnum = i := by
    rw [hYlab]
    exact h3
  have hYver : (FSY.pages v).label.version = (fs.pages v).label.version := by
    rw [hYlab]
  have hYnext : (FSY.pages v).label.next_rda = (fs.pages v).label.next_rda := by
    rw [hYlab]
  have hrtvY : ∀ r, real_to_virtual FSY r = real_to_virtual fs r := by
    intro r
    unfold real_to_virtual
    rw [hYdg]
  have hfvY : freeVdas FSY = freeVdas fs := by
    refine freeVdas_congr fs FSY hYlen ?_
    intro u hu
    by_cases huv : u = v
    · subst huv
      rw [hYver]
    · rw [hYo u huv]
  refine ⟨0, FSY, ?_, by omega, ?_, ?_, ?_, ?_, ?_, ?_, hYlen, hYdg⟩
  · rw [List.take_zero, List.append_nil]
    rfl
  · rw [List.take_zero, List.append_nil]
    refine ⟨h1, by omega, hYfp, ?_, ?_, trivial⟩
    · rw [hYnb]
      exact hCa
    · rw [hrtvY, hYnext]
      exact h5
  · rw [List.take_zero, List.append_nil]
    exact List.nodup_singleton v
  · rw [List.take_zero, List.append_nil]
    rw [segBytes_cons, segBytes_nil, List.append_nil, hYtail]
    have hnil2 : (segBytes fs [v]).drop (s.length - p) = [] := by
      refine List.drop_eq_nil_of_le ?_
      rw [segBytes_cons, segBytes_nil, List.append_nil, pageTail_length]
      omega
    rw [hnil2, List.append_nil]
  · exact hfvY.trans (List.drop_zero _).symm
  · rw [List.take_zero, List.append_nil]
    intro u hu
    rw [List.mem_singleton] at hu
    subst hu
    rw [hYver]
    exact hverv
  · intro u hu1 hu2
    exact hYo u (fun he => hu1 (List.mem_singleton.mpr he))

/-- Master characterization of the fs_write loop with extend on a
well-formed chain, entered at the start of its first page: the loop
transfers all remaining bytes, extending the last page in place and then
allocating successive heads of the free list; the resulting segment holds
the written bytes followed by the untouched remainder of the old stream,
and the cursor rests where the write ended. -/
theorem writeLoop_master (s : List Nat) (fe : FileEntry) :
    ∀ (k : Nat) (cs : List Nat) (fs : Fs) (i p fuel : Nat),
      validGeometry fs.dg →
      fs.length = geomLength fs.dg →
      cs ≠ [] →
      Seg fs i cs →
      cs.Nodup →
      (∀ u ∈ cs, (fs.pages u).label.version ≠ VERSION_FREE) →
      (∀ u ∈ cs, (fs.pages u).page_vda = u) →
      (∀ u ∈ freeVdas fs, (fs.pages u).page_vda = u) →
      0 ∉ freeVdas fs →
      p ≤ s.length →
      s.length - p ≤ 512 * cs.length + 512 * (freeVdas fs).length →
      i + cs.length + (freeVdas fs).length ≤ 65535 →
      cs.length + (freeVdas fs).length ≤ k →
      2 * (s.length - p) + 5 * k + 2 ≤ fuel →
      ∃ (m : Nat) (fs2 : Fs),
        writeLoop s true fuel
            ⟨fs, ⟨fe, ⟨cs.headD 0, i, 0⟩, false⟩, p, s.length - p⟩ =
          some ⟨fs2, ⟨fe,
            writeEnd fs2 (cs ++ (freeVdas fs).take m) i (s.length - p), false⟩,
            s.length, 0⟩ ∧
        m ≤ (freeVdas fs).length ∧
        Seg fs2 i (cs ++ (freeVdas fs).take m) ∧
        (cs ++ (freeVdas fs).take m).Nodup ∧
        segBytes fs2 (cs ++ (freeVdas fs).take m) =
          s.drop p ++ (segBytes fs cs).drop (s.length - p) ∧
        freeVdas fs2 = (freeVdas fs).drop m ∧
        (∀ u ∈ cs ++ (freeVdas fs).take m,
          (fs2.pages u).label.version ≠ VERSION_FREE) ∧
        (∀ u, u ∉ cs → u ∉ (freeVdas fs).take m → fs2.pages u = fs.pages u) ∧
        fs2.length = fs.length ∧ fs2.dg = fs.dg := by
  intro k
  induction k with
  | zero =>
    intro cs fs i p fuel hg hgl hne hseg hnd hver hpv hpvf h0f hp hcap
      hbound hk hfuel
    cases cs with
    | nil => exact absurd rfl hne
    | cons v rest =>
      rw [List.length_cons] at hk
      omega
  | succ k ih =>
    intro cs fs i p fuel hg hgl hne hseg hnd hver hpv hpvf h0f hp hcap
      hbound hk hfuel
    cases cs with
    | nil => exact absurd rfl hne
    | cons v rest =>
    obtain ⟨h1, h2, h3, h4, h5, h6⟩ := hseg
    obtain ⟨hvrest, hndrest⟩ := List.nodup_cons.mp hnd
    rw [show ((v :: rest).headD 0) = v from rfl]
    by_cases hL0 : s.length - p = 0
    · -- nothing left to write
      obtain ⟨f1, rfl⟩ : ∃ f1, fuel = f1 + 1 := ⟨fuel - 1, by omega⟩
      rw [hL0]
      rw [writeLoop_done s true f1 _ _ (writeStep_done0 s true _ rfl)]
      refine ⟨0, fs, ?_, by omega, ?_, ?_, ?_, ?_, ?_, ?_, rfl, rfl⟩
      · have hwe : writeEnd fs ((v :: rest) ++ (freeVdas fs).take 0) i 0 =
            ⟨v, i, 0⟩ := by
          rw [List.take_zero, List.append_nil]
          cases rest with
          | nil => rfl
          | cons w r2 =>
            rw [writeEnd_cons, if_pos (by omega)]
        rw [hwe]
        have hps : p = s.length := by omega
        rw [hps]
      · rw [List.take_zero, List.append_nil]
        exact ⟨h1, h2, h3, h4, h5, h6⟩
      · rw [List.take_zero, List.append_nil]
        exact hnd
      · rw [List.take_zero, List.append_nil, List.drop_zero]
        rw [List.drop_eq_nil_of_le (by omega), List.nil_append]
      · exact (List.drop_zero _).symm
      · rw [List.take_zero, List.append_nil]
        exact hver
      · intro u hu1 hu2
        rfl
    · by_cases hA : s.length - p ≤ (fs.pages v).label.nbytes
      · -- fits in the current page
        obtain ⟨f1, rfl⟩ : ∃ f1, fuel = f1 + 1 := ⟨fuel - 1, by omega⟩
        rw [writeLoop_next s true f1 _ _
          (writeStep_copy s fs fe v i 0 p (s.length - p) hL0 h1 h2 h3 (by omega))]
        have hmin : min ((fs.pages v).label.nbytes - 0) (s.length - p) =
            s.length - p := by
          omega
        rw [hmin]
        rw [show (0 : Nat) + (s.length - p) = s.length - p from by omega]
        rw [show s.length - p - (s.length - p) = 0 from by omega]
        obtain ⟨f2, rfl⟩ : ∃ f2, f1 = f2 + 1 := ⟨f1 - 1, by omega⟩
        rw [writeLoop_done s true f2 _ _ (writeStep_done0 s true _ rfl)]
        refine ⟨0, setPage fs v { fs.pages v with data := (writeBytes
            (fs.pages v).data 0 ((s.drop p).take (s.length - p))) },
          ?_, by omega, ?_, ?_, ?_, ?_, ?_, ?_, rfl, rfl⟩
        · have hnb1 : ((setPage fs v { fs.pages v with data := (writeBytes
              (fs.pages v).data 0 ((s.drop p).take (s.length - p))) }).pages v).label.nbytes =
              (fs.pages v).label.nbytes := by
            rw [setPage_eq]
          have hwe : writeEnd (setPage fs v { fs.pages v with data := (writeBytes
              (fs.pages v).data 0 ((s.drop p).take (s.length - p))) })
              ((v :: rest) ++ (freeVdas fs).take 0) i (s.length - p) =
              ⟨v, i, s.length - p⟩ := by
            rw [List.take_zero, List.append_nil]
            cases rest with
            | nil => rfl
            | cons w r2 =>
              rw [writeEnd_cons, hnb1, if_pos (by omega)]
          rw [hwe]
          rw [show p + (s.length - p) = s.length from by omega]
        · rw [List.take_zero, List.append_nil]
          refine Seg_congr fs (setPage fs v { fs.pages v with data := (writeBytes
              (fs.pages v).data 0 ((s.drop p).take (s.length - p))) })
            rfl (fun r => rfl) (v :: rest) i ?_ ⟨h1, h2, h3, h4, h5, h6⟩
          intro u hu
          by_cases huv : u = v
          · subst huv
            rw [setPage_eq]
          · rw [setPage_other _ _ _ _ huv]
        · rw [List.take_zero, List.append_nil]
          exact hnd
        · rw [List.take_zero, List.append_nil]
          have hrest_eq : segBytes (setPage fs v { fs.pages v with data := (writeBytes
              (fs.pages v).data 0 ((s.drop p).take (s.length - p))) }) rest =
              segBytes fs rest :=
            segBytes_congr _ _ rest
              (fun u hu => setPage_other _ _ _ _ (fun he => hvrest (he ▸ hu)))
          have htail : pageTail (setPage fs v { fs.pages v with data := (writeBytes
              (fs.pages v).data 0 ((s.drop p).take (s.length - p))) }) v 0 =
              (s.drop p).take (s.length - p) ++
                (pageTail fs v 0).drop (s.length - p) := by
            unfold pageTail
            rw [setPage_eq]
            show (List.range ((fs.pages v).label.nbytes - 0)).map
              (fun k => (writeBytes (fs.pages v).data 0
                ((s.drop p).take (s.length - p))) (0 + k)) = _
            simp only [Nat.zero_add, Nat.sub_zero]
            rw [map_range_writeBytes1 (fs.pages v).data
              ((s.drop p).take (s.length - p)) (fs.pages v).label.nbytes
              (by rw [List.length_take, List.length_drop]; omega)]
            rw [List.length_take, List.length_drop]
            rw [show min (s.length - p) (s.length - p) = s.length - p from by omega]
          rw [segBytes_cons, segBytes_cons, htail, hrest_eq]
          rw [List.drop_append_of_le_length
            (show s.length - p ≤ (pageTail fs v 0).length from by
              rw [pageTail_length]; omega)]
          rw [List.take_of_length_le
            (show (s.drop p).length ≤ s.length - p from by
              rw [List.length_drop])]
          rw [List.append_assoc]
        · refine (freeVdas_congr fs (setPage fs v { fs.pages v with data := (writeBytes
              (fs.pages v).data 0 ((s.drop p).take (s.length - p))) }) rfl
            ?_).trans (List.drop_zero _).symm
          intro u hu
          by_cases huv : u = v
          · subst huv
            rw [setPage_eq]
          · rw [setPage_other _ _ _ _ huv]
        · rw [List.take_zero, List.append_nil]
          intro u hu
          by_cases huv : u = v
          · subst huv
            rw [setPage_eq]
            exact hver _ hu
          · rw [setPage_other _ _ _ _ huv]
            exact hver u hu
        · intro u hu1 hu2
          exact setPage_other _ _ _ _ (fun he => hu1 (he ▸ List.mem_cons_self _ _))
      · cases rest with
        | cons w rest2 =>
          obtain ⟨h5a, h5b⟩ := h5
          have hLgt : 512 < s.length - p := by omega
          have hlcs : (v :: w :: rest2).length = rest2.length + 2 := by simp
          rw [hlcs] at hbound hcap hk
          obtain ⟨f1, rfl⟩ : ∃ f1, fuel = f1 + 1 := ⟨fuel - 1, by omega⟩
          rw [writeLoop_next s true f1 _ _
            (writeStep_copy s fs fe v i 0 p (s.length - p) hL0 h1 h2 h3 (by omega))]
          have hmin : min ((fs.pages v).label.nbytes - 0) (s.length - p) = 512 := by
            omega
          rw [hmin]
          rw [show (0 : Nat) + 512 = 512 from rfl]
          set FS1 : Fs := setPage fs v { fs.pages v with data := (writeBytes
            (fs.pages v).data 0 ((s.drop p).take 512)) } with hFS1
          have hvnf : v ∉ freeVdas fs := fun hm =>
            hver v (List.mem_cons_self _ _) ((freeVdas_mem fs v).mp hm).2
          have hFS1v : FS1.pages v = { fs.pages v with data := (writeBytes
              (fs.pages v).data 0 ((s.drop p).take 512)) } := by
            rw [hFS1]
            exact setPage_eq _ _ _
          have hFS1o : ∀ u, u ≠ v → FS1.pages u = fs.pages u := by
            intro u hu
            rw [hFS1]
            exact setPage_other _ _ _ _ hu
          have hfv1 : freeVdas FS1 = freeVdas fs := by
            refine freeVdas_congr fs FS1 rfl ?_
            intro u hu
            by_cases huv : u = v
            · subst huv
              rw [hFS1v]
            · rw [hFS1o u huv]
          obtain ⟨f2, rfl⟩ : ∃ f2, f1 = f2 + 1 := ⟨f1 - 1, by omega⟩
          rw [writeLoop_next s true f2 _ _
            (writeStep_advance s FS1 fe v w i 512 (p + 512) (s.length - p - 512)
              (by omega) h1 h2
              (by rw [hFS1v]; exact h3)
              (by rw [hFS1v]; exact h5b.symm)
              (by rw [hFS1v]; exact h5a)
              h6.1)]
          rw [show (i + 1) % 65536 = i + 1 from Nat.mod_eq_of_lt (by omega)]
          have hseg1 : Seg FS1 (i + 1) (w :: rest2) := by
            refine Seg_congr fs FS1 rfl (fun r => rfl) (w :: rest2) (i + 1) ?_ h6
            intro u hu
            rw [hFS1o u (fun he => hvrest (he ▸ hu))]
          have hver1 : ∀ u ∈ w :: rest2,
              (FS1.pages u).label.version ≠ VERSION_FREE := by
            intro u hu
            rw [hFS1o u (fun he => hvrest (he ▸ hu))]
            exact hver u (List.mem_cons_of_mem _ hu)
          have hpv1 : ∀ u ∈ w :: rest2, (FS1.pages u).page_vda = u := by
            intro u hu
            rw [hFS1o u (fun he => hvrest (he ▸ hu))]
            exact hpv u (List.mem_cons_of_mem _ hu)
          have hpvf1 : ∀ u ∈ freeVdas FS1, (FS1.pages u).page_vda = u := by
            intro u hu
            rw [hfv1] at hu
            rw [hFS1o u (fun he => hvnf (he ▸ hu))]
            exact hpvf u hu
          obtain ⟨m', fs2, hrun, hm', hseg2, hnd2, hstream2, hfree2, hver2,
            hunch2, hlen2, hdg2⟩ :=
            ih (w :: rest2) FS1 (i + 1) (p + 512) f2 hg hgl (by simp) hseg1
              hndrest hver1 hpv1 hpvf1 (by rw [hfv1]; exact h0f) (by omega)
              (by rw [hfv1]; simp only [List.length_cons]; omega)
              (by rw [hfv1]; simp only [List.length_cons]; omega)
              (by rw [hfv1]; simp only [List.length_cons]; omega) (by omega)
          rw [hfv1] at hrun hm' hseg2 hnd2 hstream2 hfree2 hver2 hunch2
          have hsb1 : segBytes FS1 (w :: rest2) = segBytes fs (w :: rest2) :=
            segBytes_congr fs FS1 (w :: rest2)
              (fun u hu => hFS1o u (fun he => hvrest (he ▸ hu)))
          rw [hsb1] at hstream2
          have hrun2 : writeLoop s true f2
              ⟨FS1, ⟨fe, ⟨w, i + 1, 0⟩, false⟩, p + 512, s.length - p - 512⟩ =
              some ⟨fs2, ⟨fe, writeEnd fs2 ((w :: rest2) ++ (freeVdas fs).take m')
                (i + 1) (s.length - (p + 512)), false⟩, s.length, 0⟩ := by
            rw [show s.length - p - 512 = s.length - (p + 512) from by omega]
            exact hrun
          rw [hrun2]
          have hvnt : v ∉ (freeVdas fs).take m' := fun hm =>
            hvnf (List.mem_of_mem_take hm)
          have hv2pg : fs2.pages v = FS1.pages v := hunch2 v hvrest hvnt
          have hv2lab : (fs2.pages v).label = (fs.pages v).label := by
            rw [hv2pg, hFS1v]
          have hdg2' : fs2.dg = fs.dg := hdg2
          have hlen2' : fs2.length = fs.length := hlen2
          have hrtv2 : ∀ r, real_to_virtual fs2 r = real_to_virtual fs r := by
            intro r
            unfold real_to_virtual
            rw [hdg2']
          have hnb2 : (fs2.pages v).label.nbytes = 512 := by
            rw [hv2lab]
            exact h5b
          refine ⟨m', fs2, ?_, hm', ?_, ?_, ?_, hfree2, ?_, ?_, hlen2', hdg2'⟩
          · have hwe : writeEnd fs2 ((v :: w :: rest2) ++ (freeVdas fs).take m') i
                (s.length - p) =
                writeEnd fs2 ((w :: rest2) ++ (freeVdas fs).take m') (i + 1)
                  (s.length - (p + 512)) := by
              show writeEnd fs2 (v :: w :: (rest2 ++ (freeVdas fs).take m')) i
                (s.length - p) = _
              rw [writeEnd_cons, hnb2, if_neg (by omega)]
              rw [show s.length - p - 512 = s.length - (p + 512) from by omega]
              rfl
            rw [hwe]
          · show Seg fs2 i (v :: w :: (rest2 ++ (freeVdas fs).take m'))
            refine ⟨h1, by omega, ?_, ?_, ?_, hseg2⟩
            · rw [hv2lab]
              exact h3
            · rw [hv2lab]
              exact h4
            · exact ⟨by rw [hrtv2, hv2lab]; exact h5a, hnb2⟩
          · show (v :: ((w :: rest2) ++ (freeVdas fs).take m')).Nodup
            refine List.nodup_cons.mpr ⟨?_, hnd2⟩
            intro hmem
            cases List.mem_append.mp hmem with
            | inl h => exact hvrest h
            | inr h => exact hvnt h
          · show segBytes fs2 (v :: ((w :: rest2) ++ (freeVdas fs).take m')) = _
            rw [segBytes_cons, hstream2]
            have htail : pageTail fs2 v 0 = (s.drop p).take 512 := by
              unfold pageTail
              rw [hv2pg, hFS1v]
              show (List.range ((fs.pages v).label.nbytes - 0)).map
                (fun k => (writeBytes (fs.pages v).data 0
                  ((s.drop p).take 512)) (0 + k)) = _
              simp only [Nat.zero_add, Nat.sub_zero]
              rw [map_range_writeBytes1 (fs.pages v).data ((s.drop p).take 512)
                (fs.pages v).label.nbytes
                (by rw [List.length_take, List.length_drop]; omega)]
              rw [List.length_take, List.length_drop]
              rw [show min 512 (s.length - p) = 512 from by omega]
              have hnil : ((List.range ((fs.pages v).label.nbytes)).map
                  (fun j => (fs.pages v).data j)).drop 512 = ([] : List Nat) :=
                List.drop_eq_nil_of_le (by
                  rw [List.length_map, List.length_range]
                  omega)
              rw [hnil, List.append_nil]
            rw [htail]
            rw [segBytes_cons fs v (w :: rest2)]
            rw [drop_append_ge (pageTail fs v 0) _ (s.length - p)
              (by rw [pageTail_length]; omega)]
            rw [pageTail_length]
            rw [h5b]
            rw [show s.length - p - (512 - 0) = s.length - (p + 512) from by omega]
            rw [← List.append_assoc]
            have hjoin : (s.drop p).take 512 ++ s.drop (p + 512) = s.drop p := by
              rw [show s.drop (p + 512) = (s.drop p).drop 512 from
                (List.drop_drop 512 p s).symm]
              exact List.take_append_drop _ _
            rw [hjoin]
          · intro u hu
            have hu' : u = v ∨ u ∈ (w :: rest2) ++ (freeVdas fs).take m' := by
              rcases List.mem_append.mp hu with h | h
              · rcases List.mem_cons.mp h with h1 | h1
                · exact Or.inl h1
                · exact Or.inr (List.mem_append.mpr (Or.inl h1))
              · exact Or.inr (List.mem_append.mpr (Or.inr h))
            rcases hu' with h | h
            · subst h
              rw [hv2lab]
              exact hver u (List.mem_cons_self _ _)
            · exact hver2 u h
          · intro u hu1 hu2
            have hu3 : u ∉ (w :: rest2) := fun hm => hu1 (List.mem_cons_of_mem _ hm)
            have huv : u ≠ v := fun he => hu1 (he ▸ List.mem_cons_self _ _)
            rw [hunch2 u hu3 hu2]
            exact hFS1o u huv
        | nil =>
          simp only [List.length_singleton] at hbound hcap hk
          by_cases hCa : s.length - p ≤ 512
          · -- last page: extend it in place and finish inside it
            by_cases hb0 : (fs.pages v).label.nbytes = 0
            · obtain ⟨f1, rfl⟩ : ∃ f1, fuel = f1 + 1 := ⟨fuel - 1, by omega⟩
              rw [writeLoop_next s true f1 _ _
                (writeStep_extendpage s fs fe v i 0 p (s.length - p) hL0 h1 h2
                  h3 hb0.symm h5 (by omega))]
              rw [show (fs.pages v).label.nbytes +
                  min (512 - (fs.pages v).label.nbytes) (s.length - p) =
                  s.length - p from by omega]
              set FB1 : Fs := setPage fs v { fs.pages v with label :=
                { (fs.pages v).label with nbytes := s.length - p } } with hFB1
              have hFB1v : FB1.pages v = { fs.pages v with label :=
                  { (fs.pages v).label with nbytes := s.length - p } } := by
                rw [hFB1]
                exact setPage_eq _ _ _
              have hFB1nb : (FB1.pages v).label.nbytes = s.length - p := by
                rw [hFB1v]
              have hFB1fp : (FB1.pages v).label.file_pgnum = i := by
                rw [hFB1v]
                exact h3
              have hFB1data : (FB1.pages v).data = (fs.pages v).data := by
                rw [hFB1v]
              obtain ⟨f2, rfl⟩ : ∃ f2, f1 = f2 + 1 := ⟨f1 - 1, by omega⟩
              rw [writeLoop_next s true f2 _ _
                (writeStep_copy s FB1 fe v i 0 p (s.length - p) hL0 h1 h2 hFB1fp
                  (by rw [hFB1nb]; omega))]
              rw [hFB1nb]
              rw [show min (s.length - p - 0) (s.length - p) = s.length - p from
                by omega]
              rw [show (0 : Nat) + (s.length - p) = s.length - p from by omega]
              rw [show s.length - p - (s.length - p) = 0 from by omega]
              rw [show p + (s.length - p) = s.length from by omega]
              obtain ⟨f3, rfl⟩ : ∃ f3, f2 = f3 + 1 := ⟨f2 - 1, by omega⟩
              rw [writeLoop_done s true f3 _ _ (writeStep_done0 s true _ rfl)]
              refine lastPage_post s fe fs _ v i p h1 h2 h3 h5
                (hver v (List.mem_cons_self _ _)) (by omega) hCa ?_ ?_ ?_ ?_ ?_
              · rw [setPage_eq, hFB1v]
              · unfold pageTail
                rw [setPage_eq]
                show (List.range ((FB1.pages v).label.nbytes - 0)).map (fun j =>
                  (writeBytes (FB1.pages v).data 0
                    ((s.drop p).take (s.length - p))) (0 + j)) = s.drop p
                rw [hFB1nb, hFB1data]
                simp only [Nat.sub_zero, Nat.zero_add]
                rw [map_range_writeBytes1 (fs.pages v).data
                  ((s.drop p).take (s.length - p)) (s.length - p)
                  (by rw [List.length_take, List.length_drop]; omega)]
                rw [List.length_take, List.length_drop, Nat.min_self]
                have hnil : ((List.range (s.length - p)).map
                    (fun j => (fs.pages v).data j)).drop (s.length - p) =
                    ([] : List Nat) :=
                  List.drop_eq_nil_of_le
                    (by rw [List.length_map, List.length_range])
                rw [hnil, List.append_nil]
                exact List.take_of_length_le (by rw [List.length_drop])
              · intro u hu
                rw [setPage_other _ _ _ _ hu, hFB1]
                exact setPage_other _ _ _ _ hu
              · rfl
              · rfl
            · obtain ⟨f1, rfl⟩ : ∃ f1, fuel = f1 + 1 := ⟨fuel - 1, by omega⟩
              rw [writeLoop_next s true f1 _ _
                (writeStep_copy s fs fe v i 0 p (s.length - p) hL0 h1 h2 h3
                  (by omega))]
              rw [show min ((fs.pages v).label.nbytes - 0) (s.length - p) =
                  (fs.pages v).label.nbytes from by omega]
              rw [show (0 : Nat) + (fs.pages v).label.nbytes =
                  (fs.pages v).label.nbytes from by omega]
              set FC1 : Fs := setPage fs v { fs.pages v with data := (writeBytes
                (fs.pages v).data 0
                ((s.drop p).take ((fs.pages v).label.nbytes))) } with hFC1
              have hFC1v : FC1.pages v = { fs.pages v with data := (writeBytes
                  (fs.pages v).data 0
                  ((s.drop p).take ((fs.pages v).label.nbytes))) } := by
                rw [hFC1]
                exact setPage_eq _ _ _
              have hFC1lab : (FC1.pages v).label = (fs.pages v).label := by
                rw [hFC1v]
              have hFC1nb : (FC1.pages v).label.nbytes =
                  (fs.pages v).label.nbytes := by
                rw [hFC1lab]
              have hFC1fp : (FC1.pages v).label.file_pgnum = i := by
                rw [hFC1lab]
                exact h3
              obtain ⟨f2, rfl⟩ : ∃ f2, f1 = f2 + 1 := ⟨f1 - 1, by omega⟩
              rw [writeLoop_next s true f2 _ _
                (writeStep_extendpage s FC1 fe v i ((fs.pages v).label.nbytes)
                  (p + (fs.pages v).label.nbytes)
                  (s.length - p - (fs.pages v).label.nbytes) (by omega) h1 h2
                  hFC1fp hFC1nb.symm (by rw [hFC1v]; exact h5)
                  (by rw [hFC1nb]; omega))]
              rw [hFC1nb]
              rw [show (fs.pages v).label.nbytes +
                  min (512 - (fs.pages v).label.nbytes)
                    (s.length - p - (fs.pages v).label.nbytes) =
                  s.length - p from by omega]
              set FC2 : Fs := setPage FC1 v { FC1.pages v with label :=
                { (FC1.pages v).label with nbytes := s.length - p } } with hFC2
              have hFC2v : FC2.pages v = { FC1.pages v with label :=
                  { (FC1.pages v).label with nbytes := s.length - p } } := by
                rw [hFC2]
                exact setPage_eq _ _ _
              have hFC2lab : (FC2.pages v).label =
                  { (fs.pages v).label with nbytes := s.length - p } := by
                rw [hFC2v, hFC1lab]
              have hFC2nb : (FC2.pages v).label.nbytes = s.length - p := by
                rw [hFC2lab]
              have hFC2fp : (FC2.pages v).label.file_pgnum = i := by
                rw [hFC2lab]
                exact h3
              have hFC2data : (FC2.pages v).data = writeBytes (fs.pages v).data 0
                  ((s.drop p).take ((fs.pages v).label.nbytes)) := by
                rw [hFC2v, hFC1v]
              obtain ⟨f3, rfl⟩ : ∃ f3, f2 = f3 + 1 := ⟨f2 - 1, by omega⟩
              rw [writeLoop_next s true f3 _ _
                (writeStep_copy s FC2 fe v i ((fs.pages v).label.nbytes)
                  (p + (fs.pages v).label.nbytes)
                  (s.length - p - (fs.pages v).label.nbytes) (by omega) h1 h2
                  hFC2fp (by rw [hFC2nb]; omega))]
              rw [hFC2nb]
              rw [Nat.min_self]
              rw [show (fs.pages v).label.nbytes +
                  (s.length - p - (fs.pages v).label.nbytes) = s.length - p from
                by omega]
              rw [show p + (fs.pages v).label.nbytes +
                  (s.length - p - (fs.pages v).label.nbytes) = s.length from by
                omega]
              rw [Nat.sub_self]
              obtain ⟨f4, rfl⟩ : ∃ f4, f3 = f4 + 1 := ⟨f3 - 1, by omega⟩
              rw [writeLoop_done s true f4 _ _ (writeStep_done0 s true _ rfl)]
              refine lastPage_post s fe fs _ v i p h1 h2 h3 h5
                (hver v (List.mem_cons_self _ _)) (by omega) hCa ?_ ?_ ?_ ?_ ?_
              · rw [setPage_eq, hFC2lab]
              · have hT1len : ((s.drop p).take
                    ((fs.pages v).label.nbytes)).length =
                    (fs.pages v).label.nbytes := by
                  rw [List.length_take, List.length_drop]
                  omega
                have hT2len : ((s.drop (p + (fs.pages v).label.nbytes)).take
                    (s.length - p - (fs.pages v).label.nbytes)).length =
                    s.length - p - (fs.pages v).label.nbytes := by
                  rw [List.length_take, List.length_drop]
                  omega
                have key := map_range_writeBytes2 (fs.pages v).data
                  ((s.drop p).take ((fs.pages v).label.nbytes))
                  ((s.drop (p + (fs.pages v).label.nbytes)).take
                    (s.length - p - (fs.pages v).label.nbytes))
                rw [hT1len, hT2len] at key
                rw [show (fs.pages v).label.nbytes +
                    (s.length - p - (fs.pages v).label.nbytes) = s.length - p
                  from by omega] at key
                unfold pageTail
                rw [setPage_eq]
                show (List.range ((FC2.pages v).label.nbytes - 0)).map (fun j =>
                  (writeBytes (FC2.pages v).data ((fs.pages v).label.nbytes)
                    ((s.drop (p + (fs.pages v).label.nbytes)).take
                      (s.length - p - (fs.pages v).label.nbytes))) (0 + j)) =
                  s.drop p
                rw [hFC2nb, hFC2data]
                simp only [Nat.sub_zero, Nat.zero_add]
                rw [key]
                rw [show s.drop (p + (fs.pages v).label.nbytes) =
                    (s.drop p).drop ((fs.pages v).label.nbytes) from
                  (List.drop_drop _ _ _).symm]
                rw [← List.take_add]
                rw [show (fs.pages v).label.nbytes +
                    (s.length - p - (fs.pages v).label.nbytes) = s.length - p
                  from by omega]
                exact List.take_of_length_le (by rw [List.length_drop])
              · intro u hu
                rw [setPage_other _ _ _ _ hu, hFC2, setPage_other _ _ _ _ hu,
                  hFC1]
                exact setPage_other _ _ _ _ hu
              · rfl
              · rfl
          · -- last page full: allocate from the free list and continue
            have hLgt : 512 < s.length - p := by omega
            have hvnf : v ∉ freeVdas fs := fun hm =>
              hver v (List.mem_cons_self _ _) ((freeVdas_mem fs v).mp hm).2
            obtain ⟨w, fl', hfv⟩ : ∃ w fl', freeVdas fs = w :: fl' := by
              cases hfve : freeVdas fs with
              | nil =>
                rw [hfve] at hcap
                simp only [List.length_nil] at hcap
                omega
              | cons a l => exact ⟨a, l, rfl⟩
            have hflen : (freeVdas fs).length = fl'.length + 1 := by
              rw [hfv]
              rfl
            have hwmem : w ∈ freeVdas fs := by
              rw [hfv]
              exact List.mem_cons_self _ _
            have hwlt : w < fs.length := ((freeVdas_mem fs w).mp hwmem).1
            have hw0 : w ≠ 0 := fun he => h0f (he ▸ hwmem)
            have hwv : w ≠ v := fun he => hvnf (he ▸ hwmem)
            have hvw : v ≠ w := fun he => hwv he.symm
            have hndfv : (w :: fl').Nodup := hfv ▸ freeVdas_nodup fs
            have hsuf : ∀ (FSX : Fs) (f3 : Nat),
                2 * (s.length - (p + 512)) + 5 * k + 4 ≤ f3 →
                (FSX.pages v).label =
                  { (fs.pages v).label with nbytes := 512 } →
                (FSX.pages v).page_vda = (fs.pages v).page_vda →
                pageTail FSX v 0 = (s.drop p).take 512 →
                (∀ u, u ≠ v → FSX.pages u = fs.pages u) →
                FSX.length = fs.length → FSX.dg = fs.dg →
                ∃ (m : Nat) (fs2 : Fs),
                  writeLoop s true f3
                      ⟨FSX, ⟨fe, ⟨v, i, 512⟩, false⟩, p + 512,
                        s.length - (p + 512)⟩ =
                    some ⟨fs2, ⟨fe,
                      writeEnd fs2 ((v :: []) ++ (freeVdas fs).take m) i
                        (s.length - p), false⟩, s.length, 0⟩ ∧
                  m ≤ (freeVdas fs).length ∧
                  Seg fs2 i ((v :: []) ++ (freeVdas fs).take m) ∧
                  ((v :: []) ++ (freeVdas fs).take m).Nodup ∧
                  segBytes fs2 ((v :: []) ++ (freeVdas fs).take m) =
                    s.drop p ++ (segBytes fs (v :: [])).drop (s.length - p) ∧
                  freeVdas fs2 = (freeVdas fs).drop m ∧
                  (∀ u ∈ (v :: []) ++ (freeVdas fs).take m,
                    (fs2.pages u).label.version ≠ VERSION_FREE) ∧
                  (∀ u, u ∉ (v :: ([] : List Nat)) →
                    u ∉ (freeVdas fs).take m → fs2.pages u = fs.pages u) ∧
                  fs2.length = fs.length ∧ fs2.dg = fs.dg := by
              intro FSX f3 hf3 hXlab hXpv hXtail hXo hXlen hXdg
              have hXnb : (FSX.pages v).label.nbytes = 512 := by
                rw [hXlab]
              have hXfp : (FSX.pages v).label.file_pgnum = i := by
                rw [hXlab]
                exact h3
              have hXver : (FSX.pages v).label.version =
                  (fs.pages v).label.version := by
                rw [hXlab]
              have hXnext : (FSX.pages v).label.next_rda =
                  (fs.pages v).label.next_rda := by
                rw [hXlab]
              have hrtvX : ∀ r, real_to_virtual FSX r = real_to_virtual fs r := by
                intro r
                unfold real_to_virtual
                rw [hXdg]
              have hvtrX : ∀ u, virtual_to_real FSX u = virtual_to_real fs u := by
                intro u
                unfold virtual_to_real
                rw [hXdg, hXlen]
              have hfvX : freeVdas FSX = freeVdas fs := by
                refine freeVdas_congr fs FSX hXlen ?_
                intro u hu
                by_cases huv : u = v
                · subst huv
                  rw [hXver]
                · rw [hXo u huv]
              obtain ⟨rv, hrv, hrvb⟩ := addr_round_trip_aux fs v hg hgl h2
              obtain ⟨rw2, hrw2, hrwb⟩ := addr_round_trip_aux fs w hg hgl hwlt
              obtain ⟨f4, rfl⟩ : ∃ f4, f3 = f4 + 1 := ⟨f3 - 1, by omega⟩
              rw [writeLoop_next s true f4 _ _
                (writeStep_alloc s FSX fe v w i 512 (p + 512)
                  (s.length - (p + 512)) rv rw2 (by omega) h1 (by omega) hXfp
                  hXnb.symm hXnb
                  (by rw [hrtvX, hXnext]; exact h5)
                  (by unfold find_free_page; rw [hfvX, hfv]; rfl)
                  (by rw [hXpv]; exact hpv v (List.mem_cons_self _ _))
                  (by rw [hXo w hwv]; exact hpvf w hwmem)
                  (by rw [hvtrX]; exact hrv)
                  (by rw [hvtrX]; exact hrw2))]
              set FS4 : Fs := allocFs FSX v w (s.length - (p + 512)) rv rw2
                with hFS4
              have hFS4v : FS4.pages v = { FSX.pages v with label :=
                  { (FSX.pages v).label with next_rda := rw2 } } := by
                rw [hFS4]
                unfold allocFs allocFs3
                rw [setPage_other _ _ _ _ hvw]
                unfold allocFs2
                rw [setPage_eq]
                unfold allocFs1
                rw [setPage_other _ _ _ _ hvw]
              have hFS4w : FS4.pages w = { FSX.pages w with label :=
                  { (FSX.pages w).label with
                      next_rda := 0
                      prev_rda := rv
                      nbytes := min ((s.length - (p + 512)) % 65536) 512
                      file_pgnum := ((FSX.pages v).label.file_pgnum + 1) % 65536
                      version := (FSX.pages v).label.version
                      sn := (FSX.pages v).label.sn } } := by
                rw [hFS4]
                unfold allocFs allocFs3
                rw [setPage_eq]
                unfold allocFs2
                rw [setPage_other _ _ _ _ hwv, setPage_eq]
                unfold allocFs1
                rw [setPage_eq, setPage_other _ _ _ _ hvw]
              have hFS4w_nb : (FS4.pages w).label.nbytes =
                  min ((s.length - (p + 512)) % 65536) 512 := by
                rw [hFS4w]
              have hFS4w_fp : (FS4.pages w).label.file_pgnum = i + 1 := by
                rw [hFS4w, hXfp]
                rw [show (i + 1) % 65536 = i + 1 from Nat.mod_eq_of_lt (by omega)]
              have hFS4w_ver : (FS4.pages w).label.version =
                  (fs.pages v).label.version := by
                rw [hFS4w, hXver]
              have hFS4w_next : (FS4.pages w).label.next_rda = 0 := by
                rw [hFS4w]
              have hFS4w_pv : (FS4.pages w).page_vda = w := by
                rw [hFS4w, hXo w hwv]
                exact hpvf w hwmem
              have hFS4v_nb : (FS4.pages v).label.nbytes = 512 := by
                rw [hFS4v, hXlab]
              have hFS4v_fp : (FS4.pages v).label.file_pgnum = i := by
                rw [hFS4v, hXlab]
                exact h3
              have hFS4v_next : (FS4.pages v).label.next_rda = rw2 := by
                rw [hFS4v]
              have hFS4v_ver : (FS4.pages v).label.version =
                  (fs.pages v).label.version := by
                rw [hFS4v, hXlab]
              have hFS4o : ∀ u, u ≠ v → u ≠ w → FS4.pages u = fs.pages u := by
                intro u huv huw
                rw [hFS4]
                unfold allocFs allocFs3 allocFs2 allocFs1
                rw [setPage_other _ _ _ _ huw, setPage_other _ _ _ _ huv,
                  setPage_other _ _ _ _ huw]
                exact hXo u huv
              have hFS4len : FS4.length = fs.length := hXlen
              have hFS4dg : FS4.dg = fs.dg := hXdg
              have hrtv4 : ∀ r, real_to_virtual FS4 r = real_to_virtual fs r := by
                intro r
                unfold real_to_virtual
                rw [hFS4dg]
              have hfv4 : freeVdas FS4 = fl' := by
                refine freeVdas_after_alloc fs FS4 w fl' hfv hFS4len ?_ ?_
                · rw [hFS4w_ver]
                  exact hver v (List.mem_cons_self _ _)
                · intro u hu huw
                  by_cases huv : u = v
                  · subst huv
                    rw [hFS4v_ver]
                  · rw [hFS4o u huv huw]
              obtain ⟨f5, rfl⟩ : ∃ f5, f4 = f5 + 1 := ⟨f4 - 1, by omega⟩
              rw [writeLoop_next s true f5 _ _
                (writeStep_advance s FS4 fe v w i 512 (p + 512)
                  (s.length - (p + 512)) (by omega) h1 (by omega) hFS4v_fp
                  hFS4v_nb.symm (by rw [hFS4v_next, hrtv4]; exact hrwb) hw0)]
              rw [show (i + 1) % 65536 = i + 1 from Nat.mod_eq_of_lt (by omega)]
              have hgp := geom_pos fs hgl (by omega)
              have hseg4 : Seg FS4 (i + 1) [w] := by
                refine ⟨hw0, by omega, hFS4w_fp, ?_, ?_, trivial⟩
                · rw [hFS4w_nb]
                  omega
                · rw [hFS4w_next, hrtv4]
                  exact rtv_zero fs hgp.1 hgp.2.1 hgp.2.2
              have hver4 : ∀ u ∈ [w], (FS4.pages u).label.version ≠
                  VERSION_FREE := by
                intro u hu
                rw [List.mem_singleton] at hu
                subst hu
                rw [hFS4w_ver]
                exact hver v (List.mem_cons_self _ _)
              have hpv4 : ∀ u ∈ [w], (FS4.pages u).page_vda = u := by
                intro u hu
                rw [List.mem_singleton] at hu
                subst hu
                exact hFS4w_pv
              have hpvf4 : ∀ u ∈ freeVdas FS4, (FS4.pages u).page_vda = u := by
                intro u hu
                rw [hfv4] at hu
                have humem : u ∈ freeVdas fs := by
                  rw [hfv]
                  exact List.mem_cons_of_mem _ hu
                have huv : u ≠ v := fun he => hvnf (he ▸ humem)
                have huw : u ≠ w := fun he =>
                  (List.nodup_cons.mp hndfv).1 (he ▸ hu)
                rw [hFS4o u huv huw]
                exact hpvf u humem
              have h0f4 : 0 ∉ freeVdas FS4 := by
                rw [hfv4]
                intro h0m
                exact h0f (by rw [hfv]; exact List.mem_cons_of_mem _ h0m)
              obtain ⟨m', fs2, hrun, hm', hseg2, hnd2, hstream2, hfree2, hver2,
                hunch2, hlen2, hdg2⟩ :=
                ih [w] FS4 (i + 1) (p + 512) f5 (by rw [hFS4dg]; exact hg)
                  (by rw [hFS4len, hFS4dg]; exact hgl) (by simp) hseg4
                  (List.nodup_singleton w) hver4 hpv4 hpvf4 h0f4 (by omega)
                  (by rw [hfv4, List.length_singleton]; omega)
                  (by rw [hfv4, List.length_singleton]; omega)
                  (by rw [hfv4, List.length_singleton]; omega) (by omega)
              rw [hfv4] at hrun hm' hseg2 hnd2 hstream2 hfree2 hver2 hunch2
              have hrun2 : writeLoop s true f5
                  ⟨FS4, ⟨fe, ⟨w, i + 1, 0⟩, false⟩, p + 512,
                    s.length - (p + 512)⟩ =
                  some ⟨fs2, ⟨fe, writeEnd fs2 ([w] ++ fl'.take m') (i + 1)
                    (s.length - (p + 512)), false⟩, s.length, 0⟩ := hrun
              rw [hrun2]
              have hv2pg : fs2.pages v = FS4.pages v :=
                hunch2 v (fun hm => hwv (List.mem_singleton.mp hm).symm)
                  (fun hm => hvnf (by
                    rw [hfv]
                    exact List.mem_cons_of_mem _ (List.mem_of_mem_take hm)))
              have hv2nb : (fs2.pages v).label.nbytes = 512 := by
                rw [hv2pg]
                exact hFS4v_nb
              have hv2fp : (fs2.pages v).label.file_pgnum = i := by
                rw [hv2pg]
                exact hFS4v_fp
              have hv2ver : (fs2.pages v).label.version =
                  (fs.pages v).label.version := by
                rw [hv2pg]
                exact hFS4v_ver
              have hv2next : (fs2.pages v).label.next_rda = rw2 := by
                rw [hv2pg]
                exact hFS4v_next
              have hrtv2 : ∀ r, real_to_virtual fs2 r = real_to_virtual fs r := by
                intro r
                unfold real_to_virtual
                rw [hdg2, hFS4dg]
              have hlen2' : fs2.length = fs.length := by
                rw [hlen2]
                exact hFS4len
              have hdg2' : fs2.dg = fs.dg := by
                rw [hdg2]
                exact hFS4dg
              refine ⟨m' + 1, fs2, ?_, by omega, ?_, ?_, ?_, ?_, ?_, ?_, hlen2',
                hdg2'⟩
              · have hwe : writeEnd fs2
                    ((v :: []) ++ (freeVdas fs).take (m' + 1)) i
                    (s.length - p) =
                    writeEnd fs2 ([w] ++ fl'.take m') (i + 1)
                      (s.length - (p + 512)) := by
                  rw [hfv, List.take_succ_cons]
                  show writeEnd fs2 (v :: w :: fl'.take m') i (s.length - p) = _
                  rw [writeEnd_cons, hv2nb, if_neg (by omega)]
                  rw [show s.length - p - 512 = s.length - (p + 512) from by
                    omega]
                  rfl
                rw [hwe]
              · rw [hfv, List.take_succ_cons]
                show Seg fs2 i (v :: w :: fl'.take m')
                refine ⟨h1, by omega, hv2fp, ?_, ⟨?_, hv2nb⟩, hseg2⟩
                · rw [hv2nb]
                · rw [hv2next, hrtv2]
                  exact hrwb
              · rw [hfv, List.take_succ_cons]
                show (v :: (w :: fl'.take m')).Nodup
                refine List.nodup_cons.mpr ⟨?_, hnd2⟩
                intro hmem
                rcases List.mem_cons.mp hmem with h | h
                · exact hwv h.symm
                · exact hvnf (by
                    rw [hfv]
                    exact List.mem_cons_of_mem _ (List.mem_of_mem_take h))
              · rw [hfv, List.take_succ_cons]
                show segBytes fs2 (v :: (w :: fl'.take m')) =
                  s.drop p ++ (segBytes fs (v :: [])).drop (s.length - p)
                rw [segBytes_cons]
                have hstream2' : segBytes fs2 (w :: fl'.take m') =
                    s.drop (p + 512) ++
                      (segBytes FS4 [w]).drop (s.length - (p + 512)) := hstream2
                rw [hstream2']
                have htail2 : pageTail fs2 v 0 = (s.drop p).take 512 := by
                  unfold pageTail
                  rw [hv2pg, hFS4v]
                  show (List.range ((FSX.pages v).label.nbytes - 0)).map
                    (fun j => (FSX.pages v).data (0 + j)) = (s.drop p).take 512
                  exact hXtail
                rw [htail2]
                have hnil4 : (segBytes FS4 [w]).drop (s.length - (p + 512)) =
                    [] := by
                  refine List.drop_eq_nil_of_le ?_
                  rw [segBytes_cons, segBytes_nil, List.append_nil,
                    pageTail_length, hFS4w_nb]
                  omega
                rw [hnil4, List.append_nil]
                have hnil5 : (segBytes fs (v :: ([] : List Nat))).drop
                    (s.length - p) = [] := by
                  refine List.drop_eq_nil_of_le ?_
                  rw [segBytes_cons, segBytes_nil, List.append_nil,
                    pageTail_length]
                  omega
                rw [hnil5, List.append_nil]
                rw [show s.drop (p + 512) = (s.drop p).drop 512 from
                  (List.drop_drop 512 p s).symm]
                exact List.take_append_drop _ _
              · rw [hfree2, hfv, List.drop_succ_cons]
              · rw [hfv, List.take_succ_cons]
                intro u hu
                have hu' : u = v ∨ u ∈ [w] ++ fl'.take m' := by
                  rcases List.mem_append.mp hu with h | h
                  · exact Or.inl (List.mem_singleton.mp h)
                  · rcases List.mem_cons.mp h with h1 | h1
                    · exact Or.inr (List.mem_append.mpr
                        (Or.inl (List.mem_singleton.mpr h1)))
                    · exact Or.inr (List.mem_append.mpr (Or.inr h1))
                rcases hu' with h | h
                · rw [h, hv2ver]
                  exact hver v (List.mem_cons_self _ _)
                · exact hver2 u h
              · intro u hu1 hu2
                rw [hfv, List.take_succ_cons] at hu2
                have huv : u ≠ v := fun he =>
                  hu1 (he ▸ List.mem_cons_self _ _)
                have huw : u ∉ ([w] : List Nat) := fun hm =>
                  hu2 (List.mem_singleton.mp hm ▸ List.mem_cons_self _ _)
                have hut : u ∉ fl'.take m' := fun hm =>
                  hu2 (List.mem_cons_of_mem _ hm)
                rw [hunch2 u huw hut]
                exact hFS4o u huv (fun he => hu2 (he ▸ List.mem_cons_self _ _))
            by_cases hb0 : (fs.pages v).label.nbytes = 0
            · obtain ⟨f1, rfl⟩ : ∃ f1, fuel = f1 + 1 := ⟨fuel - 1, by omega⟩
              rw [writeLoop_next s true f1 _ _
                (writeStep_extendpage s fs fe v i 0 p (s.length - p) hL0 h1 h2
                  h3 hb0.symm h5 (by omega))]
              rw [show (fs.pages v).label.nbytes +
                  min (512 - (fs.pages v).label.nbytes) (s.length - p) = 512
                from by omega]
              set FB1 : Fs := setPage fs v { fs.pages v with label :=
                { (fs.pages v).label with nbytes := 512 } } with hFB1
              have hFB1v : FB1.pages v = { fs.pages v with label :=
                  { (fs.pages v).label with nbytes := 512 } } := by
                rw [hFB1]
                exact setPage_eq _ _ _
              have hFB1nb : (FB1.pages v).label.nbytes = 512 := by
                rw [hFB1v]
              have hFB1fp : (FB1.pages v).label.file_pgnum = i := by
                rw [hFB1v]
                exact h3
              have hFB1data : (FB1.pages v).data = (fs.pages v).data := by
                rw [hFB1v]
              obtain ⟨f2, rfl⟩ : ∃ f2, f1 = f2 + 1 := ⟨f1 - 1, by omega⟩
              rw [writeLoop_next s true f2 _ _
                (writeStep_copy s FB1 fe v i 0 p (s.length - p) hL0 h1 h2 hFB1fp
                  (by rw [hFB1nb]; omega))]
              rw [hFB1nb]
              rw [show min (512 - 0) (s.length - p) = 512 from by omega]
              rw [show (0 : Nat) + 512 = 512 from rfl]
              rw [show s.length - p - 512 = s.length - (p + 512) from by omega]
              refine hsuf _ f2 (by omega) ?_ ?_ ?_ ?_ ?_ ?_
              · rw [setPage_eq, hFB1v]
              · rw [setPage_eq, hFB1v]
              · unfold pageTail
                rw [setPage_eq]
                show (List.range ((FB1.pages v).label.nbytes - 0)).map (fun j =>
                  (writeBytes (FB1.pages v).data 0 ((s.drop p).take 512))
                    (0 + j)) = (s.drop p).take 512
                rw [hFB1nb, hFB1data]
                simp only [Nat.sub_zero, Nat.zero_add]
                rw [map_range_writeBytes1 (fs.pages v).data ((s.drop p).take 512)
                  512 (by rw [List.length_take, List.length_drop]; omega)]
                rw [List.length_take, List.length_drop]
                rw [show min 512 (s.length - p) = 512 from by omega]
                have hnil : ((List.range (512 : Nat)).map
                    (fun j => (fs.pages v).data j)).drop 512 = ([] : List Nat) :=
                  List.drop_eq_nil_of_le
                    (by rw [List.length_map, List.length_range])
                rw [hnil, List.append_nil]
              · intro u hu
                rw [setPage_other _ _ _ _ hu, hFB1]
                exact setPage_other _ _ _ _ hu
              · rfl
              · rfl
            · by_cases hb512 : (fs.pages v).label.nbytes = 512
              · obtain ⟨f1, rfl⟩ : ∃ f1, fuel = f1 + 1 := ⟨fuel - 1, by omega⟩
                rw [writeLoop_next s true f1 _ _
                  (writeStep_copy s fs fe v i 0 p (s.length - p) hL0 h1 h2 h3
                    (by omega))]
                rw [show min ((fs.pages v).label.nbytes - 0) (s.length - p) =
                    512 from by omega]
                rw [show (0 : Nat) + 512 = 512 from rfl]
                rw [show s.length - p - 512 = s.length - (p + 512) from by omega]
                refine hsuf _ f1 (by omega) ?_ ?_ ?_ ?_ ?_ ?_
                · rw [setPage_eq, ← hb512]
                · rw [setPage_eq]
                · unfold pageTail
                  rw [setPage_eq]
                  show (List.range ((fs.pages v).label.nbytes - 0)).map (fun j =>
                    (writeBytes (fs.pages v).data 0 ((s.drop p).take 512))
                      (0 + j)) = (s.drop p).take 512
                  rw [hb512]
                  simp only [Nat.sub_zero, Nat.zero_add]
                  rw [map_range_writeBytes1 (fs.pages v).data
                    ((s.drop p).take 512) 512
                    (by rw [List.length_take, List.length_drop]; omega)]
                  rw [List.length_take, List.length_drop]
                  rw [show min 512 (s.length - p) = 512 from by omega]
                  have hnil : ((List.range (512 : Nat)).map
                      (fun j => (fs.pages v).data j)).drop 512 =
                      ([] : List Nat) :=
                    List.drop_eq_nil_of_le
                      (by rw [List.length_map, List.length_range])
                  rw [hnil, List.append_nil]
                · intro u hu
                  exact setPage_other _ _ _ _ hu
                · rfl
                · rfl
              · obtain ⟨f1, rfl⟩ : ∃ f1, fuel = f1 + 1 := ⟨fuel - 1, by omega⟩
                rw [writeLoop_next s true f1 _ _
                  (writeStep_copy s fs fe v i 0 p (s.length - p) hL0 h1 h2 h3
                    (by omega))]
                rw [show min ((fs.pages v).label.nbytes - 0) (s.length - p) =
                    (fs.pages v).label.nbytes from by omega]
                rw [show (0 : Nat) + (fs.pages v).label.nbytes =
                    (fs.pages v).label.nbytes from by omega]
                set FC1 : Fs := setPage fs v { fs.pages v with data :=
                  (writeBytes (fs.pages v).data 0
                    ((s.drop p).take ((fs.pages v).label.nbytes))) } with hFC1
                have hFC1v : FC1.pages v = { fs.pages v with data :=
                    (writeBytes (fs.pages v).data 0
                      ((s.drop p).take ((fs.pages v).label.nbytes))) } := by
                  rw [hFC1]
                  exact setPage_eq _ _ _
                have hFC1lab : (FC1.pages v).label = (fs.pages v).label := by
                  rw [hFC1v]
                have hFC1nb : (FC1.pages v).label.nbytes =
                    (fs.pages v).label.nbytes := by
                  rw [hFC1lab]
                have hFC1fp : (FC1.pages v).label.file_pgnum = i := by
                  rw [hFC1lab]
                  exact h3
                obtain ⟨f2, rfl⟩ : ∃ f2, f1 = f2 + 1 := ⟨f1 - 1, by omega⟩
                rw [writeLoop_next s true f2 _ _
                  (writeStep_extendpage s FC1 fe v i ((fs.pages v).label.nbytes)
                    (p + (fs.pages v).label.nbytes)
                    (s.length - p - (fs.pages v).label.nbytes) (by omega) h1 h2
                    hFC1fp hFC1nb.symm (by rw [hFC1v]; exact h5)
                    (by rw [hFC1nb]; omega))]
                rw [hFC1nb]
                rw [show (fs.pages v).label.nbytes +
                    min (512 - (fs.pages v).label.nbytes)
                      (s.length - p - (fs.pages v).label.nbytes) = 512 from by
                  omega]
                set FC2 : Fs := setPage FC1 v { FC1.pages v with label :=
                  { (FC1.pages v).label with nbytes := 512 } } with hFC2
                have hFC2v : FC2.pages v = { FC1.pages v with label :=
                    { (FC1.pages v).label with nbytes := 512 } } := by
                  rw [hFC2]
                  exact setPage_eq _ _ _
                have hFC2lab : (FC2.pages v).label =
                    { (fs.pages v).label with nbytes := 512 } := by
                  rw [hFC2v, hFC1lab]
                have hFC2nb : (FC2.pages v).label.nbytes = 512 := by
                  rw [hFC2lab]
                have hFC2fp : (FC2.pages v).label.file_pgnum = i := by
                  rw [hFC2lab]
                  exact h3
                have hFC2data : (FC2.pages v).data =
                    writeBytes (fs.pages v).data 0
                      ((s.drop p).take ((fs.pages v).label.nbytes)) := by
                  rw [hFC2v, hFC1v]
                obtain ⟨f3, rfl⟩ : ∃ f3, f2 = f3 + 1 := ⟨f2 - 1, by omega⟩
                rw [writeLoop_next s true f3 _ _
                  (writeStep_copy s FC2 fe v i ((fs.pages v).label.nbytes)
                    (p + (fs.pages v).label.nbytes)
                    (s.length - p - (fs.pages v).label.nbytes) (by omega) h1 h2
                    hFC2fp (by rw [hFC2nb]; omega))]
                rw [hFC2nb]
                rw [show min (512 - (fs.pages v).label.nbytes)
                    (s.length - p - (fs.pages v).label.nbytes) =
                    512 - (fs.pages v).label.nbytes from by omega]
                rw [show (fs.pages v).label.nbytes +
                    (512 - (fs.pages v).label.nbytes) = 512 from by omega]
                rw [show p + (fs.pages v).label.nbytes +
                    (512 - (fs.pages v).label.nbytes) = p + 512 from by omega]
                rw [show s.length - p - (fs.pages v).label.nbytes -
                    (512 - (fs.pages v).label.nbytes) = s.length - (p + 512)
                  from by omega]
                refine hsuf _ f3 (by omega) ?_ ?_ ?_ ?_ ?_ ?_
                · rw [setPage_eq, hFC2v, hFC1lab]
                · rw [setPage_eq, hFC2v, hFC1v]
                · have hFC2data' := hFC2data
                  have hT1len : ((s.drop p).take
                      ((fs.pages v).label.nbytes)).length =
                      (fs.pages v).label.nbytes := by
                    rw [List.length_take, List.length_drop]
                    omega
                  have hT2len : ((s.drop (p + (fs.pages v).label.nbytes)).take
                      (512 - (fs.pages v).label.nbytes)).length =
                      512 - (fs.pages v).label.nbytes := by
                    rw [List.length_take, List.length_drop]
                    omega
                  have key := map_range_writeBytes2 (fs.pages v).data
                    ((s.drop p).take ((fs.pages v).label.nbytes))
                    ((s.drop (p + (fs.pages v).label.nbytes)).take
                      (512 - (fs.pages v).label.nbytes))
                  rw [hT1len, hT2len] at key
                  rw [show (fs.pages v).label.nbytes +
                      (512 - (fs.pages v).label.nbytes) = 512 from by omega]
                    at key
                  unfold pageTail
                  rw [setPage_eq]
                  show (List.range ((FC2.pages v).label.nbytes - 0)).map
                    (fun j => (writeBytes (FC2.pages v).data
                      ((fs.pages v).label.nbytes)
                      ((s.drop (p + (fs.pages v).label.nbytes)).take
                        (512 - (fs.pages v).label.nbytes))) (0 + j)) =
                    (s.drop p).take 512
                  rw [hFC2nb, hFC2data']
                  simp only [Nat.sub_zero, Nat.zero_add]
                  rw [key]
                  rw [show s.drop (p + (fs.pages v).label.nbytes) =
                      (s.drop p).drop ((fs.pages v).label.nbytes) from
                    (List.drop_drop _ _ _).symm]
                  rw [← List.take_add]
                  rw [show (fs.pages v).label.nbytes +
                      (512 - (fs.pages v).label.nbytes) = 512 from by omega]
                · intro u hu
                  rw [setPage_other _ _ _ _ hu, hFC2, setPage_other _ _ _ _ hu,
                    hFC1]
                  exact setPage_other _ _ _ _ hu
                · rfl
                · rfl

/-- A list of distinct naturals below n has at most n elements. -/
theorem nodup_lt_length (l : List Nat) (n : Nat) (hnd : l.Nodup)
    (h : ∀ x ∈ l, x < n) : l.length ≤ n := by
  calc l.length = l.toFinset.card := (List.toFinset_card_of_nodup hnd).symm
    _ ≤ (Finset.range n).card := Finset.card_le_card
        (fun x hx => Finset.mem_range.mpr (h x (List.mem_toFinset.mp hx)))
    _ = n := Finset.card_range n

/-- The stream of concatenated chains is the concatenation of streams. -/
theorem segBytes_append (fs : Fs) (l1 l2 : List Nat) :
    segBytes fs (l1 ++ l2) = segBytes fs l1 ++ segBytes fs l2 :=
  List.flatMap_append l1 l2 _

/-- Page bytes of a truncated copy of a page are a prefix of the original
page bytes. -/
theorem pageTail_trunc (fs fs' : Fs) (c q : Nat)
    (hd : (fs'.pages c).data = (fs.pages c).data)
    (hn : (fs'.pages c).label.nbytes = q)
    (hq : q ≤ (fs.pages c).label.nbytes) :
    pageTail fs' c 0 = (pageTail fs c 0).take q := by
  unfold pageTail
  rw [hd, hn]
  simp only [Nat.sub_zero]
  rw [← List.map_take, List.take_range, Nat.min_eq_left hq]

/-- A suffix of a well-formed chain is well formed at the shifted index. -/
theorem Seg_suffix (fs : Fs) :
    ∀ (pre : List Nat) (i : Nat) (suf : List Nat),
      Seg fs i (pre ++ suf) → Seg fs (i + pre.length) suf
  | [], _, _, h => h
  | d :: pre, i, suf, h => by
    have h6 := h.2.2.2.2.2
    have hrec := Seg_suffix fs pre (i + 1) suf h6
    rw [show i + 1 + pre.length = i + (d :: pre).length from by
      rw [List.length_cons]
      omega] at hrec
    exact hrec

/-- Replacing the tail of a well-formed chain after an unchanged prefix:
the new tail must be well formed at the right index and keep the old head
page, so that the last prefix page still links to it. -/
theorem Seg_glue (fs fs' : Fs) (hlen : fs'.length = fs.length)
    (hrtv : ∀ r, real_to_virtual fs' r = real_to_virtual fs r) :
    ∀ (pre : List Nat) (i : Nat) (c : Nat) (post T : List Nat),
      Seg fs i (pre ++ c :: post) →
      (∀ u ∈ pre, fs'.pages u = fs.pages u) →
      T.headD 0 = c → T ≠ [] →
      Seg fs' (i + pre.length) T →
      Seg fs' i (pre ++ T)
  | [], i, c, post, T, hseg, hpre, hhead, hne, hT => by
    have h0 : i + ([] : List Nat).length = i := rfl
    rw [h0] at hT
    exact hT
  | d :: pre, i, c, post, T, hseg, hpre, hhead, hne, hT => by
    obtain ⟨h1, h2, h3, h4, h5, h6⟩ := hseg
    have hd := hpre d (List.mem_cons_self _ _)
    have hT' : Seg fs' (i + 1 + pre.length) T := by
      rw [show i + 1 + pre.length = i + (d :: pre).length from by
        rw [List.length_cons]
        omega]
      exact hT
    have ih := Seg_glue fs fs' hlen hrtv pre (i + 1) c post T h6
      (fun u hu => hpre u (List.mem_cons_of_mem _ hu)) hhead hne hT'
    refine ⟨h1, by omega, by rw [hd]; exact h3, by rw [hd]; exact h4, ?_, ih⟩
    cases pre with
    | nil =>
      cases T with
      | nil => exact absurd rfl hne
      | cons t ts =>
        have htc : t = c := hhead
        exact ⟨by rw [hrtv, hd, htc]; exact h5.1, by rw [hd]; exact h5.2⟩
    | cons e pre2 =>
      exact ⟨by rw [hrtv, hd]; exact h5.1, by rw [hd]; exact h5.2⟩

/-- Decomposition of the write cursor: after writing `off` stream bytes the
cursor sits in the chain page holding the byte at offset off, at the
matching offset inside that page, and the pages before it carry exactly
the earlier stream bytes. -/
theorem writeEnd_decomp (fs : Fs) :
    ∀ (cs : List Nat) (i off : Nat),
      Seg fs i cs → cs ≠ [] → off ≤ (segBytes fs cs).length →
      ∃ (pre : List Nat) (c : Nat) (post : List Nat),
        cs = pre ++ c :: post ∧
        writeEnd fs cs i off =
          ⟨c, i + pre.length, off - (segBytes fs pre).length⟩ ∧
        (segBytes fs pre).length ≤ off ∧
        off - (segBytes fs pre).length ≤ (fs.pages c).label.nbytes ∧
        segBytes fs pre ++
            (pageTail fs c 0).take (off - (segBytes fs pre).length) =
          (segBytes fs cs).take off
  | [], _, _, _, hne, _ => absurd rfl hne
  | [v], i, off, hseg, _, hoff => by
    refine ⟨[], v, [], rfl, ?_, ?_, ?_, ?_⟩
    · rfl
    · rw [segBytes_nil]
      exact Nat.zero_le _
    · have hlen : (segBytes fs [v]).length = (fs.pages v).label.nbytes - 0 := by
        rw [segBytes_cons, segBytes_nil, List.append_nil, pageTail_length]
      rw [hlen] at hoff
      rw [segBytes_nil, List.length_nil]
      omega
    · rw [segBytes_nil, List.length_nil, List.nil_append, Nat.sub_zero]
      rw [segBytes_cons, segBytes_nil, List.append_nil]
  | v :: w :: rest, i, off, hseg, _, hoff => by
    obtain ⟨h1, h2, h3, h4, h5, h6⟩ := hseg
    by_cases hcase : off ≤ (fs.pages v).label.nbytes
    · refine ⟨[], v, w :: rest, rfl, ?_, ?_, ?_, ?_⟩
      · rw [writeEnd_cons, if_pos hcase]
        rfl
      · rw [segBytes_nil]
        exact Nat.zero_le _
      · rw [segBytes_nil, List.length_nil]
        omega
      · rw [segBytes_nil, List.length_nil, List.nil_append, Nat.sub_zero]
        rw [segBytes_cons]
        rw [List.take_append_of_le_length (by rw [pageTail_length]; omega)]
    · obtain ⟨h5a, h5b⟩ := h5
      have hoff' : off - (fs.pages v).label.nbytes ≤
          (segBytes fs (w :: rest)).length := by
        rw [segBytes_cons, List.length_append, pageTail_length] at hoff
        omega
      obtain ⟨pre', c, post, hsp, hwe, hple, hqle, hstr⟩ :=
        writeEnd_decomp fs (w :: rest) (i + 1)
          (off - (fs.pages v).label.nbytes) h6 (by simp) hoff'
      refine ⟨v :: pre', c, post, by rw [hsp]; rfl, ?_, ?_, ?_, ?_⟩
      · rw [writeEnd_cons, if_neg hcase, hwe]
        have e1 : i + 1 + pre'.length = i + (v :: pre').length := by
          rw [List.length_cons]
          omega
        have e2 : off - (fs.pages v).label.nbytes - (segBytes fs pre').length =
            off - (segBytes fs (v :: pre')).length := by
          rw [segBytes_cons, List.length_append, pageTail_length]
          omega
        rw [e1, e2]
      · rw [segBytes_cons, List.length_append, pageTail_length]
        omega
      · rw [show off - (segBytes fs (v :: pre')).length =
            off - (fs.pages v).label.nbytes - (segBytes fs pre').length from by
          rw [segBytes_cons, List.length_append, pageTail_length]
          omega]
        exact hqle
      · rw [show off - (segBytes fs (v :: pre')).length =
            off - (fs.pages v).label.nbytes - (segBytes fs pre').length from by
          rw [segBytes_cons, List.length_append, pageTail_length]
          omega]
        rw [segBytes_cons fs v pre', List.append_assoc, hstr]
        rw [← List.take_append]
        rw [pageTail_length]
        rw [show (fs.pages v).label.nbytes - 0 +
            (off - (fs.pages v).label.nbytes) = off from by omega]
        rw [← segBytes_cons]

/-- C1 (amended): write+trim+read round trip.  For a well-formed file with
at least one data page, whose chain pages and free pages are disjoint from
each other, self-identifying and nonzero, writing any byte string no
longer than the file's current length plus 512 bytes per free page (with
extend enabled) transfers every byte; the subsequent trim succeeds and
leaves a well-formed chain carrying exactly the written bytes, and
reopening and reading everything back returns exactly the written string. -/
theorem fs_write_trim_read_roundtrip (fs : Fs) (fe : FileEntry)
    (s chain : List Nat)
    (hg : validGeometry fs.dg)
    (hgl : fs.length = geomLength fs.dg)
    (hwf : WfFile fs fe chain)
    (hch : chain ≠ [])
    (hnd : (fe.leader_vda :: chain).Nodup)
    (hver : ∀ u ∈ fe.leader_vda :: chain,
      (fs.pages u).label.version ≠ VERSION_FREE)
    (hpv : ∀ u ∈ chain, (fs.pages u).page_vda = u)
    (hpvf : ∀ u ∈ freeVdas fs, (fs.pages u).page_vda = u)
    (h0f : 0 ∉ freeVdas fs)
    (hcap : s.length ≤ (segBytes fs chain).length +
      512 * (freeVdas fs).length) :
    ∃ (fs2 fs3 : Fs) (of2 of3 : OpenFile) (chain3 : List Nat),
      fs_write fs (fs_open fs fe false) s true = some (fs2, of2, s.length) ∧
      fs_trim fs2 of2 = some (fs3, of3, true) ∧
      WfFile fs3 fe chain3 ∧
      segBytes fs3 chain3 = s ∧
      (fs_read fs3 (fs_open fs3 fe false) (s.length + 1)).1 = s := by
  obtain ⟨hseg0, hchlen, hlen16⟩ := hwf
  cases chain with
  | nil => exact absurd rfl hch
  | cons c0 rest =>
  obtain ⟨hl1, hl2, hl3, hl4, hl5, hseg1⟩ := hseg0
  obtain ⟨hlnd, hchnd⟩ := List.nodup_cons.mp hnd
  have hverc : ∀ u ∈ c0 :: rest, (fs.pages u).label.version ≠ VERSION_FREE :=
    fun u hu => hver u (List.mem_cons_of_mem _ hu)
  have hlver : (fs.pages fe.leader_vda).label.version ≠ VERSION_FREE :=
    hver _ (List.mem_cons_self _ _)
  have hlnf : fe.leader_vda ∉ freeVdas fs := fun hm =>
    hlver ((freeVdas_mem fs _).mp hm).2
  have hsb_le : (segBytes fs (c0 :: rest)).length ≤ 512 * (c0 :: rest).length :=
    segBytes_le fs (c0 :: rest) 1 hseg1
  have hdisj : ∀ a ∈ c0 :: rest, a ∉ freeVdas fs := fun a ha hm =>
    hverc a ha ((freeVdas_mem fs a).mp hm).2
  have hndapp : ((c0 :: rest) ++ freeVdas fs).Nodup :=
    List.Nodup.append hchnd (freeVdas_nodup fs) hdisj
  have hmemapp : ∀ x ∈ (c0 :: rest) ++ freeVdas fs, x < fs.length := by
    intro x hx
    rcases List.mem_append.mp hx with h | h
    · exact (Seg_mem fs (c0 :: rest) 1 hseg1 x h).2
    · exact ((freeVdas_mem fs x).mp h).1
  have hcount : (c0 :: rest).length + (freeVdas fs).length ≤ fs.length := by
    have hb := nodup_lt_length ((c0 :: rest) ++ freeVdas fs) fs.length hndapp
      hmemapp
    rw [List.length_append] at hb
    exact hb
  have hbound : 1 + (c0 :: rest).length + (freeVdas fs).length ≤ 65535 := by
    have hndl : (fe.leader_vda :: ((c0 :: rest) ++ freeVdas fs)).Nodup := by
      refine List.nodup_cons.mpr ⟨?_, hndapp⟩
      intro hmem
      rcases List.mem_append.mp hmem with h | h
      · exact hlnd h
      · exact hlnf h
    have hb := nodup_lt_length (fe.leader_vda :: ((c0 :: rest) ++ freeVdas fs))
      fs.length hndl
      (by
        intro x hx
        rcases List.mem_cons.mp hx with h | h
        · exact h ▸ hl2
        · exact hmemapp x h)
    rw [List.length_cons, List.length_append] at hb
    omega
  have hopen : fs_open fs fe false = ⟨fe, ⟨c0, 1, 0⟩, false⟩ := by
    rw [fs_open_wf fs fe (c0 :: rest)
      ⟨⟨hl1, hl2, hl3, hl4, hl5, hseg1⟩, hchlen, hlen16⟩]
    rw [readEnd_cons, if_pos (by omega)]
  obtain ⟨m, fs2, hrun, hm, hseg2, hnd2, hstream2, hfree2, hver2, hunch2,
    hlen2, hdg2⟩ :=
    writeLoop_master s fe ((c0 :: rest).length + (freeVdas fs).length)
      (c0 :: rest) fs 1 0 (writeFuel fs s.length) hg hgl (by simp) hseg1
      hchnd hverc hpv hpvf h0f (Nat.zero_le _) (by omega) hbound
      (Nat.le_refl _) (by unfold writeFuel; omega)
  set CS2 : List Nat := (c0 :: rest) ++ (freeVdas fs).take m with hCS2
  have hrun2 : writeLoop s true (writeFuel fs s.length)
      ⟨fs, ⟨fe, ⟨c0, 1, 0⟩, false⟩, 0, s.length⟩ =
      some ⟨fs2, ⟨fe, writeEnd fs2 CS2 1 s.length, false⟩, s.length, 0⟩ := hrun
  have hwrite : fs_write fs ⟨fe, ⟨c0, 1, 0⟩, false⟩ s true =
      some (fs2, ⟨fe, writeEnd fs2 CS2 1 s.length, false⟩, s.length) := by
    unfold fs_write
    rw [hrun2]
    rfl
  have hstream2x : segBytes fs2 CS2 =
      s ++ (segBytes fs (c0 :: rest)).drop s.length := by
    have h := hstream2
    rw [List.drop_zero] at h
    exact h
  have hlenCS2 : s.length ≤ (segBytes fs2 CS2).length := by
    rw [hstream2x, List.length_append]
    omega
  obtain ⟨pre, c, post, hsplit, hweq, hple, hqle, hstream_pre⟩ :=
    writeEnd_decomp fs2 CS2 1 s.length hseg2 (by rw [hCS2]; simp) hlenCS2
  have hrtv2x : ∀ r, real_to_virtual fs2 r = real_to_virtual fs r := by
    intro r
    unfold real_to_virtual
    rw [hdg2]
  set q : Nat := s.length - (segBytes fs2 pre).length with hqdef
  have hsegc : Seg fs2 (1 + pre.length) (c :: post) :=
    Seg_suffix fs2 pre 1 (c :: post) (hsplit ▸ hseg2)
  have hndCS2 : (pre ++ c :: post).Nodup := hsplit ▸ hnd2
  have hndc : (c :: post).Nodup := hndCS2.of_append_right
  have hszc : post.length + 1 ≤ fs2.length := by
    have hb := nodup_lt_length (c :: post) fs2.length hndc
      (fun x hx => (Seg_mem fs2 (c :: post) (1 + pre.length) hsegc x hx).2)
    rw [List.length_cons] at hb
    exact hb
  obtain ⟨fs3, htrim, hunch3, hqne_cl, hq512_cl, hlen3, hdg3⟩ :=
    fs_trim_wf_aux fs2 fe (1 + pre.length) c q (1 + pre.length) post hsegc
      hndc hszc
  have hrtv3 : ∀ r, real_to_virtual fs3 r = real_to_virtual fs2 r := by
    intro r
    unfold real_to_virtual
    rw [hdg3]
  have hgp := geom_pos fs hgl (by omega)
  have hwrite2 : fs_write fs ⟨fe, ⟨c0, 1, 0⟩, false⟩ s true =
      some (fs2, ⟨fe, ⟨c, 1 + pre.length, q⟩, false⟩, s.length) := by
    rw [hwrite]
    rw [show writeEnd fs2 CS2 1 s.length =
      (⟨c, 1 + pre.length, q⟩ : Position) from hweq]
  have hstream_s : segBytes fs2 pre ++ (pageTail fs2 c 0).take q = s := by
    rw [hstream_pre, hstream2x]
    exact List.take_left _ _
  have hlnCS2 : fe.leader_vda ∉ CS2 := by
    rw [hCS2]
    intro hmem
    rcases List.mem_append.mp hmem with h | h
    · exact hlnd h
    · exact hlnf (List.mem_of_mem_take h)
  have hld2 : fs2.pages fe.leader_vda = fs.pages fe.leader_vda :=
    hunch2 _ hlnd (fun hm => hlnf (List.mem_of_mem_take hm))
  have hlcpost : fe.leader_vda ∉ c :: post := fun hm =>
    hlnCS2 (by rw [hsplit]; exact List.mem_append_right _ hm)
  have hseg20 : Seg fs2 0 (fe.leader_vda :: CS2) := by
    refine ⟨hl1, by omega, ?_, ?_, ?_, hseg2⟩
    · rw [hld2]
      exact hl3
    · rw [hld2]
      exact hl4
    · show real_to_virtual fs2 ((fs2.pages fe.leader_vda).label.next_rda) =
          some c0 ∧ (fs2.pages fe.leader_vda).label.nbytes = 512
      exact ⟨by rw [hrtv2x, hld2]; exact hl5.1, by rw [hld2]; exact hl5.2⟩
  have hfinish : ∀ (T : List Nat),
      T.headD 0 = c → T ≠ [] →
      Seg fs3 (1 + pre.length) T →
      (∀ u ∈ T, u ∈ c :: post) →
      (pre ++ T).Nodup →
      segBytes fs3 T = (pageTail fs2 c 0).take q →
      ∃ (fs2a fs3a : Fs) (of2 of3 : OpenFile) (chain3 : List Nat),
        fs_write fs (fs_open fs fe false) s true =
          some (fs2a, of2, s.length) ∧
        fs_trim fs2a of2 = some (fs3a, of3, true) ∧
        WfFile fs3a fe chain3 ∧
        segBytes fs3a chain3 = s ∧
        (fs_read fs3a (fs_open fs3a fe false) (s.length + 1)).1 = s := by
    intro T hhead hTne hsegT hTsub hndpT hsbT
    have hpre_unch : ∀ u ∈ pre, fs3.pages u = fs2.pages u := by
      intro u hu
      refine hunch3 u ?_
      intro hmem
      exact (List.disjoint_of_nodup_append hndCS2) hu hmem
    have hstream3 : segBytes fs3 (pre ++ T) = s := by
      rw [segBytes_append, hsbT, segBytes_congr fs2 fs3 pre hpre_unch,
        hstream_s]
    have hT2 : Seg fs3 (0 + (fe.leader_vda :: pre).length) T := by
      rw [show (0 : Nat) + (fe.leader_vda :: pre).length = 1 + pre.length from
        by rw [List.length_cons]; omega]
      exact hsegT
    have hseg30 : Seg fs3 0 ((fe.leader_vda :: pre) ++ T) :=
      Seg_glue fs2 fs3 hlen3 hrtv3 (fe.leader_vda :: pre) 0 c post T
        (by
          show Seg fs2 0 (fe.leader_vda :: (pre ++ c :: post))
          rw [← hsplit]
          exact hseg20)
        (by
          intro u hu
          rcases List.mem_cons.mp hu with h | h
          · rw [h]
            exact hunch3 _ hlcpost
          · exact hpre_unch u h)
        hhead hTne hT2
    have hndchain3 : (fe.leader_vda :: (pre ++ T)).Nodup := by
      refine List.nodup_cons.mpr ⟨?_, hndpT⟩
      intro hmem
      rcases List.mem_append.mp hmem with h | h
      · exact hlnCS2 (by rw [hsplit]; exact List.mem_append_left _ h)
      · exact hlnCS2 (by
          rw [hsplit]
          exact List.mem_append_right _ (hTsub _ h))
    have hmem3 : ∀ x ∈ fe.leader_vda :: (pre ++ T), x < fs.length := by
      intro x hx
      rcases List.mem_cons.mp hx with h | h
      · exact h ▸ hl2
      · have hxCS2 : x ∈ CS2 := by
          rw [hsplit]
          rcases List.mem_append.mp h with h1 | h1
          · exact List.mem_append_left _ h1
          · exact List.mem_append_right _ (hTsub _ h1)
        have hb := (Seg_mem fs2 CS2 1 hseg2 x hxCS2).2
        omega
    have hwf3 : WfFile fs3 fe (pre ++ T) := by
      refine ⟨hseg30, ?_, by omega⟩
      have hb := nodup_lt_length _ fs.length hndchain3 hmem3
      rw [List.length_cons] at hb
      omega
    refine ⟨fs2, fs3, ⟨fe, ⟨c, 1 + pre.length, q⟩, false⟩,
      ⟨fe, ⟨c, 1 + pre.length, q⟩, false⟩, pre ++ T, ?_, htrim, hwf3,
      hstream3, ?_⟩
    · rw [hopen]
      exact hwrite2
    · rw [fs_open_wf fs3 fe (pre ++ T) hwf3,
        fs_read_at fs3 fe (pre ++ T) 0 (s.length + 1) hwf3]
      show ((segBytes fs3 (pre ++ T)).drop 0).take (s.length + 1) = s
      rw [List.drop_zero, hstream3]
      exact List.take_of_length_le (by omega)
  by_cases hq512 : q = 512
  · obtain ⟨hc_rec, hd_all⟩ := hq512_cl hq512
    cases post with
    | nil =>
      obtain ⟨hc1, hc2, hc3, hc4, hc5, -⟩ := hsegc
      have hc_nb3 : (fs3.pages c).label.nbytes = q := by
        rw [hc_rec]
      have hc_fp3 : (fs3.pages c).label.file_pgnum = 1 + pre.length := by
        rw [hc_rec]
        exact hc3
      have hc_next3 : (fs3.pages c).label.next_rda =
          (fs2.pages c).label.next_rda := by
        rw [hc_rec]
      have hc_data3 : (fs3.pages c).data = (fs2.pages c).data := by
        rw [hc_rec]
      refine hfinish [c] rfl (by simp) ?_ ?_ ?_ ?_
      · refine ⟨hc1, by omega, hc_fp3, ?_, ?_, trivial⟩
        · rw [hc_nb3]
          omega
        · rw [hc_next3, hrtv3]
          exact hc5
      · intro u hu
        rw [List.mem_singleton] at hu
        rw [hu]
        exact List.mem_cons_self _ _
      · exact hndCS2
      · rw [segBytes_cons, segBytes_nil, List.append_nil]
        exact pageTail_trunc fs2 fs3 c q hc_data3 hc_nb3 hqle
    | cons d post2 =>
      obtain ⟨hd_rec, hfree_post2⟩ := hd_all d post2 rfl
      obtain ⟨hc1, hc2, hc3, hc4, hc5, hsegd⟩ := hsegc
      obtain ⟨hd1, hd2, hd3, hd4, -, -⟩ := hsegd
      have hc_nb3 : (fs3.pages c).label.nbytes = q := by
        rw [hc_rec]
      have hc_fp3 : (fs3.pages c).label.file_pgnum = 1 + pre.length := by
        rw [hc_rec]
        exact hc3
      have hc_next3 : (fs3.pages c).label.next_rda =
          (fs2.pages c).label.next_rda := by
        rw [hc_rec]
      have hc_data3 : (fs3.pages c).data = (fs2.pages c).data := by
        rw [hc_rec]
      have hd_nb3 : (fs3.pages d).label.nbytes = 0 := by
        rw [hd_rec]
      have hd_fp3 : (fs3.pages d).label.file_pgnum = 1 + pre.length + 1 := by
        rw [hd_rec]
        exact hd3
      have hd_next3 : (fs3.pages d).label.next_rda = 0 := by
        rw [hd_rec]
      have hd_data3 : (fs3.pages d).data = (fs2.pages d).data := by
        rw [hd_rec]
      refine hfinish [c, d] rfl (by simp) ?_ ?_ ?_ ?_
      · refine ⟨hc1, by omega, hc_fp3, ?_, ⟨?_, ?_⟩, hd1, by omega, hd_fp3,
          ?_, ?_, trivial⟩
        · rw [hc_nb3]
          omega
        · rw [hc_next3, hrtv3]
          exact hc5.1
        · rw [hc_nb3]
          exact hq512
        · rw [hd_nb3]
          omega
        · rw [hd_next3, hrtv3, hrtv2x]
          exact rtv_zero fs hgp.1 hgp.2.1 hgp.2.2
      · intro u hu
        rcases List.mem_cons.mp hu with h | h
        · rw [h]
          exact List.mem_cons_self _ _
        · rw [List.mem_singleton] at h
          rw [h]
          exact List.mem_cons_of_mem _ (List.mem_cons_self _ _)
      · refine List.Nodup.sublist ?_ hndCS2
        refine List.Sublist.append_left ?_ pre
        exact List.Sublist.cons₂ c (List.Sublist.cons₂ d (List.nil_sublist _))
      · rw [segBytes_cons, segBytes_cons, segBytes_nil, List.append_nil]
        have hptd : pageTail fs3 d 0 = [] := by
          have h := pageTail_trunc fs2 fs3 d 0 hd_data3 hd_nb3 (Nat.zero_le _)
          rw [List.take_zero] at h
          exact h
        rw [hptd, List.append_nil]
        exact pageTail_trunc fs2 fs3 c q hc_data3 hc_nb3 hqle
  · obtain ⟨hc_rec, hfreed⟩ := hqne_cl hq512
    obtain ⟨hc1, hc2, hc3, hc4, hc5, -⟩ := hsegc
    have hc_nb3 : (fs3.pages c).label.nbytes = q := by
      rw [hc_rec]
    have hc_fp3 : (fs3.pages c).label.file_pgnum = 1 + pre.length := by
      rw [hc_rec]
      exact hc3
    have hc_next3 : (fs3.pages c).label.next_rda = 0 := by
      rw [hc_rec]
    have hc_data3 : (fs3.pages c).data = (fs2.pages c).data := by
      rw [hc_rec]
    refine hfinish [c] rfl (by simp) ?_ ?_ ?_ ?_
    · refine ⟨hc1, by omega, hc_fp3, ?_, ?_, trivial⟩
      · rw [hc_nb3]
        omega
      · rw [hc_next3, hrtv3, hrtv2x]
        exact rtv_zero fs hgp.1 hgp.2.1 hgp.2.2
    · intro u hu
      rw [List.mem_singleton] at hu
      rw [hu]
      exact List.mem_cons_self _ _
    · refine List.Nodup.sublist ?_ hndCS2
      refine List.Sublist.append_left ?_ pre
      exact List.Sublist.cons₂ c (List.nil_sublist _)
    · rw [segBytes_cons, segBytes_nil, List.append_nil]
      exact pageTail_trunc fs2 fs3 c q hc_data3 hc_nb3 hqle

/-- Well-formed file with no data page at all (the leader's next_rda is the
end-of-chain sentinel) on a store with one free page. -/
def c1xFs : Fs :=
  ⟨⟨1, 1, 4⟩, 4, fun v =>
    if v = 1 then ⟨1, 0, 4096, ⟨0, 0, 0, 512, 0, 1, ⟨0, 5⟩⟩, fun _ => 0⟩
    else if v = 2 then ⟨2, 0, 8192, ⟨0, 0, 0, 0, 0, 65535, ⟨0, 0⟩⟩, fun _ => 0⟩
    else ⟨v, 0, 0, ⟨0, 0, 0, 0, 0, 1, ⟨0, 0⟩⟩, fun _ => 0⟩⟩

/-- File entry of the leader-only file of c1xFs. -/
def c1xFe : FileEntry := ⟨⟨0, 5⟩, 1, 0, 1⟩

/-- Counterexample to C1 as stated: on a well-formed file whose chain has
no data page, a one-byte write with extend enabled fits in the free space
but transfers zero bytes (the cursor opens at the end-of-chain sentinel
and the loop stops at once), so the read-back is empty, not the written
string. -/
theorem fs_write_trim_read_counterexample :
    WfFile c1xFs c1xFe [] ∧
    ([42] : List Nat).length ≤ (segBytes c1xFs []).length +
      512 * (freeVdas c1xFs).length ∧
    (fs_write c1xFs (fs_open c1xFs c1xFe false) [42] true).map
        (fun r => (r.2.2, (fs_read r.1 (fs_open r.1 c1xFe false) 2).1)) =
      some (0, []) ∧
    ([] : List Nat) ≠ [42] := by
  decide

/-- The S6 configuration: a file of length 0 (leader at VDA 1 and one data
page at VDA 2 holding 0 bytes) with two free pages, VDAs 3 and 4. -/
def s6Fs : Fs :=
  ⟨⟨1, 1, 5⟩, 5, fun v =>
    if v = 1 then ⟨1, 0, 4096, ⟨8192, 0, 0, 512, 0, 1, ⟨0, 7⟩⟩, fun _ => 0⟩
    else if v = 2 then
      ⟨2, 0, 8192, ⟨0, 4096, 0, 0, 1, 1, ⟨0, 7⟩⟩, fun _ => 0⟩
    else if v = 3 then
      ⟨3, 0, 12288, ⟨0, 0, 0, 0, 0, 65535, ⟨0, 0⟩⟩, fun _ => 0⟩
    else if v = 4 then
      ⟨4, 0, 16384, ⟨0, 0, 0, 0, 0, 65535, ⟨0, 0⟩⟩, fun _ => 0⟩
    else ⟨0, 0, 0, ⟨0, 0, 0, 0, 0, 1, ⟨0, 0⟩⟩, fun _ => 0⟩⟩

/-- File entry of the length-0 file of s6Fs. -/
def s6Fe : FileEntry := ⟨⟨0, 7⟩, 1, 0, 1⟩

set_option maxRecDepth 40000 in
/-- Witness for the write+trim+read round trip: 700 bytes written into the
length-0 file of s6Fs.  The side computation checks the S6 instance: the
file length afterwards is 700 and the chain holds two non-leader pages
with 512 and 188 bytes, the second ending the chain. -/
theorem fs_write_trim_read_roundtrip_witness :
    (WfFile s6Fs s6Fe [2] ∧
      fs_file_length s6Fs s6Fe = some 0 ∧
      (List.replicate 700 7).length ≤ (segBytes s6Fs [2]).length +
        512 * (freeVdas s6Fs).length ∧
      ((fs_write s6Fs (fs_open s6Fs s6Fe false) (List.replicate 700 7)
          true).bind
        (fun r => (fs_trim r.1 r.2.1).map (fun t =>
          (fs_file_length t.1 s6Fe, (t.1.pages 2).label.nbytes,
            (t.1.pages 3).label.nbytes,
            real_to_virtual t.1 ((t.1.pages 2).label.next_rda),
            real_to_virtual t.1 ((t.1.pages 3).label.next_rda),
            (t.1.pages 4).label.version)))) =
        some (some 700, 512, 188, some 3, some 0, 65535)) ∧
    (∃ (fs2 fs3 : Fs) (of2 of3 : OpenFile) (chain3 : List Nat),
      fs_write s6Fs (fs_open s6Fs s6Fe false) (List.replicate 700 7) true =
        some (fs2, of2, (List.replicate 700 7).length) ∧
      fs_trim fs2 of2 = some (fs3, of3, true) ∧
      WfFile fs3 s6Fe chain3 ∧
      segBytes fs3 chain3 = List.replicate 700 7 ∧
      (fs_read fs3 (fs_open fs3 s6Fe false)
        ((List.replicate 700 7).length + 1)).1 = List.replicate 700 7) :=
  ⟨by decide,
    fs_write_trim_read_roundtrip s6Fs s6Fe (List.replicate 700 7) [2]
      (by decide) rfl (by decide) (by decide) (by decide) (by decide)
      (by decide) (by decide) (by decide) (by decide)⟩
